import Mathlib

set_option autoImplicit false

namespace RaptorQ

/-! # GF(256) octets

Modelled from the spec: the field element type ("octet") lives outside the
matrix engine source (§1, §6).  Addition is bitwise xor (self-inverse),
multiplication is binary-polynomial multiplication reduced by the RFC 6330
polynomial `x^8+x^4+x^3+x^2+1` (`0x11D`); zero absorbs, one is the identity. -/

/-- A field element of GF(256), stored as a byte. -/
def Oct : Type := Fin 256

instance : DecidableEq Oct := instDecidableEqFin 256

/-- The zero octet. -/
def octZero : Oct := ⟨0, by decide⟩

/-- The one octet. -/
def octOne : Oct := ⟨1, by decide⟩

instance : Zero Oct := ⟨octZero⟩
instance : One Oct := ⟨octOne⟩

/-- GF(256) addition: bitwise xor. -/
def octAdd (a b : Oct) : Oct :=
  ⟨a.val ^^^ b.val, Nat.xor_lt_two_pow (n := 8) a.isLt b.isLt⟩

/-- One step list of Russian-peasant GF(256) multiplication: 8 rounds, xor-ing
the shifted first operand into the accumulator for each set bit of the second,
reducing by `0x11D` whenever the first operand leaves the byte range. -/
def gmulAux (n : Nat) : Nat → Nat → Nat → Nat :=
  Nat.rec (motive := fun _ => Nat → Nat → Nat → Nat)
    (fun _ _ p => p)
    (fun _ ih a b p =>
      ih (if 128 ≤ a then (2 * a) ^^^ 0x11D else 2 * a) (b / 2)
        (if b % 2 = 1 then p ^^^ a else p)) n

theorem gmulAux_succ (n a b p : Nat) :
    gmulAux (n + 1) a b p =
      gmulAux n (if 128 ≤ a then (2 * a) ^^^ 0x11D else 2 * a) (b / 2)
        (if b % 2 = 1 then p ^^^ a else p) := rfl

/-- GF(256) multiplication on raw bytes. -/
def gmul (a b : Nat) : Nat := gmulAux 8 a b 0

/-- GF(256) multiplication on octets. -/
def octMul (a b : Oct) : Oct := ⟨gmul a.val b.val % 256, Nat.mod_lt _ (by decide)⟩

theorem octAdd_zero (a : Oct) : octAdd a 0 = a := by
  unfold octAdd
  apply Fin.ext
  show a.val ^^^ (octZero).val = a.val
  simp [octZero]

theorem zero_octAdd (a : Oct) : octAdd 0 a = a := by
  unfold octAdd
  apply Fin.ext
  show (octZero).val ^^^ a.val = a.val
  simp [octZero]

theorem octAdd_self (a : Oct) : octAdd a a = 0 := by
  unfold octAdd
  apply Fin.ext
  show a.val ^^^ a.val = (octZero).val
  simp [octZero]

theorem octAdd_comm (a b : Oct) : octAdd a b = octAdd b a := by
  unfold octAdd
  apply Fin.ext
  exact Nat.xor_comm a.val b.val

theorem octAdd_assoc (a b c : Oct) : octAdd (octAdd a b) c = octAdd a (octAdd b c) := by
  unfold octAdd
  apply Fin.ext
  exact Nat.xor_assoc a.val b.val c.val

instance : Add Oct := ⟨octAdd⟩

instance : AddCommMonoid Oct where
  add_assoc := octAdd_assoc
  zero_add := zero_octAdd
  add_zero := octAdd_zero
  add_comm := octAdd_comm
  nsmul := nsmulRec

theorem octAdd_eq_add (a b : Oct) : octAdd a b = a + b := rfl

theorem gmulAux_zero_left (n b : Nat) : gmulAux n 0 b 0 = 0 := by
  induction n generalizing b with
  | zero => rfl
  | succ n ih =>
    rw [gmulAux_succ]
    simp only [Nat.mul_zero, Nat.xor_zero, ite_self]
    have h : (if 128 ≤ 0 then (2 * 0) ^^^ 0x11D else 2 * 0) = 0 := by norm_num
    rw [h]
    exact ih (b / 2)

theorem gmulAux_zero_right (n a p : Nat) : gmulAux n a 0 p = p := by
  induction n generalizing a with
  | zero => rfl
  | succ n ih =>
    rw [gmulAux_succ]
    norm_num
    exact ih _

theorem gmul_zero_left (b : Nat) : gmul 0 b = 0 := gmulAux_zero_left 8 b

theorem gmul_zero_right (a : Nat) : gmul a 0 = 0 := gmulAux_zero_right 8 a 0

theorem gmul_one_right (a : Nat) : gmul a 1 = a := by
  show gmulAux 8 a 1 0 = a
  rw [gmulAux_succ]
  simp only [Nat.reduceMod, Nat.reduceDiv, reduceIte, Nat.zero_xor]
  exact gmulAux_zero_right 7 _ a

theorem octMul_zero_left (b : Oct) : octMul 0 b = 0 := by
  unfold octMul
  apply Fin.ext
  show gmul (octZero).val b.val % 256 = (octZero).val
  simp [octZero, gmul_zero_left]

theorem octMul_zero_right (a : Oct) : octMul a 0 = 0 := by
  unfold octMul
  apply Fin.ext
  show gmul a.val (octZero).val % 256 = (octZero).val
  simp [octZero, gmul_zero_right]

theorem octMul_one_right (a : Oct) : octMul a 1 = a := by
  unfold octMul
  apply Fin.ext
  show gmul a.val (octOne).val % 256 = a.val
  simp [octOne, gmul_one_right, Nat.mod_eq_of_lt a.isLt]

set_option maxRecDepth 4000 in
theorem gmul_one_left : ∀ a < 256, gmul 1 a = a := by decide

theorem octMul_one_left (a : Oct) : octMul 1 a = a := by
  unfold octMul
  apply Fin.ext
  show gmul (octOne).val a.val % 256 = a.val
  have h := gmul_one_left a.val a.isLt
  simp [octOne, h, Nat.mod_eq_of_lt a.isLt]

-- The commutativity table of `gmul`, checked 16 byte-values of the first
-- operand at a time (one flat check does not fit the kernel's memory).
set_option maxHeartbeats 2000000 in
set_option maxRecDepth 100000 in
theorem gmul_comm_chunk0 :
    ((List.range' 0 16).all (fun a => (List.range 256).all (fun b =>
      (gmul a b).beq (gmul b a)))) = true := rfl

set_option maxHeartbeats 2000000 in
set_option maxRecDepth 100000 in
theorem gmul_comm_chunk1 :
    ((List.range' 16 16).all (fun a => (List.range 256).all (fun b =>
      (gmul a b).beq (gmul b a)))) = true := rfl

set_option maxHeartbeats 2000000 in
set_option maxRecDepth 100000 in
theorem gmul_comm_chunk2 :
    ((List.range' 32 16).all (fun a => (List.range 256).all (fun b =>
      (gmul a b).beq (gmul b a)))) = true := rfl

set_option maxHeartbeats 2000000 in
set_option maxRecDepth 100000 in
theorem gmul_comm_chunk3 :
    ((List.range' 48 16).all (fun a => (List.range 256).all (fun b =>
      (gmul a b).beq (gmul b a)))) = true := rfl

set_option maxHeartbeats 2000000 in
set_option maxRecDepth 100000 in
theorem gmul_comm_chunk4 :
    ((List.range' 64 16).all (fun a => (List.range 256).all (fun b =>
      (gmul a b).beq (gmul b a)))) = true := rfl

set_option maxHeartbeats 2000000 in
set_option maxRecDepth 100000 in
theorem gmul_comm_chunk5 :
    ((List.range' 80 16).all (fun a => (List.range 256).all (fun b =>
      (gmul a b).beq (gmul b a)))) = true := rfl

set_option maxHeartbeats 2000000 in
set_option maxRecDepth 100000 in
theorem gmul_comm_chunk6 :
    ((List.range' 96 16).all (fun a => (List.range 256).all (fun b =>
      (gmul a b).beq (gmul b a)))) = true := rfl

set_option maxHeartbeats 2000000 in
set_option maxRecDepth 100000 in
theorem gmul_comm_chunk7 :
    ((List.range' 112 16).all (fun a => (List.range 256).all (fun b =>
      (gmul a b).beq (gmul b a)))) = true := rfl

set_option maxHeartbeats 2000000 in
set_option maxRecDepth 100000 in
theorem gmul_comm_chunk8 :
    ((List.range' 128 16).all (fun a => (List.range 256).all (fun b =>
      (gmul a b).beq (gmul b a)))) = true := rfl

set_option maxHeartbeats 2000000 in
set_option maxRecDepth 100000 in
theorem gmul_comm_chunk9 :
    ((List.range' 144 16).all (fun a => (List.range 256).all (fun b =>
      (gmul a b).beq (gmul b a)))) = true := rfl

set_option maxHeartbeats 2000000 in
set_option maxRecDepth 100000 in
theorem gmul_comm_chunk10 :
    ((List.range' 160 16).all (fun a => (List.range 256).all (fun b =>
      (gmul a b).beq (gmul b a)))) = true := rfl

set_option maxHeartbeats 2000000 in
set_option maxRecDepth 100000 in
theorem gmul_comm_chunk11 :
    ((List.range' 176 16).all (fun a => (List.range 256).all (fun b =>
      (gmul a b).beq (gmul b a)))) = true := rfl

set_option maxHeartbeats 2000000 in
set_option maxRecDepth 100000 in
theorem gmul_comm_chunk12 :
    ((List.range' 192 16).all (fun a => (List.range 256).all (fun b =>
      (gmul a b).beq (gmul b a)))) = true := rfl

set_option maxHeartbeats 2000000 in
set_option maxRecDepth 100000 in
theorem gmul_comm_chunk13 :
    ((List.range' 208 16).all (fun a => (List.range 256).all (fun b =>
      (gmul a b).beq (gmul b a)))) = true := rfl

set_option maxHeartbeats 2000000 in
set_option maxRecDepth 100000 in
theorem gmul_comm_chunk14 :
    ((List.range' 224 16).all (fun a => (List.range 256).all (fun b =>
      (gmul a b).beq (gmul b a)))) = true := rfl

set_option maxHeartbeats 2000000 in
set_option maxRecDepth 100000 in
theorem gmul_comm_chunk15 :
    ((List.range' 240 16).all (fun a => (List.range 256).all (fun b =>
      (gmul a b).beq (gmul b a)))) = true := rfl

theorem gmul_comm_chunk_forall (s : Nat)
    (h : ((List.range' s 16).all (fun a => (List.range 256).all (fun b =>
      (gmul a b).beq (gmul b a)))) = true) :
    ∀ a, s ≤ a → a < s + 16 → ∀ b < 256, gmul a b = gmul b a := by
  intro a h1 h2 b hb
  have ha := List.all_eq_true.mp h a (List.mem_range'_1.mpr ⟨h1, h2⟩)
  have hab := List.all_eq_true.mp ha b (List.mem_range.mpr hb)
  exact Nat.eq_of_beq_eq_true hab

theorem gmul_comm_aux : ∀ a < 256, ∀ b ≤ a, gmul a b = gmul b a := by
  intro a ha b hb
  have hb2 : b < 256 := by omega
  rcases Nat.lt_or_ge a 16 with h0 | h0
  · exact gmul_comm_chunk_forall 0 gmul_comm_chunk0 a (by omega) (by omega)
      b hb2
  rcases Nat.lt_or_ge a 32 with h1 | h1
  · exact gmul_comm_chunk_forall 16 gmul_comm_chunk1 a (by omega) (by omega)
      b hb2
  rcases Nat.lt_or_ge a 48 with h2 | h2
  · exact gmul_comm_chunk_forall 32 gmul_comm_chunk2 a (by omega) (by omega)
      b hb2
  rcases Nat.lt_or_ge a 64 with h3 | h3
  · exact gmul_comm_chunk_forall 48 gmul_comm_chunk3 a (by omega) (by omega)
      b hb2
  rcases Nat.lt_or_ge a 80 with h4 | h4
  · exact gmul_comm_chunk_forall 64 gmul_comm_chunk4 a (by omega) (by omega)
      b hb2
  rcases Nat.lt_or_ge a 96 with h5 | h5
  · exact gmul_comm_chunk_forall 80 gmul_comm_chunk5 a (by omega) (by omega)
      b hb2
  rcases Nat.lt_or_ge a 112 with h6 | h6
  · exact gmul_comm_chunk_forall 96 gmul_comm_chunk6 a (by omega) (by omega)
      b hb2
  rcases Nat.lt_or_ge a 128 with h7 | h7
  · exact gmul_comm_chunk_forall 112 gmul_comm_chunk7 a (by omega) (by omega)
      b hb2
  rcases Nat.lt_or_ge a 144 with h8 | h8
  · exact gmul_comm_chunk_forall 128 gmul_comm_chunk8 a (by omega) (by omega)
      b hb2
  rcases Nat.lt_or_ge a 160 with h9 | h9
  · exact gmul_comm_chunk_forall 144 gmul_comm_chunk9 a (by omega) (by omega)
      b hb2
  rcases Nat.lt_or_ge a 176 with h10 | h10
  · exact gmul_comm_chunk_forall 160 gmul_comm_chunk10 a (by omega) (by omega)
      b hb2
  rcases Nat.lt_or_ge a 192 with h11 | h11
  · exact gmul_comm_chunk_forall 176 gmul_comm_chunk11 a (by omega) (by omega)
      b hb2
  rcases Nat.lt_or_ge a 208 with h12 | h12
  · exact gmul_comm_chunk_forall 192 gmul_comm_chunk12 a (by omega) (by omega)
      b hb2
  rcases Nat.lt_or_ge a 224 with h13 | h13
  · exact gmul_comm_chunk_forall 208 gmul_comm_chunk13 a (by omega) (by omega)
      b hb2
  rcases Nat.lt_or_ge a 240 with h14 | h14
  · exact gmul_comm_chunk_forall 224 gmul_comm_chunk14 a (by omega) (by omega)
      b hb2
  exact gmul_comm_chunk_forall 240 gmul_comm_chunk15 a (by omega) (by omega)
    b hb2

theorem octMul_comm (a b : Oct) : octMul a b = octMul b a := by
  unfold octMul
  apply Fin.ext
  show gmul a.val b.val % 256 = gmul b.val a.val % 256
  rcases Nat.le_total b.val a.val with h | h
  · rw [gmul_comm_aux a.val a.isLt b.val h]
  · rw [gmul_comm_aux b.val b.isLt a.val h]

/-! # List helpers

These model in-place mutation of Rust `Vec`s: `upd l n f` applies `f` to the
`n`-th element (and is a no-op out of bounds, where the Rust source would
panic on an out-of-bounds index), `lswap` models `Vec::swap`. -/

/-- Apply `f` to the `n`-th element of a list (no-op out of bounds). -/
def upd {α : Type} : List α → Nat → (α → α) → List α
  | [], _, _ => []
  | x :: xs, 0, f => f x :: xs
  | x :: xs, n + 1, f => x :: upd xs n f

@[simp] theorem upd_nil {α : Type} (n : Nat) (f : α → α) : upd [] n f = [] := rfl

@[simp] theorem length_upd {α : Type} (l : List α) (n : Nat) (f : α → α) :
    (upd l n f).length = l.length := by
  induction l generalizing n with
  | nil => rfl
  | cons x xs ih =>
    cases n with
    | zero => rfl
    | succ n => simpa [upd] using ih n

theorem getD_upd_self {α : Type} (l : List α) (n : Nat) (f : α → α) (d : α)
    (h : n < l.length) : (upd l n f).getD n d = f (l.getD n d) := by
  induction l generalizing n with
  | nil => simp at h
  | cons x xs ih =>
    cases n with
    | zero => rfl
    | succ n => simpa [upd] using ih n (by simpa using h)

theorem getD_upd_ne {α : Type} (l : List α) (n m : Nat) (f : α → α) (d : α)
    (h : m ≠ n) : (upd l n f).getD m d = l.getD m d := by
  induction l generalizing n m with
  | nil => rfl
  | cons x xs ih =>
    cases n with
    | zero =>
      cases m with
      | zero => exact absurd rfl h
      | succ m => rfl
    | succ n =>
      cases m with
      | zero => rfl
      | succ m => simpa [upd] using ih n m (fun hc => h (by rw [hc]))

theorem getD_upd_oob {α : Type} (l : List α) (n m : Nat) (f : α → α) (d : α)
    (h : l.length ≤ n) : (upd l n f).getD m d = l.getD m d := by
  induction l generalizing n m with
  | nil => rfl
  | cons x xs ih =>
    cases n with
    | zero => simp at h
    | succ n =>
      cases m with
      | zero => rfl
      | succ m => simpa [upd] using ih n m (by simpa using h)

theorem getD_mem {α : Type} (l : List α) (n : Nat) (d : α) (h : n < l.length) :
    l.getD n d ∈ l := by
  induction l generalizing n with
  | nil => simp at h
  | cons x xs ih =>
    cases n with
    | zero => exact List.mem_cons_self x xs
    | succ n =>
      exact List.mem_cons_of_mem x (ih n (by simpa using h))

theorem getD_default {α : Type} (l : List α) (n : Nat) (d : α) (h : l.length ≤ n) :
    l.getD n d = d := by
  induction l generalizing n with
  | nil => rfl
  | cons x xs ih =>
    cases n with
    | zero => simp at h
    | succ n => simpa using ih n (by simpa using h)

theorem getD_replicate {α : Type} (n k : Nat) (x d : α) :
    (List.replicate n x).getD k d = if k < n then x else d := by
  induction n generalizing k with
  | zero => simp
  | succ n ih =>
    cases k with
    | zero => simp [List.replicate]
    | succ k =>
      simp only [List.replicate, List.getD_cons_succ, ih]
      simp [Nat.succ_lt_succ_iff]


theorem mem_upd {α : Type} (l : List α) (n : Nat) (f : α → α) (x : α)
    (h : x ∈ upd l n f) : x ∈ l ∨ ∃ y ∈ l, x = f y := by
  induction l generalizing n with
  | nil => simp [upd] at h
  | cons a as ih =>
    cases n with
    | zero =>
      rcases List.mem_cons.mp h with h | h
      · exact Or.inr ⟨a, List.mem_cons_self a as, h⟩
      · exact Or.inl (List.mem_cons_of_mem a h)
    | succ n =>
      rcases List.mem_cons.mp h with h | h
      · exact Or.inl (h ▸ List.mem_cons_self a as)
      · rcases ih n h with h | ⟨y, hy, hxy⟩
        · exact Or.inl (List.mem_cons_of_mem a h)
        · exact Or.inr ⟨y, List.mem_cons_of_mem a hy, hxy⟩

/-- Model of `Vec::swap` with an explicit default for out-of-bounds reads. -/
def lswap {α : Type} (l : List α) (i j : Nat) (d : α) : List α :=
  let vi := l.getD i d
  let vj := l.getD j d
  upd (upd l i (fun _ => vj)) j (fun _ => vi)

@[simp] theorem length_lswap {α : Type} (l : List α) (i j : Nat) (d : α) :
    (lswap l i j d).length = l.length := by
  simp [lswap]

theorem getD_lswap_left {α : Type} (l : List α) (i j : Nat) (d : α)
    (hi : i < l.length) (hj : j < l.length) :
    (lswap l i j d).getD i d = l.getD j d := by
  unfold lswap
  by_cases h : i = j
  · subst h
    rw [getD_upd_self _ _ _ _ (by simpa using hi)]
  · rw [getD_upd_ne _ _ _ _ _ h, getD_upd_self _ _ _ _ hi]

theorem getD_lswap_right {α : Type} (l : List α) (i j : Nat) (d : α)
    (hi : i < l.length) (hj : j < l.length) :
    (lswap l i j d).getD j d = l.getD i d := by
  unfold lswap
  rw [getD_upd_self _ _ _ _ (by simpa using hj)]

theorem getD_lswap_other {α : Type} (l : List α) (i j k : Nat) (d : α)
    (hki : k ≠ i) (hkj : k ≠ j) :
    (lswap l i j d).getD k d = l.getD k d := by
  unfold lswap
  rw [getD_upd_ne _ _ _ _ _ hkj, getD_upd_ne _ _ _ _ _ hki]

theorem mem_lswap {α : Type} (l : List α) (i j : Nat) (d : α) (x : α)
    (h : x ∈ lswap l i j d) (hi : i < l.length) (hj : j < l.length) : x ∈ l := by
  unfold lswap at h
  rcases mem_upd _ _ _ _ h with h | ⟨y, hy, hxy⟩
  · rcases mem_upd _ _ _ _ h with h | ⟨y, hy, hxy⟩
    · exact h
    · subst hxy
      exact getD_mem _ _ _ hj
  · subst hxy
    exact getD_mem _ _ _ hi

/-! # Sparse row and column-set containers

Modelled from the spec (§6): the matrix engine consumes a sparse row
container (a mapping from physical column index to field element with insert,
lookup, fused-multiply-add returning newly introduced column indices, removal,
retention filtering and key/value iteration) and a sparse column-set container
(a set of row indices with insert, append-optimized insert and existence
check).  Their source is not part of the matrix engine; an association list
with unique keys realizes the row container, a plain list the column set. -/

structure SparseOctetVec where
  elements : List (Nat × Oct)

namespace SparseOctetVec

/-- The empty sparse vector (sparse vectors are created empty). -/
def empty : SparseOctetVec := ⟨[]⟩

/-- Lookup of a stored value by key. -/
def get (v : SparseOctetVec) (i : Nat) : Option Oct :=
  (v.elements.find? (fun p => p.1 == i)).map Prod.snd

/-- Lookup defaulting to the field zero, matching `get(i).unwrap_or(zero)`. -/
def getZero (v : SparseOctetVec) (i : Nat) : Oct := (v.get i).getD 0

/-- Insert or overwrite the value stored under key `i`. -/
def insert (v : SparseOctetVec) (i : Nat) (x : Oct) : SparseOctetVec :=
  ⟨(i, x) :: v.elements.filter (fun p => p.1 != i)⟩

/-- Remove the entry stored under key `i` (the removed value is observed
separately through `get`). -/
def remove (v : SparseOctetVec) (i : Nat) : SparseOctetVec :=
  ⟨v.elements.filter (fun p => p.1 != i)⟩

/-- Keep only the entries satisfying the predicate. -/
def retain (v : SparseOctetVec) (f : Nat × Oct → Bool) : SparseOctetVec :=
  ⟨v.elements.filter f⟩

/-- The stored keys, in storage order. -/
def keys (v : SparseOctetVec) : List Nat := v.elements.map Prod.fst

/-- One step of the fused-multiply-add fold: combine one multiplicand entry
into the accumulated row, recording the key when it was not present. -/
def fmaStep (s : Oct) (acc : SparseOctetVec × List Nat) (p : Nat × Oct) :
    SparseOctetVec × List Nat :=
  match acc.1.get p.1 with
  | some old => (acc.1.insert p.1 (octAdd old (octMul p.2 s)), acc.2)
  | none => (acc.1.insert p.1 (octMul p.2 s), p.1 :: acc.2)

/-- Fused multiply-add `self += other * s`, returning the updated row together
with the list of newly introduced column keys. -/
def fma (self other : SparseOctetVec) (s : Oct) : SparseOctetVec × List Nat :=
  other.elements.foldl (fmaStep s) (self, [])

theorem get_insert_self (v : SparseOctetVec) (i : Nat) (x : Oct) :
    (v.insert i x).get i = some x := by
  simp [insert, get, List.find?]

theorem find?_filter_ne (l : List (Nat × Oct)) (i j : Nat) (h : j ≠ i) :
    List.find? (fun p => p.1 == j) (l.filter (fun p => p.1 != i)) =
      List.find? (fun p => p.1 == j) l := by
  induction l with
  | nil => rfl
  | cons q tl ih =>
    by_cases hq : q.1 = j
    · have h1 : (q.1 != i) = true := by
        simp [bne, hq, h]
      have h2 : (q.1 == j) = true := by simp [hq]
      simp [List.filter, h1, List.find?, h2]
    · have h2 : (q.1 == j) = false := by simp [hq]
      by_cases hqi : q.1 = i
      · have h1 : (q.1 != i) = false := by simp [bne, hqi]
        simp [List.filter, h1, List.find?, h2, ih]
      · have h1 : (q.1 != i) = true := by simp [bne, hqi]
        simp [List.filter, h1, List.find?, h2, ih]

theorem get_insert_ne (v : SparseOctetVec) (i j : Nat) (x : Oct) (h : j ≠ i) :
    (v.insert i x).get j = v.get j := by
  have h2 : (i == j) = false := by
    simp
    exact fun hc => h hc.symm
  simp [insert, get, List.find?, h2, find?_filter_ne _ _ _ h]

theorem getZero_insert_self (v : SparseOctetVec) (i : Nat) (x : Oct) :
    (v.insert i x).getZero i = x := by
  simp [getZero, get_insert_self]

theorem getZero_insert_ne (v : SparseOctetVec) (i j : Nat) (x : Oct) (h : j ≠ i) :
    (v.insert i x).getZero j = v.getZero j := by
  simp [getZero, get_insert_ne _ _ _ _ h]

theorem mem_keys_insert (v : SparseOctetVec) (i k : Nat) (x : Oct)
    (h : k ∈ (v.insert i x).keys) : k = i ∨ k ∈ v.keys := by
  rcases List.mem_cons.mp h with h | h
  · exact Or.inl h
  · rcases List.mem_map.mp h with ⟨p, hp, hpk⟩
    exact Or.inr (List.mem_map.mpr ⟨p, List.mem_of_mem_filter hp, hpk⟩)

theorem nodup_keys_insert (v : SparseOctetVec) (i : Nat) (x : Oct)
    (h : v.keys.Nodup) : (v.insert i x).keys.Nodup := by
  refine List.Nodup.cons ?_ ?_
  · intro hc
    rcases List.mem_map.mp hc with ⟨p, hp, hpk⟩
    have := List.of_mem_filter hp
    simp [bne, hpk] at this
  · exact List.Nodup.sublist (List.Sublist.map _ (List.filter_sublist _)) h

theorem get_eq_some_mem_keys (v : SparseOctetVec) (k : Nat) (x : Oct)
    (h : v.get k = some x) : k ∈ v.keys := by
  unfold get at h
  rcases Option.map_eq_some'.mp h with ⟨p, hp, hpx⟩
  have hmem := List.mem_of_find?_eq_some hp
  have hpred := List.find?_some hp
  have : p.1 = k := by simpa using hpred
  exact this ▸ List.mem_map.mpr ⟨p, hmem, rfl⟩

theorem get_eq_none_of_not_mem_keys (v : SparseOctetVec) (k : Nat)
    (h : k ∉ v.keys) : v.get k = none := by
  unfold get
  rw [List.find?_eq_none.mpr]
  · rfl
  · intro p hp hpk
    exact h (List.mem_map.mpr ⟨p, hp, by simpa using hpk⟩)

theorem getZero_eq_zero_of_not_mem_keys (v : SparseOctetVec) (k : Nat)
    (h : k ∉ v.keys) : v.getZero k = 0 := by
  simp [getZero, get_eq_none_of_not_mem_keys _ _ h]

end SparseOctetVec

/-- Insert into a sparse valueless column set, skipping duplicates. -/
def svInsert (l : List Nat) (i : Nat) : List Nat :=
  if l.contains i then l else i :: l

/-- Append-optimized insert used when building the index in ascending order. -/
def svInsertLast (l : List Nat) (i : Nat) : List Nat := l ++ [i]

theorem mem_svInsert_self (l : List Nat) (i : Nat) : i ∈ svInsert l i := by
  by_cases h : i ∈ l
  · simp [svInsert, h]
  · simp [svInsert, h]

theorem mem_svInsert_of_mem (l : List Nat) (i j : Nat) (h : j ∈ l) :
    j ∈ svInsert l i := by
  by_cases hc : i ∈ l
  · simp [svInsert, hc, h]
  · simp [svInsert, hc, h]

theorem mem_svInsertLast_self (l : List Nat) (i : Nat) : i ∈ svInsertLast l i := by
  simp [svInsertLast]

theorem mem_svInsertLast_of_mem (l : List Nat) (i j : Nat) (h : j ∈ l) :
    j ∈ svInsertLast l i := by
  simp [svInsertLast, h]

namespace SparseOctetVec

/-- Lookup in a raw association list, defaulting to the field zero. -/
def lookupZero (l : List (Nat × Oct)) (k : Nat) : Oct :=
  ((l.find? (fun p => p.1 == k)).map Prod.snd).getD 0

theorem lookupZero_eq_getZero (v : SparseOctetVec) (k : Nat) :
    lookupZero v.elements k = v.getZero k := rfl

theorem lookupZero_cons_self (p : Nat × Oct) (tl : List (Nat × Oct)) :
    lookupZero (p :: tl) p.1 = p.2 := by
  simp [lookupZero, List.find?]

theorem lookupZero_cons_ne (p : Nat × Oct) (tl : List (Nat × Oct)) (k : Nat)
    (h : k ≠ p.1) : lookupZero (p :: tl) k = lookupZero tl k := by
  have hp : (p.1 == k) = false := by
    simp
    exact fun hc => h hc.symm
  simp [lookupZero, List.find?, hp]

theorem lookupZero_eq_zero_of_not_mem (l : List (Nat × Oct)) (k : Nat)
    (h : k ∉ l.map Prod.fst) : lookupZero l k = 0 := by
  unfold lookupZero
  rw [List.find?_eq_none.mpr]
  · rfl
  · intro p hp hpk
    exact h (List.mem_map.mpr ⟨p, hp, by simpa using hpk⟩)

theorem fmaStep_eq_some (s : Oct) (acc : SparseOctetVec × List Nat)
    (p : Nat × Oct) (old : Oct) (h : acc.1.get p.1 = some old) :
    fmaStep s acc p = (acc.1.insert p.1 (octAdd old (octMul p.2 s)), acc.2) := by
  simp [fmaStep, h]

theorem fmaStep_eq_none (s : Oct) (acc : SparseOctetVec × List Nat)
    (p : Nat × Oct) (h : acc.1.get p.1 = none) :
    fmaStep s acc p = (acc.1.insert p.1 (octMul p.2 s), p.1 :: acc.2) := by
  simp [fmaStep, h]

theorem fmaStep_getZero_self (s : Oct) (acc : SparseOctetVec × List Nat)
    (p : Nat × Oct) :
    (fmaStep s acc p).1.getZero p.1 = octAdd (acc.1.getZero p.1) (octMul p.2 s) := by
  cases hget : acc.1.get p.1 with
  | some old =>
    rw [fmaStep_eq_some _ _ _ _ hget]
    have hacc : acc.1.getZero p.1 = old := by simp [getZero, hget]
    rw [getZero_insert_self, hacc]
  | none =>
    rw [fmaStep_eq_none _ _ _ hget]
    have hacc : acc.1.getZero p.1 = 0 := by simp [getZero, hget]
    rw [getZero_insert_self, hacc, zero_octAdd]

theorem fmaStep_getZero_ne (s : Oct) (acc : SparseOctetVec × List Nat)
    (p : Nat × Oct) (k : Nat) (hk : k ≠ p.1) :
    (fmaStep s acc p).1.getZero k = acc.1.getZero k := by
  cases hget : acc.1.get p.1 with
  | some old =>
    rw [fmaStep_eq_some _ _ _ _ hget]
    exact getZero_insert_ne _ _ _ _ hk
  | none =>
    rw [fmaStep_eq_none _ _ _ hget]
    exact getZero_insert_ne _ _ _ _ hk

theorem getZero_foldl_fmaStep (s : Oct) (l : List (Nat × Oct))
    (acc : SparseOctetVec × List Nat) (k : Nat) (hn : (l.map Prod.fst).Nodup) :
    ((l.foldl (fmaStep s) acc).1).getZero k =
      octAdd (acc.1.getZero k) (octMul (lookupZero l k) s) := by
  induction l generalizing acc with
  | nil =>
    simp [lookupZero, octMul_zero_left, octAdd_zero]
  | cons p tl ih =>
    have hn' : (tl.map Prod.fst).Nodup := (List.nodup_cons.mp hn).2
    have hp : p.1 ∉ tl.map Prod.fst := (List.nodup_cons.mp hn).1
    show ((tl.foldl (fmaStep s) (fmaStep s acc p)).1).getZero k = _
    rw [ih _ hn']
    by_cases hk : k = p.1
    · rw [hk, lookupZero_eq_zero_of_not_mem tl p.1 hp, octMul_zero_left, octAdd_zero,
        lookupZero_cons_self, fmaStep_getZero_self]
    · rw [lookupZero_cons_ne _ _ _ hk, fmaStep_getZero_ne _ _ _ _ hk]

theorem fma_getZero (self other : SparseOctetVec) (s : Oct)
    (hn : other.keys.Nodup) (k : Nat) :
    ((self.fma other s).1).getZero k =
      octAdd (self.getZero k) (octMul (other.getZero k) s) := by
  unfold fma
  rw [getZero_foldl_fmaStep _ _ _ _ hn]
  rfl

theorem mem_snd_foldl_fmaStep_mono (s : Oct) (l : List (Nat × Oct))
    (acc : SparseOctetVec × List Nat) (k : Nat) (h : k ∈ acc.2) :
    k ∈ (l.foldl (fmaStep s) acc).2 := by
  induction l generalizing acc with
  | nil => exact h
  | cons p tl ih =>
    show k ∈ (tl.foldl (fmaStep s) (fmaStep s acc p)).2
    refine ih (fmaStep s acc p) ?_
    cases hget : acc.1.get p.1 with
    | some old =>
      rw [fmaStep_eq_some _ _ _ _ hget]
      exact h
    | none =>
      rw [fmaStep_eq_none _ _ _ hget]
      exact List.mem_cons_of_mem _ h

theorem mem_keys_foldl_fmaStep (s : Oct) (l : List (Nat × Oct))
    (acc : SparseOctetVec × List Nat) (k : Nat)
    (h : k ∈ ((l.foldl (fmaStep s) acc).1).keys) :
    k ∈ acc.1.keys ∨ k ∈ (l.foldl (fmaStep s) acc).2 := by
  induction l generalizing acc with
  | nil => exact Or.inl h
  | cons p tl ih =>
    rcases ih (fmaStep s acc p) h with hk | hk
    · cases hget : acc.1.get p.1 with
      | some old =>
        rw [fmaStep_eq_some _ _ _ _ hget] at hk
        rcases mem_keys_insert _ _ _ _ hk with hk | hk
        · exact Or.inl (hk ▸ get_eq_some_mem_keys _ _ _ hget)
        · exact Or.inl hk
      | none =>
        rw [fmaStep_eq_none _ _ _ hget] at hk
        rcases mem_keys_insert _ _ _ _ hk with hk | hk
        · refine Or.inr ?_
          rw [List.foldl_cons]
          apply mem_snd_foldl_fmaStep_mono
          rw [fmaStep_eq_none _ _ _ hget]
          exact hk ▸ List.mem_cons_self _ _
        · exact Or.inl hk
    · exact Or.inr hk

theorem fma_mem_keys (self other : SparseOctetVec) (s : Oct) (k : Nat)
    (h : k ∈ ((self.fma other s).1).keys) :
    k ∈ self.keys ∨ k ∈ (self.fma other s).2 :=
  mem_keys_foldl_fmaStep _ _ _ _ h

theorem mem_snd_foldl_fmaStep (s : Oct) (l : List (Nat × Oct))
    (acc : SparseOctetVec × List Nat) (k : Nat)
    (h : k ∈ (l.foldl (fmaStep s) acc).2) :
    k ∈ acc.2 ∨ k ∈ l.map Prod.fst := by
  induction l generalizing acc with
  | nil => exact Or.inl h
  | cons p tl ih =>
    rcases ih (fmaStep s acc p) h with hk | hk
    · cases hget : acc.1.get p.1 with
      | some old =>
        rw [fmaStep_eq_some _ _ _ _ hget] at hk
        exact Or.inl hk
      | none =>
        rw [fmaStep_eq_none _ _ _ hget] at hk
        rcases List.mem_cons.mp hk with hk | hk
        · exact Or.inr (List.mem_cons.mpr (Or.inl hk))
        · exact Or.inl hk
    · exact Or.inr (List.mem_cons_of_mem _ hk)

theorem fma_mem_snd (self other : SparseOctetVec) (s : Oct) (k : Nat)
    (h : k ∈ (self.fma other s).2) : k ∈ other.keys := by
  rcases mem_snd_foldl_fmaStep _ _ _ _ h with hk | hk
  · simp at hk
  · exact hk

theorem nodup_keys_foldl_fmaStep (s : Oct) (l : List (Nat × Oct))
    (acc : SparseOctetVec × List Nat) (h : acc.1.keys.Nodup) :
    ((l.foldl (fmaStep s) acc).1).keys.Nodup := by
  induction l generalizing acc with
  | nil => exact h
  | cons p tl ih =>
    refine ih (fmaStep s acc p) ?_
    cases hget : acc.1.get p.1 with
    | some old =>
      rw [fmaStep_eq_some _ _ _ _ hget]
      exact nodup_keys_insert _ _ _ h
    | none =>
      rw [fmaStep_eq_none _ _ _ hget]
      exact nodup_keys_insert _ _ _ h

theorem fma_nodup_keys (self other : SparseOctetVec) (s : Oct)
    (h : self.keys.Nodup) : ((self.fma other s).1).keys.Nodup :=
  nodup_keys_foldl_fmaStep _ _ _ h

theorem get_remove_self (v : SparseOctetVec) (i : Nat) : (v.remove i).get i = none := by
  unfold remove get
  rw [List.find?_eq_none.mpr]
  · rfl
  · intro p hp hpk
    have := List.of_mem_filter hp
    have hpi : p.1 = i := by simpa using hpk
    simp [bne, hpi] at this

theorem get_remove_ne (v : SparseOctetVec) (i j : Nat) (h : j ≠ i) :
    (v.remove i).get j = v.get j := by
  unfold remove get
  rw [find?_filter_ne _ _ _ h]

theorem mem_keys_remove (v : SparseOctetVec) (i k : Nat)
    (h : k ∈ (v.remove i).keys) : k ∈ v.keys := by
  rcases List.mem_map.mp h with ⟨p, hp, hpk⟩
  exact List.mem_map.mpr ⟨p, List.mem_of_mem_filter hp, hpk⟩

theorem mem_keys_retain (v : SparseOctetVec) (f : Nat × Oct → Bool) (k : Nat)
    (h : k ∈ (v.retain f).keys) : k ∈ v.keys := by
  rcases List.mem_map.mp h with ⟨p, hp, hpk⟩
  exact List.mem_map.mpr ⟨p, List.mem_of_mem_filter hp, hpk⟩

end SparseOctetVec

/-! # Slice primitives

Modelled from the spec (§6): `add_assign(dest, src)` xors `src` into `dest`
entry by entry and `fused_addassign_mul_scalar(dest, src, scalar)` adds
`src * scalar`; both are applied to the first `num_dense_columns` entries of
the per-row dense-tail arrays. -/

/-- Model of `add_assign` restricted to the first `n` entries of `dest`. -/
def addSlice : Nat → List Oct → List Oct → List Oct
  | 0, dest, _ => dest
  | _ + 1, [], _ => []
  | n + 1, d :: ds, src => octAdd d (src.headD 0) :: addSlice n ds src.tail

/-- Model of `fused_addassign_mul_scalar` restricted to the first `n` entries. -/
def fmaSlice (s : Oct) : Nat → List Oct → List Oct → List Oct
  | 0, dest, _ => dest
  | _ + 1, [], _ => []
  | n + 1, d :: ds, src => octAdd d (octMul (src.headD 0) s) :: fmaSlice s n ds src.tail

/-- Loop `for i in s..s+n` writing the value `f i` at position `g i`,
modelling index-table-filling loops. -/
def fillMap (l : List Nat) (s n : Nat) (g f : Nat → Nat) : List Nat :=
  (List.range' s n).foldl (fun acc i => upd acc (g i) (fun _ => f i)) l

/-! # The sparse matrix

Translated from src/src/sparse_matrix.rs. -/

structure SparseOctetMatrix where
  height : Nat
  width : Nat
  sparse_elements : List SparseOctetVec
  dense_rows : List (List Oct)
  dense_elements : List (List Oct)
  sparse_column_index : List (List Nat)
  logical_row_to_physical : List Nat
  physical_row_to_logical : List Nat
  logical_col_to_physical : List Nat
  physical_col_to_logical : List Nat
  column_index_disabled : Bool
  num_dense_columns : Nat

namespace SparseOctetMatrix

/-- Constructor, translated from lines 76-126 of the source.  The three
row-table loops are translated one table at a time with `fillMap`. -/
def new (height width trailing_dense_column_hint start_dense_row_hint
    num_dense_rows_hint : Nat) : SparseOctetMatrix :=
  let elementsLen := height - num_dense_rows_hint
  let l2p1 := fillMap (List.replicate height 0) 0 start_dense_row_hint id id
  let p2l1 := fillMap (List.replicate height 0) 0 start_dense_row_hint id id
  let l2p2 := fillMap l2p1 start_dense_row_hint num_dense_rows_hint id
    (fun i => i - start_dense_row_hint + elementsLen)
  let p2l2 := fillMap p2l1 start_dense_row_hint num_dense_rows_hint
    (fun i => i - start_dense_row_hint + elementsLen) id
  let l2p3 := fillMap l2p2 (start_dense_row_hint + num_dense_rows_hint)
    (height - (start_dense_row_hint + num_dense_rows_hint)) id
    (fun i => i - num_dense_rows_hint)
  let p2l3 := fillMap p2l2 (start_dense_row_hint + num_dense_rows_hint)
    (height - (start_dense_row_hint + num_dense_rows_hint))
    (fun i => i - num_dense_rows_hint) id
  let col_mapping := fillMap (List.replicate width 0) 0 width id id
  { height := height
    width := width
    sparse_elements := List.replicate elementsLen SparseOctetVec.empty
    dense_rows := List.replicate num_dense_rows_hint
      (List.replicate (width - trailing_dense_column_hint) (0 : Oct))
    dense_elements := List.replicate height
      (List.replicate (2 * trailing_dense_column_hint) (0 : Oct))
    sparse_column_index := []
    logical_row_to_physical := l2p3
    physical_row_to_logical := p2l3
    logical_col_to_physical := col_mapping
    physical_col_to_logical := col_mapping
    column_index_disabled := true
    num_dense_columns := trailing_dense_column_hint }

/-- Element read, translated from lines 199-212. -/
def get (M : SparseOctetMatrix) (i j : Nat) : Oct :=
  let physical_i := M.logical_row_to_physical.getD i 0
  let physical_j := M.logical_col_to_physical.getD j 0
  if M.width - j ≤ M.num_dense_columns then
    (M.dense_elements.getD physical_i []).getD (M.width - j - 1) 0
  else if M.sparse_elements.length ≤ physical_i then
    (M.dense_rows.getD (physical_i - M.sparse_elements.length) []).getD j 0
  else
    (M.sparse_elements.getD physical_i SparseOctetVec.empty).getZero physical_j

/-- Element write, translated from lines 128-141. -/
def set (M : SparseOctetMatrix) (i j : Nat) (value : Oct) : SparseOctetMatrix :=
  let physical_i := M.logical_row_to_physical.getD i 0
  let physical_j := M.logical_col_to_physical.getD j 0
  if M.width - j ≤ M.num_dense_columns then
    { M with dense_elements := (upd M.dense_elements physical_i
        (fun r => upd r (M.width - j - 1) (fun _ => value))) }
  else if M.sparse_elements.length ≤ physical_i then
    { M with dense_rows := (upd M.dense_rows (physical_i - M.sparse_elements.length)
        (fun r => upd r j (fun _ => value))) }
  else
    { M with
      sparse_elements := (upd M.sparse_elements physical_i
        (fun r => r.insert physical_j value))
      sparse_column_index :=
        (if M.column_index_disabled then M.sparse_column_index
         else upd M.sparse_column_index physical_j (fun l => svInsert l physical_i)) }

/-- Row swap, translated from lines 244-249: only the two translation tables
are touched. -/
def swap_rows (M : SparseOctetMatrix) (i j : Nat) : SparseOctetMatrix :=
  let physical_i := M.logical_row_to_physical.getD i 0
  let physical_j := M.logical_row_to_physical.getD j 0
  { M with
    logical_row_to_physical := lswap M.logical_row_to_physical i j 0
    physical_row_to_logical := lswap M.physical_row_to_logical physical_i physical_j 0 }

/-- Column swap, translated from lines 251-264.  The guard models the
`unimplemented!` contract failure when the second column is in the dense
tail; dense rows are stored by logical column and are swapped in place. -/
def swapColsCore (M : SparseOctetMatrix) (i j : Nat) : SparseOctetMatrix :=
  let physical_i := M.logical_col_to_physical.getD i 0
  let physical_j := M.logical_col_to_physical.getD j 0
  { M with
    logical_col_to_physical := lswap M.logical_col_to_physical i j 0
    physical_col_to_logical := lswap M.physical_col_to_logical physical_i physical_j 0
    dense_rows := M.dense_rows.map (fun row => lswap row i j 0) }

def swap_columns (M : SparseOctetMatrix) (i j : Nat) : Option SparseOctetMatrix :=
  if M.width - M.num_dense_columns ≤ j then none
  else some (swapColsCore M i j)

/-- `Vec::swap(i, j)`: the source's index-out-of-bounds panic is modelled as
`none`. -/
def vecSwap {α : Type} (l : List α) (i j : Nat) (d : α) : Option (List α) :=
  if i < l.length then
    if j < l.length then some (lswap l i j d) else none
  else none

/-- The dense-row loop of lines 260-263: `row.swap(i, j)` on every dense row,
failing as soon as either index overflows a row. -/
def denseRowsSwap (i j : Nat) : List (List Oct) → Option (List (List Oct))
  | [] => some []
  | row :: rest =>
    match vecSwap row i j 0, denseRowsSwap i j rest with
    | some row2, some rest2 => some (row2 :: rest2)
    | _, _ => none

/-- `swap_columns` with every indexing step of lines 251-264 checked: the
`unimplemented!` guard on the second column, the two mapping-table swaps
(whose bounds also cover the two table reads preceding them), and the
per-dense-row `Vec::swap`, each panic modelled as `none`. -/
def swap_columns_checked (M : SparseOctetMatrix) (i j : Nat) :
    Option SparseOctetMatrix :=
  if M.width - M.num_dense_columns ≤ j then none
  else
    match vecSwap M.logical_col_to_physical i j 0,
        vecSwap M.physical_col_to_logical (M.logical_col_to_physical.getD i 0)
          (M.logical_col_to_physical.getD j 0) 0,
        denseRowsSwap i j M.dense_rows with
    | some l2pc, some p2lc, some dr =>
        some { M with
          logical_col_to_physical := l2pc
          physical_col_to_logical := p2lc
          dense_rows := dr }
    | _, _, _ => none

/-- Column-index construction, translated from lines 266-276: one pass over
every sparse row inserting its physical row id under each stored key.  Dense
rows are deliberately not indexed. -/
def enable_column_acccess_acceleration (M : SparseOctetMatrix) : SparseOctetMatrix :=
  { M with
    column_index_disabled := false
    sparse_column_index :=
      ((List.range M.sparse_elements.length).foldl
        (fun acc physical_row =>
          (M.sparse_elements.getD physical_row SparseOctetVec.empty).elements.foldl
            (fun acc2 p => upd acc2 p.1 (fun l => svInsertLast l physical_row)) acc)
        (List.replicate M.width [])) }

/-- Column-index teardown, translated from lines 278-281. -/
def disable_column_acccess_acceleration (M : SparseOctetMatrix) : SparseOctetMatrix :=
  { M with column_index_disabled := true, sparse_column_index := [] }

/-- Dense-row sparsification used by `hint_compact_dense_rows` (lines 283-294)
and `resize` (lines 462-475): scan logical columns, translate to physical and
insert the non-zero values. -/
def sparsifyDenseRow (logical_col_to_physical : List Nat) (row : List Oct) :
    SparseOctetVec :=
  (List.range row.length).foldl
    (fun s logical_col =>
      let value := row.getD logical_col 0
      if value ≠ 0 then s.insert (logical_col_to_physical.getD logical_col 0) value
      else s)
    SparseOctetVec.empty

/-- Dense-row compaction, translated from lines 283-294: every dense row is
converted to sparse and appended to the sparse block; the column index is not
touched. -/
def hint_compact_dense_rows (M : SparseOctetMatrix) : SparseOctetMatrix :=
  { M with
    sparse_elements := (M.sparse_elements ++
      M.dense_rows.map (sparsifyDenseRow M.logical_col_to_physical))
    dense_rows := [] }

/-- One step of the freeze removal loop (lines 311-316): if the row listed in
the index stores the frozen physical column, remove the entry and place its
value in the new dense-tail slot. -/
def freezeRemoveStep (physical_i ndc : Nat)
    (acc : List SparseOctetVec × List (List Oct)) (physical_row : Nat) :
    List SparseOctetVec × List (List Oct) :=
  let row := acc.1.getD physical_row SparseOctetVec.empty
  match row.get physical_i with
  | some value =>
      (upd acc.1 physical_row (fun r => r.remove physical_i),
       upd acc.2 physical_row (fun r => upd r (ndc - 1) (fun _ => value)))
  | none => acc

/-- One step of the freeze dense-row loop (lines 318-324): copy the frozen
logical column's value into the dense-tail slot and zero it in place. -/
def freezeDenseStep (i ndc sparse_len : Nat)
    (acc : List (List Oct) × List (List Oct)) (physical_row : Nat) :
    List (List Oct) × List (List Oct) :=
  let value := (acc.1.getD (physical_row - sparse_len) []).getD i 0
  (upd acc.1 (physical_row - sparse_len) (fun r => upd r i (fun _ => 0)),
   upd acc.2 physical_row (fun r => upd r (ndc - 1) (fun _ => value)))

/-- Column freeze, translated from lines 296-325: grow the tail, migrate the
frozen column out of the sparse rows listed in the column index, then copy
and zero the dense rows' entries.  The `assert_eq!` guards live in
`hint_column_dense_and_frozen`. -/
def freezeCore (M : SparseOctetMatrix) (i : Nat) : SparseOctetMatrix :=
    let ndc := M.num_dense_columns + 1
    let de1 := M.dense_elements.map
      (fun r => if r.length < ndc then r ++ List.replicate 10 (0 : Oct) else r)
    let physical_i := M.logical_col_to_physical.getD i 0
    let p1 := (M.sparse_column_index.getD physical_i []).foldl
      (freezeRemoveStep physical_i ndc) (M.sparse_elements, de1)
    let p2 := (List.range' M.sparse_elements.length
        (M.height - M.sparse_elements.length)).foldl
      (freezeDenseStep i ndc M.sparse_elements.length) (M.dense_rows, p1.2)
    { M with
      num_dense_columns := ndc
      sparse_elements := p1.1
      dense_rows := p2.1
      dense_elements := p2.2 }

def hint_column_dense_and_frozen (M : SparseOctetMatrix) (i : Nat) :
    Option SparseOctetMatrix :=
  if M.width - M.num_dense_columns - 1 ≠ i then none
  else if M.column_index_disabled then none
  else some (freezeCore M i)

/-- The lazy row iteration `get_row_iter(row, 0, rows)` of the multiplier
matrix inside `mul_assign_submatrix`: storage-order (logical column, value)
pairs of the sparse row, restricted to logical columns below `rows`. -/
def rowIter (other : SparseOctetMatrix) (r rows : Nat) : List (Nat × Oct) :=
  (other.sparse_elements.getD (other.logical_row_to_physical.getD r 0)
      SparseOctetVec.empty).elements.filterMap
    (fun p =>
      let lc := other.physical_col_to_logical.getD p.1 0
      if lc < rows then some (lc, p.2) else none)

/-- The accumulation loop of `mul_assign_submatrix` (lines 342-361) for one
destination row: fold the multiplier row, combining sparse storage and the
dense-tail prefix of each contributing row. -/
def mulAssignTempStep (M : SparseOctetMatrix) (acc : SparseOctetVec × List Oct)
    (p : Nat × Oct) : SparseOctetVec × List Oct :=
  if p.2 ≠ 0 then
    let physical_i := M.logical_row_to_physical.getD p.1 0
    let srow := M.sparse_elements.getD physical_i SparseOctetVec.empty
    let stail := M.dense_elements.getD physical_i []
    ((acc.1.fma srow p.2).1,
     if p.2 = 1 then addSlice M.num_dense_columns acc.2 stail
     else fmaSlice p.2 M.num_dense_columns acc.2 stail)
  else acc

def mulAssignTemp (M other : SparseOctetMatrix) (r rows : Nat) :
    SparseOctetVec × List Oct :=
  (rowIter other r rows).foldl (mulAssignTempStep M)
    (SparseOctetVec.empty, List.replicate M.num_dense_columns 0)

/-- The commit loop of `mul_assign_submatrix` (lines 362-371): walk rows in
reverse, overwrite each destination row with its temporary and, when the
column index is enabled, re-insert its keys. -/
def mulAssignCommitStep (M other : SparseOctetMatrix) (rows : Nat)
    (acc : SparseOctetMatrix) (row : Nat) : SparseOctetMatrix :=
  let physical_row := M.logical_row_to_physical.getD row 0
  let t := mulAssignTemp M other row rows
  let acc1 := { acc with
    sparse_elements := (upd acc.sparse_elements physical_row (fun _ => t.1))
    dense_elements := (upd acc.dense_elements physical_row (fun _ => t.2)) }
  if M.column_index_disabled then acc1
  else { acc1 with
    sparse_column_index := (t.1.elements.foldl
      (fun idx p => upd idx p.1 (fun l => svInsert l physical_row))
      acc1.sparse_column_index) }

def mulAssignCore (M other : SparseOctetMatrix) (rows : Nat) : SparseOctetMatrix :=
  (List.range rows).reverse.foldl (mulAssignCommitStep M other rows) M

/-- Submatrix multiplication, translated from lines 329-375.  The guards
model the two `assert_eq!`/`assert!` calls, the `unimplemented!` on a dense
tail in `other`, the `todo!` on dense rows in `self`, and the `todo!` hit by
`get_row_iter` when a row of `other` is physically dense.  The commit loop
walks rows in reverse, overwriting each destination row with its temporary
and re-inserting its keys into the column index when enabled. -/
def mul_assign_submatrix (M other : SparseOctetMatrix) (rows : Nat) :
    Option SparseOctetMatrix :=
  if rows ≠ other.height then none
  else if rows ≠ other.width then none
  else if M.height < rows then none
  else if other.num_dense_columns ≠ 0 then none
  else if M.dense_rows ≠ [] then none
  else if ¬ (List.range rows).all
      (fun r => other.logical_row_to_physical.getD r 0 + 1 ≤
        other.sparse_elements.length) then none
  else some (mulAssignCore M other rows)

/-- Fused row multiply-add, translated from lines 377-439.  The guards model
the `assert_ne!` and the `todo!` on a physically dense multiplicand; the
dense-tail prefix is combined first, then the sparse part by destination row
kind. -/
def fmaNewTail (M : SparseOctetMatrix) (dest multiplicand : Nat) (scalar : Oct) :
    List Oct :=
  let physical_dest := M.logical_row_to_physical.getD dest 0
  let physical_multiplicand := M.logical_row_to_physical.getD multiplicand 0
  let dest_tail := M.dense_elements.getD physical_dest []
  let mult_tail := M.dense_elements.getD physical_multiplicand []
  if scalar = 1 then addSlice M.num_dense_columns dest_tail mult_tail
  else fmaSlice scalar M.num_dense_columns dest_tail mult_tail

/-- The `fma_rows` case of a physically dense destination row (lines
384-421): combine the dense tails, then fuse the multiplicand entries into
the dense row at their logical columns, skipping zero values. -/
def fmaRowsDense (M : SparseOctetMatrix) (dest multiplicand : Nat) (scalar : Oct) :
    SparseOctetMatrix :=
  let physical_dest := M.logical_row_to_physical.getD dest 0
  let physical_multiplicand := M.logical_row_to_physical.getD multiplicand 0
  let mult_row := M.sparse_elements.getD physical_multiplicand SparseOctetVec.empty
  { M with
    dense_elements := (upd M.dense_elements physical_dest
      (fun _ => fmaNewTail M dest multiplicand scalar))
    dense_rows := (upd M.dense_rows (physical_dest - M.sparse_elements.length)
      (fun r => mult_row.elements.foldl
        (fun r p =>
          if p.2 ≠ 0 then
            upd r (M.physical_col_to_logical.getD p.1 0)
              (fun x => octAdd x (octMul p.2 scalar))
          else r)
        r)) }

/-- The `fma_rows` case of a sparse destination row (lines 384-402 and
422-435): combine the dense tails, delegate the sparse part to the row
container's fused multiply-add, and record the newly introduced columns in
the index when enabled. -/
def fmaRowsSparse (M : SparseOctetMatrix) (dest multiplicand : Nat) (scalar : Oct) :
    SparseOctetMatrix :=
  let physical_dest := M.logical_row_to_physical.getD dest 0
  let physical_multiplicand := M.logical_row_to_physical.getD multiplicand 0
  let dest_row := M.sparse_elements.getD physical_dest SparseOctetVec.empty
  let mult_row := M.sparse_elements.getD physical_multiplicand SparseOctetVec.empty
  let res := dest_row.fma mult_row scalar
  { M with
    dense_elements := (upd M.dense_elements physical_dest
      (fun _ => fmaNewTail M dest multiplicand scalar))
    sparse_elements := (upd M.sparse_elements physical_dest (fun _ => res.1))
    sparse_column_index :=
      (if M.column_index_disabled then M.sparse_column_index
       else res.2.foldl
         (fun idx c => upd idx c (fun l => svInsert l physical_dest))
         M.sparse_column_index) }

def fmaRowsCore (M : SparseOctetMatrix) (dest multiplicand : Nat) (scalar : Oct) :
    SparseOctetMatrix :=
  if M.sparse_elements.length ≤ M.logical_row_to_physical.getD dest 0 then
    fmaRowsDense M dest multiplicand scalar
  else
    fmaRowsSparse M dest multiplicand scalar

def fma_rows (M : SparseOctetMatrix) (dest multiplicand : Nat) (scalar : Oct) :
    Option SparseOctetMatrix :=
  if dest = multiplicand then none
  else if M.sparse_elements.length ≤
      M.logical_row_to_physical.getD multiplicand 0 then none
  else some (fmaRowsCore M dest multiplicand scalar)

/-- Shrinking resize, translated from lines 441-523.  The guards model the
two `assert!` calls and the `unimplemented!` when the column index is still
enabled.  Retained rows are repacked by logical index (the source's
reversed-pop loops become reverse folds; `unwrap` of a retained slot becomes
`Option.getD`, exact under the index-table invariant), the row tables become
the identity, then trailing dense-tail storage is truncated and out-of-range
sparse entries are filtered. -/
def resizeCore (M : SparseOctetMatrix) (new_height new_width : Nat) :
    SparseOctetMatrix :=
    let original_sparse_len := M.sparse_elements.length
    let new_sparse1 := (List.range original_sparse_len).reverse.foldl
      (fun (acc : List (Option SparseOctetVec)) i =>
        let logical_row := M.physical_row_to_logical.getD i 0
        if logical_row < new_height then
          upd acc logical_row (fun _ => some (M.sparse_elements.getD i SparseOctetVec.empty))
        else acc)
      (List.replicate new_height none)
    let new_sparse2 := (List.range M.dense_rows.length).reverse.foldl
      (fun (acc : List (Option SparseOctetVec)) i =>
        let logical_row := M.physical_row_to_logical.getD (i + original_sparse_len) 0
        if logical_row < new_height then
          upd acc logical_row (fun _ =>
            some (sparsifyDenseRow M.logical_col_to_physical (M.dense_rows.getD i [])))
        else acc)
      new_sparse1
    let new_dense := (List.range M.dense_elements.length).reverse.foldl
      (fun (acc : List (Option (List Oct))) i =>
        let logical_row := M.physical_row_to_logical.getD i 0
        if logical_row < new_height then
          upd acc logical_row (fun _ => some (M.dense_elements.getD i []))
        else acc)
      (List.replicate new_height none)
    let sparse3 := new_sparse2.map (fun o => o.getD SparseOctetVec.empty)
    let dense3 := new_dense.map (fun o => o.getD [])
    let columns_to_remove := M.width - new_width
    let dense_columns_to_remove := min M.num_dense_columns columns_to_remove
    let dense4 := dense3.map
      (fun r => r.take (M.num_dense_columns - dense_columns_to_remove))
    let columns_to_remove2 := columns_to_remove - dense_columns_to_remove
    let sparse4 :=
      if 0 < columns_to_remove2 then
        let sparse_width := M.width - M.num_dense_columns - columns_to_remove2
        sparse3.map (fun row => row.retain
          (fun p => decide (M.physical_col_to_logical.getD p.1 0 < sparse_width)))
      else sparse3
    { M with
      height := new_height
      width := new_width
      sparse_elements := sparse4
      dense_rows := []
      dense_elements := dense4
      logical_row_to_physical := List.range new_height
      physical_row_to_logical := List.range new_height
      num_dense_columns := M.num_dense_columns - dense_columns_to_remove }

def resize (M : SparseOctetMatrix) (new_height new_width : Nat) :
    Option SparseOctetMatrix :=
  if M.height < new_height then none
  else if M.width < new_width then none
  else if ¬ M.column_index_disabled then none
  else some (resizeCore M new_height new_width)

/-- Total count of non-zero logical entries of the matrix. -/
def nonzeroCount (M : SparseOctetMatrix) : Nat :=
  ∑ i in Finset.range M.height,
    ((Finset.range M.width).filter (fun j => M.get i j ≠ 0)).card

/-- Well-formedness of a matrix state: the structural invariants of §3 of the
spec (table lengths, mutually inverse index tables, dense-tail length and
zero padding, dense-row width, sparse keys in range and outside the dense
tail unless zero, and unique keys per sparse row). -/
structure WF (M : SparseOctetMatrix) : Prop where
  hRowLen : M.sparse_elements.length + M.dense_rows.length = M.height
  hDenseLen : M.dense_elements.length = M.height
  hL2PrLen : M.logical_row_to_physical.length = M.height
  hP2LrLen : M.physical_row_to_logical.length = M.height
  hL2PcLen : M.logical_col_to_physical.length = M.width
  hP2LcLen : M.physical_col_to_logical.length = M.width
  hRowL2P : ∀ i, i < M.height → M.logical_row_to_physical.getD i 0 < M.height ∧
    M.physical_row_to_logical.getD (M.logical_row_to_physical.getD i 0) 0 = i
  hRowP2L : ∀ p, p < M.height → M.physical_row_to_logical.getD p 0 < M.height ∧
    M.logical_row_to_physical.getD (M.physical_row_to_logical.getD p 0) 0 = p
  hColL2P : ∀ j, j < M.width → M.logical_col_to_physical.getD j 0 < M.width ∧
    M.physical_col_to_logical.getD (M.logical_col_to_physical.getD j 0) 0 = j
  hColP2L : ∀ p, p < M.width → M.physical_col_to_logical.getD p 0 < M.width ∧
    M.logical_col_to_physical.getD (M.physical_col_to_logical.getD p 0) 0 = p
  hNdc : M.num_dense_columns ≤ M.width
  hTailLen : ∀ r ∈ M.dense_elements, M.num_dense_columns ≤ r.length
  hTailZero : ∀ r ∈ M.dense_elements, ∀ k, k < r.length →
    M.num_dense_columns ≤ k → r.getD k 0 = 0
  hDenseRowLen : ∀ r ∈ M.dense_rows, M.width - M.num_dense_columns ≤ r.length
  hKeys : ∀ row ∈ M.sparse_elements, ∀ p ∈ row.elements, p.1 < M.width ∧
    (M.physical_col_to_logical.getD p.1 0 < M.width - M.num_dense_columns ∨ p.2 = 0)
  hNodup : ∀ row ∈ M.sparse_elements, row.keys.Nodup

theorem WF.tailZero {M : SparseOctetMatrix} (hwf : M.WF) (r : List Oct)
    (hr : r ∈ M.dense_elements) (k : Nat) (h : M.num_dense_columns ≤ k) :
    r.getD k 0 = 0 := by
  by_cases hk : k < r.length
  · exact hwf.hTailZero r hr k hk h
  · exact getD_default r k 0 (by omega)

theorem l2p_row_injective (M : SparseOctetMatrix) (hwf : M.WF) (i j : Nat)
    (hi : i < M.height) (hj : j < M.height) (hne : i ≠ j) :
    M.logical_row_to_physical.getD i 0 ≠ M.logical_row_to_physical.getD j 0 := by
  intro hc
  have h1 := (hwf.hRowL2P i hi).2
  have h2 := (hwf.hRowL2P j hj).2
  rw [hc] at h1
  exact hne (h1.symm.trans h2)

theorem l2p_col_injective (M : SparseOctetMatrix) (hwf : M.WF) (i j : Nat)
    (hi : i < M.width) (hj : j < M.width) (hne : i ≠ j) :
    M.logical_col_to_physical.getD i 0 ≠ M.logical_col_to_physical.getD j 0 := by
  intro hc
  have h1 := (hwf.hColL2P i hi).2
  have h2 := (hwf.hColL2P j hj).2
  rw [hc] at h1
  exact hne (h1.symm.trans h2)

/-- The column-index soundness property of the spec (§3): every non-zero
value stored in a sparse row is reflected in the column index entry of its
physical column. -/
def ColumnIndexSound (M : SparseOctetMatrix) : Prop :=
  ∀ pr, pr < M.sparse_elements.length →
    ∀ p ∈ (M.sparse_elements.getD pr SparseOctetVec.empty).elements,
      p.2 ≠ 0 → pr ∈ M.sparse_column_index.getD p.1 []

/-- The stronger inductive invariant the code actually maintains while the
index is enabled: every stored key of a sparse row (zero values included) is
reflected in the index. -/
def ColumnIndexStrong (M : SparseOctetMatrix) : Prop :=
  ∀ pr, pr < M.sparse_elements.length →
    ∀ p ∈ (M.sparse_elements.getD pr SparseOctetVec.empty).elements,
      pr ∈ M.sparse_column_index.getD p.1 []

/-- Structural side conditions carried along the index-enabled reachability
argument: the index is enabled and has one entry list per physical column,
the logical-to-physical column table covers the width with in-range entries,
and every sparse key is in range. -/
def IdxInv (M : SparseOctetMatrix) : Prop :=
  M.column_index_disabled = false ∧
  M.sparse_column_index.length = M.width ∧
  M.logical_col_to_physical.length = M.width ∧
  (∀ x ∈ M.logical_col_to_physical, x < M.width) ∧
  (∀ row ∈ M.sparse_elements, ∀ p ∈ row.elements, p.1 < M.width) ∧
  ColumnIndexStrong M

/-- States reachable while the column acceleration index is enabled, using
the operations that preserve index soundness: an `enable` on a structurally
adequate state, then any sequence of `set`, row and column swaps, `fma_rows`,
`hint_column_dense_and_frozen` and `mul_assign_submatrix`.
(`hint_compact_dense_rows` is deliberately absent: it does not preserve
soundness, see the C5 counterexample.)  Each step carries the in-range
conditions under which the source's `Vec` indexing does not panic. -/
inductive IdxReachable : SparseOctetMatrix → Prop where
  | enable (M : SparseOctetMatrix)
      (hl2pc : M.logical_col_to_physical.length = M.width)
      (hbound : ∀ x ∈ M.logical_col_to_physical, x < M.width)
      (hkeys : ∀ row ∈ M.sparse_elements, ∀ p ∈ row.elements, p.1 < M.width) :
      IdxReachable M.enable_column_acccess_acceleration
  | set (M : SparseOctetMatrix) (i j : Nat) (v : Oct) (hM : IdxReachable M)
      (hj : j < M.width) : IdxReachable (M.set i j v)
  | swap_rows (M : SparseOctetMatrix) (i j : Nat) (hM : IdxReachable M) :
      IdxReachable (M.swap_rows i j)
  | swap_columns (M : SparseOctetMatrix) (i j : Nat) (M' : SparseOctetMatrix)
      (hM : IdxReachable M) (hi : i < M.width)
      (h : M.swap_columns i j = some M') : IdxReachable M'
  | fma_rows (M : SparseOctetMatrix) (d m : Nat) (s : Oct)
      (M' : SparseOctetMatrix) (hM : IdxReachable M)
      (h : M.fma_rows d m s = some M') : IdxReachable M'
  | freeze (M : SparseOctetMatrix) (i : Nat) (M' : SparseOctetMatrix)
      (hM : IdxReachable M)
      (h : M.hint_column_dense_and_frozen i = some M') : IdxReachable M'
  | mul_assign (M other : SparseOctetMatrix) (rows : Nat)
      (M' : SparseOctetMatrix) (hM : IdxReachable M)
      (h : M.mul_assign_submatrix other rows = some M') : IdxReachable M'

/-- The index-table invariant the code maintains: the row tables are mutually
inverse permutations of `0..height`, and the column tables are mutually
inverse permutations of `0..L` where `L` is their common length, with
`width ≤ L`.  (`L` equals the construction width; a width-shrinking `resize`
leaves the column tables untouched, so `L` can exceed the current width.) -/
def TablesInv (M : SparseOctetMatrix) : Prop :=
  M.logical_row_to_physical.length = M.height ∧
  M.physical_row_to_logical.length = M.height ∧
  (∀ i, i < M.height → M.logical_row_to_physical.getD i 0 < M.height ∧
    M.physical_row_to_logical.getD (M.logical_row_to_physical.getD i 0) 0 = i) ∧
  (∀ p, p < M.height → M.physical_row_to_logical.getD p 0 < M.height ∧
    M.logical_row_to_physical.getD (M.physical_row_to_logical.getD p 0) 0 = p) ∧
  M.logical_col_to_physical.length = M.physical_col_to_logical.length ∧
  M.width ≤ M.logical_col_to_physical.length ∧
  (∀ j, j < M.logical_col_to_physical.length →
    M.logical_col_to_physical.getD j 0 < M.logical_col_to_physical.length ∧
    M.physical_col_to_logical.getD (M.logical_col_to_physical.getD j 0) 0 = j) ∧
  (∀ p, p < M.logical_col_to_physical.length →
    M.physical_col_to_logical.getD p 0 < M.logical_col_to_physical.length ∧
    M.logical_col_to_physical.getD (M.physical_col_to_logical.getD p 0) 0 = p)

/-- States reachable from `new` through the mutating operations of the
engine.  Each step carries only the in-range conditions under which the
source's unchecked `Vec` indexing does not panic (`new` requires the dense
row block to fit the height; `swap_rows` requires valid logical rows;
`swap_columns` checks its second argument itself but reads the first
unchecked). -/
inductive TReachable : SparseOctetMatrix → Prop where
  | new (height width tdc sdr ndr : Nat) (h : sdr + ndr ≤ height) :
      TReachable (new height width tdc sdr ndr)
  | set (M : SparseOctetMatrix) (i j : Nat) (v : Oct) (hM : TReachable M) :
      TReachable (M.set i j v)
  | swap_rows (M : SparseOctetMatrix) (i j : Nat) (hM : TReachable M)
      (hi : i < M.height) (hj : j < M.height) : TReachable (M.swap_rows i j)
  | swap_columns (M : SparseOctetMatrix) (i j : Nat) (M' : SparseOctetMatrix)
      (hM : TReachable M) (hi : i < M.width)
      (h : M.swap_columns i j = some M') : TReachable M'
  | enable (M : SparseOctetMatrix) (hM : TReachable M) :
      TReachable M.enable_column_acccess_acceleration
  | disable (M : SparseOctetMatrix) (hM : TReachable M) :
      TReachable M.disable_column_acccess_acceleration
  | hint_compact (M : SparseOctetMatrix) (hM : TReachable M) :
      TReachable M.hint_compact_dense_rows
  | freeze (M : SparseOctetMatrix) (i : Nat) (M' : SparseOctetMatrix)
      (hM : TReachable M) (h : M.hint_column_dense_and_frozen i = some M') :
      TReachable M'
  | fma_rows (M : SparseOctetMatrix) (d m : Nat) (s : Oct)
      (M' : SparseOctetMatrix) (hM : TReachable M)
      (h : M.fma_rows d m s = some M') : TReachable M'
  | mul_assign (M other : SparseOctetMatrix) (rows : Nat)
      (M' : SparseOctetMatrix) (hM : TReachable M)
      (h : M.mul_assign_submatrix other rows = some M') : TReachable M'
  | resize (M : SparseOctetMatrix) (nh nw : Nat) (M' : SparseOctetMatrix)
      (hM : TReachable M) (h : M.resize nh nw = some M') : TReachable M'

end SparseOctetMatrix

/-! # Claims -/

/-- C1: Get/set round-trip: for every well-formed matrix state, every logical
row `i < height`, logical column `j < width` and field value `v`, after
`set i j v` a `get i j` returns exactly `v`, whether the coordinate lies in
the dense tail, in a physical dense row, or in a sparse row. -/
theorem set_get_roundtrip (M : SparseOctetMatrix) (hwf : M.WF) (i j : Nat)
    (v : Oct) (hi : i < M.height) (hj : j < M.width) :
    (M.set i j v).get i j = v := by
  have hpi := (hwf.hRowL2P i hi).1
  by_cases hA : M.width - j ≤ M.num_dense_columns
  · have hlen : M.logical_row_to_physical.getD i 0 < M.dense_elements.length := by
      rw [hwf.hDenseLen]; exact hpi
    have hrowlen := hwf.hTailLen _ (getD_mem M.dense_elements
      (M.logical_row_to_physical.getD i 0) [] hlen)
    have hidx : M.width - j - 1 < (M.dense_elements.getD
        (M.logical_row_to_physical.getD i 0) []).length := by omega
    simp only [SparseOctetMatrix.set, SparseOctetMatrix.get, if_pos hA]
    rw [getD_upd_self _ _ _ _ hlen, getD_upd_self _ _ _ _ hidx]
  · by_cases hB : M.sparse_elements.length ≤ M.logical_row_to_physical.getD i 0
    · have hlen : M.logical_row_to_physical.getD i 0 - M.sparse_elements.length <
          M.dense_rows.length := by
        have := hwf.hRowLen
        omega
      have hrowlen := hwf.hDenseRowLen _ (getD_mem M.dense_rows
        (M.logical_row_to_physical.getD i 0 - M.sparse_elements.length) [] hlen)
      have hidx : j < (M.dense_rows.getD
          (M.logical_row_to_physical.getD i 0 - M.sparse_elements.length) []).length := by
        omega
      simp only [SparseOctetMatrix.set, SparseOctetMatrix.get, if_neg hA, if_pos hB]
      rw [getD_upd_self _ _ _ _ hlen, getD_upd_self _ _ _ _ hidx]
    · have hlt : M.logical_row_to_physical.getD i 0 < M.sparse_elements.length := by
        omega
      simp only [SparseOctetMatrix.set, SparseOctetMatrix.get, length_upd, if_neg hA,
        if_neg hB]
      rw [getD_upd_self _ _ _ _ hlt]
      exact SparseOctetVec.getZero_insert_self _ _ _

/-- Witness for C1 at a concrete matrix: a 3x3 matrix with one dense row and
one dense-tail column, write then read at (0, 0). -/
theorem set_get_roundtrip_witness :
    ((SparseOctetMatrix.new 3 3 1 1 1).set 0 0 1).get 0 0 = 1 :=
  set_get_roundtrip (SparseOctetMatrix.new 3 3 1 1 1)
    (by constructor <;> decide) 0 0 1 (by decide) (by decide)

theorem getD_getD_replicate_zero (n m a b : Nat) :
    ((List.replicate n (List.replicate m (0 : Oct))).getD a []).getD b 0 = 0 := by
  rw [getD_replicate]
  by_cases ha : a < n
  · rw [if_pos ha, getD_replicate]
    by_cases hb : b < m
    · rw [if_pos hb]
    · rw [if_neg hb]
  · rw [if_neg ha]
    rfl

theorem getZero_empty (k : Nat) : SparseOctetVec.empty.getZero k = 0 := rfl

/-- C9 (implicit): a freshly constructed matrix reads as all zeros: for every
valid hint combination and all logical coordinates in range, `get` on the
result of `new` returns the field zero, in all three placements. -/
theorem new_get_zero (height width tdch sdrh ndrh : Nat)
    (hn : ndrh ≤ height) (hs : sdrh + ndrh ≤ height) (ht : tdch ≤ width)
    (i j : Nat) (hi : i < height) (hj : j < width) :
    (SparseOctetMatrix.new height width tdch sdrh ndrh).get i j = 0 := by
  simp only [SparseOctetMatrix.get, SparseOctetMatrix.new]
  split
  · exact getD_getD_replicate_zero _ _ _ _
  · split
    · exact getD_getD_replicate_zero _ _ _ _
    · rw [getD_replicate]
      split
      · exact getZero_empty _
      · exact getZero_empty _

/-- Witness for C9: a concrete 4x3 matrix with dense hints, read at (2, 1). -/
theorem new_get_zero_witness : (SparseOctetMatrix.new 4 3 1 1 2).get 2 1 = 0 :=
  new_get_zero 4 3 1 1 2 (by decide) (by decide) (by decide) 2 1 (by decide)
    (by decide)

/-- Element read with an explicitly supplied physical row, the common kernel
of `get` reads under row permutations. -/
def SparseOctetMatrix.getAtPhys (M : SparseOctetMatrix) (physical_i j : Nat) : Oct :=
  let physical_j := M.logical_col_to_physical.getD j 0
  if M.width - j ≤ M.num_dense_columns then
    (M.dense_elements.getD physical_i []).getD (M.width - j - 1) 0
  else if M.sparse_elements.length ≤ physical_i then
    (M.dense_rows.getD (physical_i - M.sparse_elements.length) []).getD j 0
  else
    (M.sparse_elements.getD physical_i SparseOctetVec.empty).getZero physical_j

theorem get_eq_getAtPhys (M : SparseOctetMatrix) (i j : Nat) :
    M.get i j = M.getAtPhys (M.logical_row_to_physical.getD i 0) j := rfl

theorem swap_rows_getAtPhys (M : SparseOctetMatrix) (i j p c : Nat) :
    (M.swap_rows i j).getAtPhys p c = M.getAtPhys p c := rfl

/-- Row reads after `swap_rows` are reads of the transposed logical row. -/
theorem get_swap_rows (M : SparseOctetMatrix) (hwf : M.WF) (i j : Nat)
    (hi : i < M.height) (hj : j < M.height) (r c : Nat) :
    (M.swap_rows i j).get r c = M.get (Equiv.swap i j r) c := by
  have hil : i < M.logical_row_to_physical.length := by rw [hwf.hL2PrLen]; exact hi
  have hjl : j < M.logical_row_to_physical.length := by rw [hwf.hL2PrLen]; exact hj
  rw [get_eq_getAtPhys, swap_rows_getAtPhys, get_eq_getAtPhys]
  congr 1
  show (lswap M.logical_row_to_physical i j 0).getD r 0 = _
  by_cases hri : r = i
  · subst hri
    rw [Equiv.swap_apply_left, getD_lswap_left _ _ _ _ hil hjl]
  · by_cases hrj : r = j
    · subst hrj
      rw [Equiv.swap_apply_right, getD_lswap_right _ _ _ _ hil hjl]
    · rw [Equiv.swap_apply_of_ne_of_ne hri hrj, getD_lswap_other _ _ _ _ _ hri hrj]

theorem getD_map {α β : Type} (l : List α) (f : α → β) (k : Nat) (d : β) (d2 : α)
    (h : k < l.length) : (l.map f).getD k d = f (l.getD k d2) := by
  induction l generalizing k with
  | nil => simp at h
  | cons x xs ih =>
    cases k with
    | zero => rfl
    | succ k => simpa using ih k (by simpa using h)

/-- Branch lemma: a read in the dense tail. -/
theorem get_tail_read (M : SparseOctetMatrix) (r c : Nat)
    (h : M.width - c ≤ M.num_dense_columns) :
    M.get r c = (M.dense_elements.getD (M.logical_row_to_physical.getD r 0) []).getD
      (M.width - c - 1) 0 := by
  simp only [SparseOctetMatrix.get]
  rw [if_pos h]

/-- Branch lemma: a read from a physical dense row. -/
theorem get_dense_row_read (M : SparseOctetMatrix) (r c : Nat)
    (h1 : ¬ (M.width - c ≤ M.num_dense_columns))
    (h2 : M.sparse_elements.length ≤ M.logical_row_to_physical.getD r 0) :
    M.get r c = (M.dense_rows.getD
      (M.logical_row_to_physical.getD r 0 - M.sparse_elements.length) []).getD c 0 := by
  simp only [SparseOctetMatrix.get]
  rw [if_neg h1, if_pos h2]

/-- Branch lemma: a read from a sparse row. -/
theorem get_sparse_read (M : SparseOctetMatrix) (r c : Nat)
    (h1 : ¬ (M.width - c ≤ M.num_dense_columns))
    (h2 : ¬ (M.sparse_elements.length ≤ M.logical_row_to_physical.getD r 0)) :
    M.get r c = (M.sparse_elements.getD (M.logical_row_to_physical.getD r 0)
      SparseOctetVec.empty).getZero (M.logical_col_to_physical.getD c 0) := by
  simp only [SparseOctetMatrix.get]
  rw [if_neg h1, if_neg h2]

@[simp] theorem swapColsCore_height (M : SparseOctetMatrix) (i j : Nat) :
    (SparseOctetMatrix.swapColsCore M i j).height = M.height := rfl

@[simp] theorem swapColsCore_width (M : SparseOctetMatrix) (i j : Nat) :
    (SparseOctetMatrix.swapColsCore M i j).width = M.width := rfl

@[simp] theorem swapColsCore_ndc (M : SparseOctetMatrix) (i j : Nat) :
    (SparseOctetMatrix.swapColsCore M i j).num_dense_columns = M.num_dense_columns := rfl

@[simp] theorem swapColsCore_sparse (M : SparseOctetMatrix) (i j : Nat) :
    (SparseOctetMatrix.swapColsCore M i j).sparse_elements = M.sparse_elements := rfl

@[simp] theorem swapColsCore_dense (M : SparseOctetMatrix) (i j : Nat) :
    (SparseOctetMatrix.swapColsCore M i j).dense_elements = M.dense_elements := rfl

@[simp] theorem swapColsCore_l2pr (M : SparseOctetMatrix) (i j : Nat) :
    (SparseOctetMatrix.swapColsCore M i j).logical_row_to_physical = M.logical_row_to_physical := rfl

@[simp] theorem swapColsCore_dense_rows (M : SparseOctetMatrix) (i j : Nat) :
    (SparseOctetMatrix.swapColsCore M i j).dense_rows = M.dense_rows.map (fun row => lswap row i j 0) :=
  rfl

@[simp] theorem swapColsCore_l2pc (M : SparseOctetMatrix) (i j : Nat) :
    (SparseOctetMatrix.swapColsCore M i j).logical_col_to_physical =
      lswap M.logical_col_to_physical i j 0 := rfl

/-- Column reads after a successful `swap_columns` are reads of the
transposed logical column. -/
theorem get_swapColsCore (M : SparseOctetMatrix) (hwf : M.WF) (ci cj : Nat)
    (hci : ci < M.width - M.num_dense_columns)
    (hcj : cj < M.width - M.num_dense_columns)
    (r : Nat) (hr : r < M.height) (c : Nat) :
    (SparseOctetMatrix.swapColsCore M ci cj).get r c = M.get r (Equiv.swap ci cj c) := by
  have hnd := hwf.hNdc
  have hcil : ci < M.logical_col_to_physical.length := by rw [hwf.hL2PcLen]; omega
  have hcjl : cj < M.logical_col_to_physical.length := by rw [hwf.hL2PcLen]; omega
  have hpr := (hwf.hRowL2P r hr).1
  by_cases hcci : c = ci
  · subst hcci
    rw [Equiv.swap_apply_left]
    by_cases hden : M.sparse_elements.length ≤ M.logical_row_to_physical.getD r 0
    · rw [get_dense_row_read (SparseOctetMatrix.swapColsCore M c cj) r c (by simp; omega) (by simpa using hden)]
      rw [get_dense_row_read M r cj (by omega) hden]
      simp only [swapColsCore_dense_rows, swapColsCore_l2pr, swapColsCore_sparse]
      have hlen : M.logical_row_to_physical.getD r 0 - M.sparse_elements.length <
          M.dense_rows.length := by
        have := hwf.hRowLen
        omega
      rw [getD_map _ _ _ _ [] hlen]
      have hrlen := hwf.hDenseRowLen _ (getD_mem M.dense_rows _ [] hlen)
      exact getD_lswap_left _ _ _ _ (by omega) (by omega)
    · rw [get_sparse_read (SparseOctetMatrix.swapColsCore M c cj) r c (by simp; omega) (by simpa using hden)]
      rw [get_sparse_read M r cj (by omega) hden]
      simp only [swapColsCore_sparse, swapColsCore_l2pr, swapColsCore_l2pc]
      rw [getD_lswap_left _ _ _ _ hcil hcjl]
  · by_cases hccj : c = cj
    · subst hccj
      rw [Equiv.swap_apply_right]
      by_cases hden : M.sparse_elements.length ≤ M.logical_row_to_physical.getD r 0
      · rw [get_dense_row_read (SparseOctetMatrix.swapColsCore M ci c) r c (by simp; omega) (by simpa using hden)]
        rw [get_dense_row_read M r ci (by omega) hden]
        simp only [swapColsCore_dense_rows, swapColsCore_l2pr, swapColsCore_sparse]
        have hlen : M.logical_row_to_physical.getD r 0 - M.sparse_elements.length <
            M.dense_rows.length := by
          have := hwf.hRowLen
          omega
        rw [getD_map _ _ _ _ [] hlen]
        have hrlen := hwf.hDenseRowLen _ (getD_mem M.dense_rows _ [] hlen)
        exact getD_lswap_right _ _ _ _ (by omega) (by omega)
      · rw [get_sparse_read (SparseOctetMatrix.swapColsCore M ci c) r c (by simp; omega) (by simpa using hden)]
        rw [get_sparse_read M r ci (by omega) hden]
        simp only [swapColsCore_sparse, swapColsCore_l2pr, swapColsCore_l2pc]
        rw [getD_lswap_right _ _ _ _ hcil hcjl]
    · rw [Equiv.swap_apply_of_ne_of_ne hcci hccj]
      by_cases htail : M.width - c ≤ M.num_dense_columns
      · rw [get_tail_read (SparseOctetMatrix.swapColsCore M ci cj) r c (by simpa using htail)]
        rw [get_tail_read M r c htail]
        simp only [swapColsCore_dense, swapColsCore_l2pr, swapColsCore_width,
          swapColsCore_ndc]
      · by_cases hden : M.sparse_elements.length ≤ M.logical_row_to_physical.getD r 0
        · rw [get_dense_row_read (SparseOctetMatrix.swapColsCore M ci cj) r c (by simpa using htail)
            (by simpa using hden)]
          rw [get_dense_row_read M r c htail hden]
          simp only [swapColsCore_dense_rows, swapColsCore_l2pr, swapColsCore_sparse]
          by_cases hlen : M.logical_row_to_physical.getD r 0 - M.sparse_elements.length <
              M.dense_rows.length
          · rw [getD_map _ _ _ _ [] hlen]
            rw [getD_lswap_other _ _ _ _ _ hcci hccj]
          · rw [getD_default (M.dense_rows.map (fun row => lswap row ci cj 0)) _ []
              (by simpa using Nat.le_of_not_lt hlen)]
            rw [getD_default M.dense_rows _ [] (Nat.le_of_not_lt hlen)]
        · rw [get_sparse_read (SparseOctetMatrix.swapColsCore M ci cj) r c (by simpa using htail)
            (by simpa using hden)]
          rw [get_sparse_read M r c htail hden]
          simp only [swapColsCore_sparse, swapColsCore_l2pr, swapColsCore_l2pc]
          rw [getD_lswap_other _ _ _ _ _ hcci hccj]

theorem card_filter_comp (w : Nat) (f g : Nat → Oct) (e : Nat ≃ Nat)
    (he : ∀ c, c ∈ Finset.range w ↔ e c ∈ Finset.range w)
    (hfg : ∀ c ∈ Finset.range w, f c = g (e c)) :
    ((Finset.range w).filter (fun c => f c ≠ 0)).card =
      ((Finset.range w).filter (fun c => g c ≠ 0)).card := by
  rw [Finset.card_filter, Finset.card_filter]
  refine Finset.sum_equiv e he ?_
  intro c hc
  rw [hfg c hc]

theorem swap_mem_range_iff (a b n : Nat) (ha : a < n) (hb : b < n) (r : Nat) :
    r ∈ Finset.range n ↔ Equiv.swap a b r ∈ Finset.range n := by
  simp only [Finset.mem_range]
  by_cases hra : r = a
  · subst hra
    rw [Equiv.swap_apply_left]
    exact ⟨fun _ => hb, fun _ => ha⟩
  · by_cases hrb : r = b
    · subst hrb
      rw [Equiv.swap_apply_right]
      exact ⟨fun _ => ha, fun _ => hb⟩
    · rw [Equiv.swap_apply_of_ne_of_ne hra hrb]

theorem getD_tail_list {α : Type} (l : List α) (k : Nat) (d : α) :
    l.tail.getD k d = l.getD (k + 1) d := by
  cases l <;> rfl

theorem headD_eq_getD {α : Type} (l : List α) (d : α) : l.headD d = l.getD 0 d := by
  cases l <;> rfl

@[simp] theorem length_fmaSlice (s : Oct) (n : Nat) (dest src : List Oct) :
    (fmaSlice s n dest src).length = dest.length := by
  induction dest generalizing n src with
  | nil => cases n <;> rfl
  | cons d ds ih =>
    cases n with
    | zero => rfl
    | succ n => simpa [fmaSlice] using ih n src.tail

@[simp] theorem length_addSlice (n : Nat) (dest src : List Oct) :
    (addSlice n dest src).length = dest.length := by
  induction dest generalizing n src with
  | nil => cases n <;> rfl
  | cons d ds ih =>
    cases n with
    | zero => rfl
    | succ n => simpa [addSlice] using ih n src.tail

theorem getD_fmaSlice (s : Oct) (n : Nat) (dest src : List Oct) (k : Nat)
    (hk : k < n) (hkd : k < dest.length) :
    (fmaSlice s n dest src).getD k 0 =
      octAdd (dest.getD k 0) (octMul (src.getD k 0) s) := by
  induction dest generalizing n src k with
  | nil => simp at hkd
  | cons d ds ih =>
    cases n with
    | zero => omega
    | succ n =>
      cases k with
      | zero =>
        show octAdd d (octMul (src.headD 0) s) = _
        rw [headD_eq_getD]
        rfl
      | succ k =>
        show (fmaSlice s n ds src.tail).getD k 0 = _
        rw [ih n src.tail k (by omega) (by simpa using hkd), getD_tail_list]
        rfl

theorem getD_fmaSlice_ge (s : Oct) (n : Nat) (dest src : List Oct) (k : Nat)
    (hk : n ≤ k) : (fmaSlice s n dest src).getD k 0 = dest.getD k 0 := by
  induction dest generalizing n src k with
  | nil => cases n <;> rfl
  | cons d ds ih =>
    cases n with
    | zero => rfl
    | succ n =>
      cases k with
      | zero => omega
      | succ k =>
        show (fmaSlice s n ds src.tail).getD k 0 = _
        rw [ih n src.tail k (by omega)]
        rfl

theorem getD_addSlice (n : Nat) (dest src : List Oct) (k : Nat)
    (hk : k < n) (hkd : k < dest.length) :
    (addSlice n dest src).getD k 0 = octAdd (dest.getD k 0) (src.getD k 0) := by
  induction dest generalizing n src k with
  | nil => simp at hkd
  | cons d ds ih =>
    cases n with
    | zero => omega
    | succ n =>
      cases k with
      | zero =>
        show octAdd d (src.headD 0) = _
        rw [headD_eq_getD]
        rfl
      | succ k =>
        show (addSlice n ds src.tail).getD k 0 = _
        rw [ih n src.tail k (by omega) (by simpa using hkd), getD_tail_list]
        rfl

theorem getD_addSlice_ge (n : Nat) (dest src : List Oct) (k : Nat)
    (hk : n ≤ k) : (addSlice n dest src).getD k 0 = dest.getD k 0 := by
  induction dest generalizing n src k with
  | nil => cases n <;> rfl
  | cons d ds ih =>
    cases n with
    | zero => rfl
    | succ n =>
      cases k with
      | zero => omega
      | succ k =>
        show (addSlice n ds src.tail).getD k 0 = _
        rw [ih n src.tail k (by omega)]
        rfl

/-- The dense-tail combination of `fma_rows` and `mul_assign_submatrix`: a
read below the combined prefix sees `dest + src * s`, whichever of the two
slice primitives the scalar selected. -/
theorem getD_tailCombine (s : Oct) (n : Nat) (dest src : List Oct) (k : Nat)
    (hk : k < n) (hkd : k < dest.length) :
    (if s = 1 then addSlice n dest src else fmaSlice s n dest src).getD k 0 =
      octAdd (dest.getD k 0) (octMul (src.getD k 0) s) := by
  by_cases hs : s = 1
  · rw [if_pos hs, getD_addSlice n dest src k hk hkd, hs, octMul_one_right]
  · rw [if_neg hs, getD_fmaSlice s n dest src k hk hkd]

/-- The fold writing a sparse multiplicand row into a dense destination row
(`fma_rows`, lines 405-421), read at a fixed position: with `pj` the unique
key mapping to that logical column, the read sees `old + value(pj) * s`. -/
theorem foldl_denseFma_getD (p2lc : List Nat) (s : Oct) (l : List (Nat × Oct))
    (r0 : List Oct) (c pj : Nat) (hc : c < r0.length)
    (hnodup : (l.map Prod.fst).Nodup)
    (hiff : ∀ p ∈ l, p2lc.getD p.1 0 = c ↔ p.1 = pj) :
    (l.foldl
      (fun r p =>
        if p.2 ≠ 0 then
          upd r (p2lc.getD p.1 0) (fun x => octAdd x (octMul p.2 s))
        else r)
      r0).getD c 0 =
      octAdd (r0.getD c 0) (octMul (SparseOctetVec.lookupZero l pj) s) := by
  induction l generalizing r0 with
  | nil =>
    simp [SparseOctetVec.lookupZero, octMul_zero_left, octAdd_zero]
  | cons p tl ih =>
    have hn' : (tl.map Prod.fst).Nodup := (List.nodup_cons.mp hnodup).2
    have hp : p.1 ∉ tl.map Prod.fst := (List.nodup_cons.mp hnodup).1
    have hiff' : ∀ q ∈ tl, p2lc.getD q.1 0 = c ↔ q.1 = pj :=
      fun q hq => hiff q (List.mem_cons_of_mem p hq)
    by_cases hhit : p.1 = pj
    · subst hhit
      have hcol : p2lc.getD p.1 0 = c := (hiff p (List.mem_cons_self p tl)).mpr rfl
      have hlook : SparseOctetVec.lookupZero (p :: tl) p.1 = p.2 :=
        SparseOctetVec.lookupZero_cons_self p tl
      have hlooktl : SparseOctetVec.lookupZero tl p.1 = 0 :=
        SparseOctetVec.lookupZero_eq_zero_of_not_mem tl p.1 hp
      rw [hlook]
      by_cases hz : p.2 = 0
      · show (tl.foldl _ (if p.2 ≠ 0 then _ else r0)).getD c 0 = _
        rw [if_neg (by simpa using hz), ih r0 hc hn' hiff', hlooktl, hz]
      · show (tl.foldl _ (if p.2 ≠ 0 then
          upd r0 (p2lc.getD p.1 0) (fun x => octAdd x (octMul p.2 s)) else r0)).getD
            c 0 = _
        rw [if_pos hz, ih _ (by simpa using hc) hn' hiff', hlooktl, octMul_zero_left,
          octAdd_zero, hcol, getD_upd_self _ _ _ _ hc]
    · have hcol : p2lc.getD p.1 0 ≠ c := by
        intro hcl
        exact hhit ((hiff p (List.mem_cons_self p tl)).mp hcl)
      have hlook : SparseOctetVec.lookupZero (p :: tl) pj =
          SparseOctetVec.lookupZero tl pj :=
        SparseOctetVec.lookupZero_cons_ne p tl pj (fun hc2 => hhit hc2.symm)
      rw [hlook]
      by_cases hz : p.2 = 0
      · show (tl.foldl _ (if p.2 ≠ 0 then _ else r0)).getD c 0 = _
        rw [if_neg (by simpa using hz), ih r0 hc hn' hiff']
      · show (tl.foldl _ (if p.2 ≠ 0 then
          upd r0 (p2lc.getD p.1 0) (fun x => octAdd x (octMul p.2 s)) else r0)).getD
            c 0 = _
        rw [if_pos hz, ih _ (by simpa using hc) hn' hiff',
          getD_upd_ne _ _ _ _ _ (Ne.symm hcol)]

@[simp] theorem fmaRowsDense_height (M : SparseOctetMatrix) (d m : Nat) (s : Oct) :
    (SparseOctetMatrix.fmaRowsDense M d m s).height = M.height := rfl

@[simp] theorem fmaRowsDense_width (M : SparseOctetMatrix) (d m : Nat) (s : Oct) :
    (SparseOctetMatrix.fmaRowsDense M d m s).width = M.width := rfl

@[simp] theorem fmaRowsDense_ndc (M : SparseOctetMatrix) (d m : Nat) (s : Oct) :
    (SparseOctetMatrix.fmaRowsDense M d m s).num_dense_columns =
      M.num_dense_columns := rfl

@[simp] theorem fmaRowsDense_sparse (M : SparseOctetMatrix) (d m : Nat) (s : Oct) :
    (SparseOctetMatrix.fmaRowsDense M d m s).sparse_elements = M.sparse_elements := rfl

@[simp] theorem fmaRowsDense_l2pr (M : SparseOctetMatrix) (d m : Nat) (s : Oct) :
    (SparseOctetMatrix.fmaRowsDense M d m s).logical_row_to_physical =
      M.logical_row_to_physical := rfl

@[simp] theorem fmaRowsDense_l2pc (M : SparseOctetMatrix) (d m : Nat) (s : Oct) :
    (SparseOctetMatrix.fmaRowsDense M d m s).logical_col_to_physical =
      M.logical_col_to_physical := rfl

@[simp] theorem fmaRowsDense_dense_elements (M : SparseOctetMatrix) (d m : Nat)
    (s : Oct) :
    (SparseOctetMatrix.fmaRowsDense M d m s).dense_elements =
      upd M.dense_elements (M.logical_row_to_physical.getD d 0)
        (fun _ => SparseOctetMatrix.fmaNewTail M d m s) := rfl

@[simp] theorem fmaRowsDense_dense_rows (M : SparseOctetMatrix) (d m : Nat)
    (s : Oct) :
    (SparseOctetMatrix.fmaRowsDense M d m s).dense_rows =
      upd M.dense_rows
        (M.logical_row_to_physical.getD d 0 - M.sparse_elements.length)
        (fun r => (M.sparse_elements.getD (M.logical_row_to_physical.getD m 0)
            SparseOctetVec.empty).elements.foldl
          (fun r p =>
            if p.2 ≠ 0 then
              upd r (M.physical_col_to_logical.getD p.1 0)
                (fun x => octAdd x (octMul p.2 s))
            else r)
          r) := rfl

@[simp] theorem fmaRowsSparse_height (M : SparseOctetMatrix) (d m : Nat) (s : Oct) :
    (SparseOctetMatrix.fmaRowsSparse M d m s).height = M.height := rfl

@[simp] theorem fmaRowsSparse_width (M : SparseOctetMatrix) (d m : Nat) (s : Oct) :
    (SparseOctetMatrix.fmaRowsSparse M d m s).width = M.width := rfl

@[simp] theorem fmaRowsSparse_ndc (M : SparseOctetMatrix) (d m : Nat) (s : Oct) :
    (SparseOctetMatrix.fmaRowsSparse M d m s).num_dense_columns =
      M.num_dense_columns := rfl

@[simp] theorem fmaRowsSparse_dense_rows (M : SparseOctetMatrix) (d m : Nat)
    (s : Oct) :
    (SparseOctetMatrix.fmaRowsSparse M d m s).dense_rows = M.dense_rows := rfl

@[simp] theorem fmaRowsSparse_l2pr (M : SparseOctetMatrix) (d m : Nat) (s : Oct) :
    (SparseOctetMatrix.fmaRowsSparse M d m s).logical_row_to_physical =
      M.logical_row_to_physical := rfl

@[simp] theorem fmaRowsSparse_l2pc (M : SparseOctetMatrix) (d m : Nat) (s : Oct) :
    (SparseOctetMatrix.fmaRowsSparse M d m s).logical_col_to_physical =
      M.logical_col_to_physical := rfl

@[simp] theorem fmaRowsSparse_dense_elements (M : SparseOctetMatrix) (d m : Nat)
    (s : Oct) :
    (SparseOctetMatrix.fmaRowsSparse M d m s).dense_elements =
      upd M.dense_elements (M.logical_row_to_physical.getD d 0)
        (fun _ => SparseOctetMatrix.fmaNewTail M d m s) := rfl

@[simp] theorem fmaRowsSparse_sparse (M : SparseOctetMatrix) (d m : Nat) (s : Oct) :
    (SparseOctetMatrix.fmaRowsSparse M d m s).sparse_elements =
      upd M.sparse_elements (M.logical_row_to_physical.getD d 0)
        (fun _ => ((M.sparse_elements.getD (M.logical_row_to_physical.getD d 0)
            SparseOctetVec.empty).fma
          (M.sparse_elements.getD (M.logical_row_to_physical.getD m 0)
            SparseOctetVec.empty) s).1) := rfl

/-- The dense-tail part of both `fma_rows` destinations, read inside the
combined prefix. -/
theorem fmaNewTail_getD (M : SparseOctetMatrix) (hwf : M.WF) (d m : Nat)
    (hd : d < M.height) (s : Oct) (k : Nat) (hk : k < M.num_dense_columns) :
    (SparseOctetMatrix.fmaNewTail M d m s).getD k 0 =
      octAdd ((M.dense_elements.getD (M.logical_row_to_physical.getD d 0) []).getD k 0)
        (octMul ((M.dense_elements.getD
          (M.logical_row_to_physical.getD m 0) []).getD k 0) s) := by
  have hpd := (hwf.hRowL2P d hd).1
  have hlen : M.logical_row_to_physical.getD d 0 < M.dense_elements.length := by
    rw [hwf.hDenseLen]; exact hpd
  have htl := hwf.hTailLen _ (getD_mem M.dense_elements
    (M.logical_row_to_physical.getD d 0) [] hlen)
  unfold SparseOctetMatrix.fmaNewTail
  exact getD_tailCombine s M.num_dense_columns _ _ k hk (by omega)

/-- C3: FMA linearity.  For distinct logical rows with a physically sparse
multiplicand, `fma_rows d m s` succeeds, every column of the destination row
becomes `old + multiplicand * s` in GF(256), and the multiplicand row is
unchanged — whether the destination row is physically sparse or dense. -/
theorem fma_rows_linearity (M : SparseOctetMatrix) (hwf : M.WF) (d m : Nat)
    (hd : d < M.height) (hm : m < M.height) (hdm : d ≠ m) (s : Oct)
    (hms : M.logical_row_to_physical.getD m 0 < M.sparse_elements.length) :
    ∃ M', M.fma_rows d m s = some M' ∧
      (∀ c, c < M.width → M'.get d c = octAdd (M.get d c) (octMul (M.get m c) s)) ∧
      (∀ c, M'.get m c = M.get m c) := by
  have hpd := (hwf.hRowL2P d hd).1
  have hpm := (hwf.hRowL2P m hm).1
  have hne : M.logical_row_to_physical.getD d 0 ≠
      M.logical_row_to_physical.getD m 0 :=
    SparseOctetMatrix.l2p_row_injective M hwf d m hd hm hdm
  have hdel : M.logical_row_to_physical.getD d 0 < M.dense_elements.length := by
    rw [hwf.hDenseLen]; exact hpd
  have hmnodup := hwf.hNodup _ (getD_mem M.sparse_elements
    (M.logical_row_to_physical.getD m 0) SparseOctetVec.empty hms)
  refine ⟨SparseOctetMatrix.fmaRowsCore M d m s, ?_, ?_, ?_⟩
  · unfold SparseOctetMatrix.fma_rows
    rw [if_neg hdm, if_neg (by omega)]
  · intro c hc
    by_cases hdense : M.sparse_elements.length ≤ M.logical_row_to_physical.getD d 0
    · have hcore : SparseOctetMatrix.fmaRowsCore M d m s =
          SparseOctetMatrix.fmaRowsDense M d m s := by
        unfold SparseOctetMatrix.fmaRowsCore
        rw [if_pos hdense]
      rw [hcore]
      by_cases htail : M.width - c ≤ M.num_dense_columns
      · rw [get_tail_read (SparseOctetMatrix.fmaRowsDense M d m s) d c
          (by simpa using htail)]
        simp only [fmaRowsDense_dense_elements, fmaRowsDense_l2pr, fmaRowsDense_width,
          fmaRowsDense_ndc]
        rw [getD_upd_self _ _ _ _ hdel]
        rw [fmaNewTail_getD M hwf d m hd s _ (by omega)]
        rw [get_tail_read M d c htail, get_tail_read M m c htail]
      · rw [get_dense_row_read (SparseOctetMatrix.fmaRowsDense M d m s) d c
          (by simpa using htail) (by simpa using hdense)]
        simp only [fmaRowsDense_dense_rows, fmaRowsDense_l2pr, fmaRowsDense_sparse]
        have hdrl : M.logical_row_to_physical.getD d 0 - M.sparse_elements.length <
            M.dense_rows.length := by
          have := hwf.hRowLen
          omega
        rw [getD_upd_self _ _ _ _ hdrl]
        have hr0len := hwf.hDenseRowLen _ (getD_mem M.dense_rows
          (M.logical_row_to_physical.getD d 0 - M.sparse_elements.length) [] hdrl)
        rw [foldl_denseFma_getD _ _ _ _ c (M.logical_col_to_physical.getD c 0)
          (by omega) hmnodup ?_]
        · rw [get_dense_row_read M d c htail hdense,
            get_sparse_read M m c htail (by omega)]
          rfl
        · intro p hp
          have hkey := hwf.hKeys _ (getD_mem M.sparse_elements
            (M.logical_row_to_physical.getD m 0) SparseOctetVec.empty hms) p hp
          constructor
          · intro hcl
            have := (hwf.hColP2L p.1 hkey.1).2
            rw [hcl] at this
            exact this.symm
          · intro hpj
            rw [hpj]
            exact (hwf.hColL2P c (by omega)).2
    · have hcore : SparseOctetMatrix.fmaRowsCore M d m s =
          SparseOctetMatrix.fmaRowsSparse M d m s := by
        unfold SparseOctetMatrix.fmaRowsCore
        rw [if_neg hdense]
      rw [hcore]
      by_cases htail : M.width - c ≤ M.num_dense_columns
      · rw [get_tail_read (SparseOctetMatrix.fmaRowsSparse M d m s) d c
          (by simpa using htail)]
        simp only [fmaRowsSparse_dense_elements, fmaRowsSparse_l2pr,
          fmaRowsSparse_width, fmaRowsSparse_ndc]
        rw [getD_upd_self _ _ _ _ hdel]
        rw [fmaNewTail_getD M hwf d m hd s _ (by omega)]
        rw [get_tail_read M d c htail, get_tail_read M m c htail]
      · rw [get_sparse_read (SparseOctetMatrix.fmaRowsSparse M d m s) d c
          (by simpa using htail)
          (by simp only [fmaRowsSparse_sparse, fmaRowsSparse_l2pr, length_upd]; omega)]
        simp only [fmaRowsSparse_sparse, fmaRowsSparse_l2pr, fmaRowsSparse_l2pc]
        rw [getD_upd_self _ _ _ _ (by omega)]
        rw [SparseOctetVec.fma_getZero _ _ _ hmnodup]
        rw [get_sparse_read M d c htail hdense, get_sparse_read M m c htail (by omega)]
  · intro c
    by_cases hdense : M.sparse_elements.length ≤ M.logical_row_to_physical.getD d 0
    · have hcore : SparseOctetMatrix.fmaRowsCore M d m s =
          SparseOctetMatrix.fmaRowsDense M d m s := by
        unfold SparseOctetMatrix.fmaRowsCore
        rw [if_pos hdense]
      rw [hcore]
      by_cases htail : M.width - c ≤ M.num_dense_columns
      · rw [get_tail_read (SparseOctetMatrix.fmaRowsDense M d m s) m c
          (by simpa using htail), get_tail_read M m c htail]
        simp only [fmaRowsDense_dense_elements, fmaRowsDense_l2pr, fmaRowsDense_width,
          fmaRowsDense_ndc]
        rw [getD_upd_ne _ _ _ _ _ (Ne.symm hne)]
      · rw [get_sparse_read (SparseOctetMatrix.fmaRowsDense M d m s) m c
          (by simpa using htail)
          (by simp only [fmaRowsDense_sparse, fmaRowsDense_l2pr]; omega),
          get_sparse_read M m c htail (by omega)]
        simp only [fmaRowsDense_sparse, fmaRowsDense_l2pr, fmaRowsDense_l2pc]
    · have hcore : SparseOctetMatrix.fmaRowsCore M d m s =
          SparseOctetMatrix.fmaRowsSparse M d m s := by
        unfold SparseOctetMatrix.fmaRowsCore
        rw [if_neg hdense]
      rw [hcore]
      by_cases htail : M.width - c ≤ M.num_dense_columns
      · rw [get_tail_read (SparseOctetMatrix.fmaRowsSparse M d m s) m c
          (by simpa using htail), get_tail_read M m c htail]
        simp only [fmaRowsSparse_dense_elements, fmaRowsSparse_l2pr,
          fmaRowsSparse_width, fmaRowsSparse_ndc]
        rw [getD_upd_ne _ _ _ _ _ (Ne.symm hne)]
      · rw [get_sparse_read (SparseOctetMatrix.fmaRowsSparse M d m s) m c
          (by simpa using htail)
          (by simp only [fmaRowsSparse_sparse, fmaRowsSparse_l2pr, length_upd]; omega),
          get_sparse_read M m c htail (by omega)]
        simp only [fmaRowsSparse_sparse, fmaRowsSparse_l2pr, fmaRowsSparse_l2pc]
        rw [getD_upd_ne _ _ _ _ _ (Ne.symm hne)]

/-- Witness for C3: a 2x2 all-sparse matrix, row 1 fused into row 0 with
scalar 1, checked at column 0. -/
theorem fma_rows_linearity_witness :
    ∃ M', ((SparseOctetMatrix.new 2 2 0 0 0).set 1 0 1).fma_rows 0 1 1 = some M' ∧
      (∀ c, c < ((SparseOctetMatrix.new 2 2 0 0 0).set 1 0 1).width →
        M'.get 0 c = octAdd (((SparseOctetMatrix.new 2 2 0 0 0).set 1 0 1).get 0 c)
          (octMul (((SparseOctetMatrix.new 2 2 0 0 0).set 1 0 1).get 1 c) 1)) ∧
      (∀ c, M'.get 1 c = ((SparseOctetMatrix.new 2 2 0 0 0).set 1 0 1).get 1 c) :=
  fma_rows_linearity ((SparseOctetMatrix.new 2 2 0 0 0).set 1 0 1)
    (by constructor <;> decide) 0 1 (by decide) (by decide) (by decide) 1 (by decide)

/-- C2: resize does NOT preserve the retained submatrix when dense-tail
columns are removed.  The dense tail stores the right-most column first, so
removing the columns with logical index at least `new_width` means dropping a
storage prefix; the code instead truncates (drops a storage suffix), keeping
the removed columns' values.  Failing input: `new(1, 2, 2, 0, 0)`, then
`set(0, 0, 1)`, then `resize(1, 1)`; afterwards `get(0, 0)` returns `0` (the
old value of column 1) while the old `get(0, 0)` was `1`. -/
theorem resize_tail_bug :
    ((((SparseOctetMatrix.new 1 2 2 0 0).set 0 0 1).resize 1 1).map
        (fun M' => M'.get 0 0) = some 0) ∧
    ((SparseOctetMatrix.new 1 2 2 0 0).set 0 0 1).get 0 0 = 1 := by decide

theorem length_foldl_of_preserve {α β : Type} (xs : List β)
    (step : List α → β → List α) (h : ∀ acc x, (step acc x).length = acc.length)
    (l0 : List α) : (xs.foldl step l0).length = l0.length := by
  induction xs generalizing l0 with
  | nil => rfl
  | cons x tl ih => rw [List.foldl_cons, ih, h]

/-- Membership in a column-index entry survives any fold of entry-local
inserts. -/
theorem mem_foldl_idx_mono {β : Type} (xs : List β) (g : β → Nat)
    (f : β → List Nat → List Nat) (hf : ∀ x l pr, pr ∈ l → pr ∈ f x l)
    (idx : List (List Nat)) (k pr : Nat) (h : pr ∈ idx.getD k []) :
    pr ∈ (xs.foldl (fun acc x => upd acc (g x) (f x)) idx).getD k [] := by
  induction xs generalizing idx with
  | nil => exact h
  | cons x tl ih =>
    rw [List.foldl_cons]
    refine ih (upd idx (g x) (f x)) ?_
    by_cases hk : k = g x
    · by_cases hlen : g x < idx.length
      · rw [hk, getD_upd_self _ _ _ _ hlen]
        exact hf x _ pr (hk ▸ h)
      · rw [hk, getD_upd_oob _ _ _ _ _ (by omega)]
        exact hk ▸ h
    · rw [getD_upd_ne _ _ _ _ _ hk]
      exact h

/-- An insert performed somewhere in a fold of entry-local inserts is visible
in the final index. -/
theorem mem_foldl_idx_self {β : Type} (xs : List β) (g : β → Nat)
    (f : β → List Nat → List Nat) (pr0 : Nat)
    (hf_mono : ∀ x l pr, pr ∈ l → pr ∈ f x l)
    (hf_self : ∀ x l, pr0 ∈ f x l)
    (idx : List (List Nat)) (x0 : β) (hx0 : x0 ∈ xs) (hk : g x0 < idx.length) :
    pr0 ∈ (xs.foldl (fun acc x => upd acc (g x) (f x)) idx).getD (g x0) [] := by
  induction xs generalizing idx with
  | nil => simp at hx0
  | cons x tl ih =>
    rw [List.foldl_cons]
    rcases List.mem_cons.mp hx0 with hx0 | hx0
    · subst hx0
      refine mem_foldl_idx_mono tl g f hf_mono _ _ _ ?_
      rw [getD_upd_self _ _ _ _ hk]
      exact hf_self x0 _
    · exact ih (upd idx (g x) (f x)) hx0 (by simpa using hk)

/-- The inner loop of `enable_column_acccess_acceleration` for one sparse
row. -/
theorem enable_inner_length (pr : Nat) (l : List (Nat × Oct))
    (acc : List (List Nat)) :
    (l.foldl (fun acc2 p => upd acc2 p.1 (fun li => svInsertLast li pr)) acc).length =
      acc.length :=
  length_foldl_of_preserve l _ (fun acc2 p => length_upd _ _ _) acc

theorem enable_build_length (rows : List Nat) (row : Nat → SparseOctetVec)
    (init : List (List Nat)) :
    (rows.foldl
      (fun acc physical_row => (row physical_row).elements.foldl
        (fun acc2 p => upd acc2 p.1 (fun li => svInsertLast li physical_row)) acc)
      init).length = init.length :=
  length_foldl_of_preserve rows _
    (fun acc physical_row => enable_inner_length physical_row _ acc) init

theorem enable_build_mono (rows : List Nat) (row : Nat → SparseOctetVec)
    (init : List (List Nat)) (k pr : Nat) (h : pr ∈ init.getD k []) :
    pr ∈ (rows.foldl
      (fun acc physical_row => (row physical_row).elements.foldl
        (fun acc2 p => upd acc2 p.1 (fun li => svInsertLast li physical_row)) acc)
      init).getD k [] := by
  induction rows generalizing init with
  | nil => exact h
  | cons x tl ih =>
    rw [List.foldl_cons]
    refine ih _ ?_
    exact mem_foldl_idx_mono (row x).elements Prod.fst _
      (fun p l pr2 hm => mem_svInsertLast_of_mem l x pr2 hm) init k pr h

theorem enable_build_self (rows : List Nat) (row : Nat → SparseOctetVec)
    (init : List (List Nat)) (pr : Nat) (hpr : pr ∈ rows) (p : Nat × Oct)
    (hp : p ∈ (row pr).elements) (hk : p.1 < init.length) :
    pr ∈ (rows.foldl
      (fun acc physical_row => (row physical_row).elements.foldl
        (fun acc2 p => upd acc2 p.1 (fun li => svInsertLast li physical_row)) acc)
      init).getD p.1 [] := by
  induction rows generalizing init with
  | nil => simp at hpr
  | cons x tl ih =>
    rw [List.foldl_cons]
    rcases List.mem_cons.mp hpr with hpr | hpr
    · subst hpr
      refine enable_build_mono tl row _ p.1 pr ?_
      exact mem_foldl_idx_self (row pr).elements Prod.fst _ pr
        (fun q l pr2 hm => mem_svInsertLast_of_mem l pr pr2 hm)
        (fun q l => mem_svInsertLast_self l pr) init p hp hk
    · refine ih _ hpr ?_
      rw [enable_inner_length]
      exact hk

@[simp] theorem enable_sparse (M : SparseOctetMatrix) :
    (M.enable_column_acccess_acceleration).sparse_elements = M.sparse_elements := rfl

@[simp] theorem enable_width (M : SparseOctetMatrix) :
    (M.enable_column_acccess_acceleration).width = M.width := rfl

@[simp] theorem enable_l2pc (M : SparseOctetMatrix) :
    (M.enable_column_acccess_acceleration).logical_col_to_physical =
      M.logical_col_to_physical := rfl

@[simp] theorem enable_flag (M : SparseOctetMatrix) :
    (M.enable_column_acccess_acceleration).column_index_disabled = false := rfl

theorem enable_idx (M : SparseOctetMatrix) :
    (M.enable_column_acccess_acceleration).sparse_column_index =
      (List.range M.sparse_elements.length).foldl
        (fun acc physical_row =>
          (M.sparse_elements.getD physical_row SparseOctetVec.empty).elements.foldl
            (fun acc2 p => upd acc2 p.1 (fun li => svInsertLast li physical_row)) acc)
        (List.replicate M.width []) := rfl

theorem enable_establishes_IdxInv (M : SparseOctetMatrix)
    (hl2pc : M.logical_col_to_physical.length = M.width)
    (hbound : ∀ x ∈ M.logical_col_to_physical, x < M.width)
    (hkeys : ∀ row ∈ M.sparse_elements, ∀ p ∈ row.elements, p.1 < M.width) :
    SparseOctetMatrix.IdxInv M.enable_column_acccess_acceleration := by
  refine ⟨rfl, ?_, hl2pc, hbound, hkeys, ?_⟩
  · rw [enable_idx, enable_width, enable_build_length]
    simp
  · intro pr hpr p hp
    have hpr2 : pr < M.sparse_elements.length := hpr
    have hp2 : p ∈ (M.sparse_elements.getD pr SparseOctetVec.empty).elements := hp
    rw [enable_idx]
    refine enable_build_self _ _ _ pr (List.mem_range.mpr hpr2) p hp2 ?_
    rw [List.length_replicate]
    exact hkeys _ (getD_mem _ _ _ hpr2) p hp2

theorem ite_flag_false {α : Sort 1} (b : Bool) (h : b = false) (x y : α) :
    (if b then x else y) = y := by
  rw [h]
  simp

@[simp] theorem elements_empty :
    SparseOctetVec.empty.elements = ([] : List (Nat × Oct)) := rfl

theorem mem_upd_entry_mono (idx : List (List Nat)) (c k pr : Nat)
    (f : List Nat → List Nat) (hf : ∀ l pr2, pr2 ∈ l → pr2 ∈ f l)
    (h : pr ∈ idx.getD k []) : pr ∈ (upd idx c f).getD k [] := by
  by_cases hk : k = c
  · by_cases hlen : c < idx.length
    · rw [hk, getD_upd_self _ _ _ _ hlen]
      exact hf _ pr (hk ▸ h)
    · rw [hk, getD_upd_oob _ _ _ _ _ (by omega)]
      exact hk ▸ h
  · rw [getD_upd_ne _ _ _ _ _ hk]
    exact h

theorem sparse_keys_bound_getD (l : List SparseOctetVec) (w : Nat)
    (hb : ∀ row ∈ l, ∀ p ∈ row.elements, p.1 < w) (pi : Nat) :
    ∀ p ∈ (l.getD pi SparseOctetVec.empty).elements, p.1 < w := by
  by_cases hlen : pi < l.length
  · exact hb _ (getD_mem _ _ _ hlen)
  · rw [getD_default _ _ _ (by omega)]
    intro p hp
    simp at hp

theorem IdxInv_set (M : SparseOctetMatrix) (i j : Nat) (v : Oct)
    (hInv : SparseOctetMatrix.IdxInv M) (hj : j < M.width) :
    SparseOctetMatrix.IdxInv (M.set i j v) := by
  obtain ⟨hflag, hlen, hl2pc, hbound, hkeys, hstrong⟩ := hInv
  have hpj : M.logical_col_to_physical.getD j 0 < M.width :=
    hbound _ (getD_mem _ _ _ (by omega))
  simp only [SparseOctetMatrix.set]
  rw [ite_flag_false _ hflag]
  split
  · exact ⟨hflag, hlen, hl2pc, hbound, hkeys, hstrong⟩
  · split
    · exact ⟨hflag, hlen, hl2pc, hbound, hkeys, hstrong⟩
    · next hB =>
      have hpi : M.logical_row_to_physical.getD i 0 < M.sparse_elements.length := by
        omega
      refine ⟨hflag, ?_, hl2pc, hbound, ?_, ?_⟩
      · show (upd M.sparse_column_index (M.logical_col_to_physical.getD j 0)
          (fun l => svInsert l (M.logical_row_to_physical.getD i 0))).length = M.width
        rw [length_upd]
        exact hlen
      · intro row hrow p hp
        have hrow2 : row ∈ upd M.sparse_elements (M.logical_row_to_physical.getD i 0)
            (fun r => r.insert (M.logical_col_to_physical.getD j 0) v) := hrow
        rcases mem_upd _ _ _ _ hrow2 with hrow3 | ⟨y, hy, hxy⟩
        · exact hkeys _ hrow3 p hp
        · subst hxy
          rcases List.mem_cons.mp hp with hp | hp
          · rw [hp]
            exact hpj
          · exact hkeys _ hy p (List.mem_of_mem_filter hp)
      · intro pr hpr p hp
        have hpr2 : pr < (upd M.sparse_elements (M.logical_row_to_physical.getD i 0)
            (fun r => r.insert (M.logical_col_to_physical.getD j 0) v)).length := hpr
        rw [length_upd] at hpr2
        have hp2 : p ∈ ((upd M.sparse_elements (M.logical_row_to_physical.getD i 0)
            (fun r => r.insert (M.logical_col_to_physical.getD j 0) v)).getD pr
              SparseOctetVec.empty).elements := hp
        show pr ∈ (upd M.sparse_column_index (M.logical_col_to_physical.getD j 0)
          (fun l => svInsert l (M.logical_row_to_physical.getD i 0))).getD p.1 []
        by_cases hpreq : pr = M.logical_row_to_physical.getD i 0
        · rw [hpreq, getD_upd_self _ _ _ _ (hpreq ▸ hpr2)] at hp2
          rcases List.mem_cons.mp hp2 with hp3 | hp3
          · have hp1 : p.1 = M.logical_col_to_physical.getD j 0 := by rw [hp3]
            rw [hp1, getD_upd_self _ _ _ _ (by omega)]
            rw [hpreq]
            exact mem_svInsert_self _ _
          · have hmem : p ∈ (M.sparse_elements.getD
                (M.logical_row_to_physical.getD i 0)
                SparseOctetVec.empty).elements := List.mem_of_mem_filter hp3
            have hstr := hstrong _ hpi p hmem
            rw [hpreq]
            exact mem_upd_entry_mono _ _ _ _ _
              (fun l pr2 hm => mem_svInsert_of_mem l _ pr2 hm) hstr
        · rw [getD_upd_ne _ _ _ _ _ hpreq] at hp2
          exact mem_upd_entry_mono _ _ _ _ _
            (fun l pr2 hm => mem_svInsert_of_mem l _ pr2 hm)
            (hstrong pr hpr2 p hp2)

theorem IdxInv_swap_rows (M : SparseOctetMatrix) (i j : Nat)
    (hInv : SparseOctetMatrix.IdxInv M) :
    SparseOctetMatrix.IdxInv (M.swap_rows i j) := hInv

theorem IdxInv_swap_columns (M : SparseOctetMatrix) (i j : Nat)
    (M' : SparseOctetMatrix) (hInv : SparseOctetMatrix.IdxInv M)
    (hi : i < M.width) (h : M.swap_columns i j = some M') :
    SparseOctetMatrix.IdxInv M' := by
  obtain ⟨hflag, hlen, hl2pc, hbound, hkeys, hstrong⟩ := hInv
  unfold SparseOctetMatrix.swap_columns at h
  by_cases hg : M.width - M.num_dense_columns ≤ j
  · rw [if_pos hg] at h
    exact absurd h (by simp)
  · rw [if_neg hg] at h
    have hM' := (Option.some.inj h).symm
    subst hM'
    refine ⟨hflag, hlen, ?_, ?_, hkeys, hstrong⟩
    · show (lswap M.logical_col_to_physical i j 0).length = M.width
      rw [length_lswap]
      exact hl2pc
    · intro x hx
      have hx2 : x ∈ lswap M.logical_col_to_physical i j 0 := hx
      exact hbound x (mem_lswap _ _ _ _ _ hx2 (by omega) (by omega))

theorem IdxInv_fma_rows (M : SparseOctetMatrix) (d m : Nat) (s : Oct)
    (M' : SparseOctetMatrix) (hInv : SparseOctetMatrix.IdxInv M)
    (h : M.fma_rows d m s = some M') : SparseOctetMatrix.IdxInv M' := by
  obtain ⟨hflag, hlen, hl2pc, hbound, hkeys, hstrong⟩ := hInv
  unfold SparseOctetMatrix.fma_rows at h
  by_cases h1 : d = m
  · rw [if_pos h1] at h
    exact absurd h (by simp)
  · rw [if_neg h1] at h
    by_cases h2 : M.sparse_elements.length ≤
        M.logical_row_to_physical.getD m 0
    · rw [if_pos h2] at h
      exact absurd h (by simp)
    · rw [if_neg h2] at h
      have hM' := (Option.some.inj h).symm
      subst hM'
      unfold SparseOctetMatrix.fmaRowsCore
      by_cases hdense : M.sparse_elements.length ≤
          M.logical_row_to_physical.getD d 0
      · rw [if_pos hdense]
        exact ⟨hflag, hlen, hl2pc, hbound, hkeys, hstrong⟩
      · rw [if_neg hdense]
        simp only [SparseOctetMatrix.fmaRowsSparse]
        rw [ite_flag_false _ hflag]
        have hmultb := sparse_keys_bound_getD M.sparse_elements M.width hkeys
          (M.logical_row_to_physical.getD m 0)
        have hdestb := sparse_keys_bound_getD M.sparse_elements M.width hkeys
          (M.logical_row_to_physical.getD d 0)
        have hsndb : ∀ k ∈ ((M.sparse_elements.getD
            (M.logical_row_to_physical.getD d 0) SparseOctetVec.empty).fma
              (M.sparse_elements.getD (M.logical_row_to_physical.getD m 0)
                SparseOctetVec.empty) s).2, k < M.width := by
          intro k hk
          have := SparseOctetVec.fma_mem_snd _ _ _ _ hk
          rcases List.mem_map.mp this with ⟨q, hq, hqk⟩
          exact hqk ▸ hmultb q hq
        refine ⟨hflag, ?_, hl2pc, hbound, ?_, ?_⟩
        · show (((M.sparse_elements.getD (M.logical_row_to_physical.getD d 0)
              SparseOctetVec.empty).fma
            (M.sparse_elements.getD (M.logical_row_to_physical.getD m 0)
              SparseOctetVec.empty) s).2.foldl
            (fun idx c => upd idx c (fun l => svInsert l
              (M.logical_row_to_physical.getD d 0)))
            M.sparse_column_index).length = M.width
          rw [length_foldl_of_preserve _ _ (fun acc x => length_upd _ _ _)]
          exact hlen
        · intro row hrow p hp
          have hrow2 : row ∈ upd M.sparse_elements
              (M.logical_row_to_physical.getD d 0)
              (fun _ => ((M.sparse_elements.getD
                  (M.logical_row_to_physical.getD d 0) SparseOctetVec.empty).fma
                (M.sparse_elements.getD (M.logical_row_to_physical.getD m 0)
                  SparseOctetVec.empty) s).1) := hrow
          rcases mem_upd _ _ _ _ hrow2 with hrow3 | ⟨y, hy, hxy⟩
          · exact hkeys _ hrow3 p hp
          · subst hxy
            have hkey : p.1 ∈ (((M.sparse_elements.getD
                (M.logical_row_to_physical.getD d 0) SparseOctetVec.empty).fma
                  (M.sparse_elements.getD (M.logical_row_to_physical.getD m 0)
                    SparseOctetVec.empty) s).1).keys :=
              List.mem_map_of_mem Prod.fst hp
            rcases SparseOctetVec.fma_mem_keys _ _ _ _ hkey with hk | hk
            · rcases List.mem_map.mp hk with ⟨q, hq, hqk⟩
              exact hqk ▸ hdestb q hq
            · exact hsndb _ hk
        · intro pr hpr p hp
          have hpr2 : pr < (upd M.sparse_elements
              (M.logical_row_to_physical.getD d 0)
              (fun _ => ((M.sparse_elements.getD
                  (M.logical_row_to_physical.getD d 0) SparseOctetVec.empty).fma
                (M.sparse_elements.getD (M.logical_row_to_physical.getD m 0)
                  SparseOctetVec.empty) s).1)).length := hpr
          rw [length_upd] at hpr2
          have hp2 : p ∈ ((upd M.sparse_elements
              (M.logical_row_to_physical.getD d 0)
              (fun _ => ((M.sparse_elements.getD
                  (M.logical_row_to_physical.getD d 0) SparseOctetVec.empty).fma
                (M.sparse_elements.getD (M.logical_row_to_physical.getD m 0)
                  SparseOctetVec.empty) s).1)).getD pr
                SparseOctetVec.empty).elements := hp
          show pr ∈ (((M.sparse_elements.getD (M.logical_row_to_physical.getD d 0)
              SparseOctetVec.empty).fma
            (M.sparse_elements.getD (M.logical_row_to_physical.getD m 0)
              SparseOctetVec.empty) s).2.foldl
            (fun idx c => upd idx c (fun l => svInsert l
              (M.logical_row_to_physical.getD d 0)))
            M.sparse_column_index).getD p.1 []
          by_cases hpreq : pr = M.logical_row_to_physical.getD d 0
          · rw [hpreq, getD_upd_self _ _ _ _ (hpreq ▸ hpr2)] at hp2
            have hkey : p.1 ∈ (((M.sparse_elements.getD
                (M.logical_row_to_physical.getD d 0) SparseOctetVec.empty).fma
                  (M.sparse_elements.getD (M.logical_row_to_physical.getD m 0)
                    SparseOctetVec.empty) s).1).keys :=
              List.mem_map_of_mem Prod.fst hp2
            rcases SparseOctetVec.fma_mem_keys _ _ _ _ hkey with hk | hk
            · rcases List.mem_map.mp hk with ⟨q, hq, hqk⟩
              have hstr := hstrong _ (by omega) q hq
              rw [hpreq, ← hqk]
              exact mem_foldl_idx_mono _ _ _
                (fun x l pr2 hm => mem_svInsert_of_mem l _ pr2 hm) _ _ _ hstr
            · rw [hpreq]
              have hself := mem_foldl_idx_self (((M.sparse_elements.getD
                  (M.logical_row_to_physical.getD d 0) SparseOctetVec.empty).fma
                    (M.sparse_elements.getD (M.logical_row_to_physical.getD m 0)
                      SparseOctetVec.empty) s).2) (fun c => c)
                (fun c l => svInsert l (M.logical_row_to_physical.getD d 0))
                (M.logical_row_to_physical.getD d 0)
                (fun x l pr2 hm => mem_svInsert_of_mem l _ pr2 hm)
                (fun x l => mem_svInsert_self l _)
                M.sparse_column_index p.1 hk
                (by
                  show p.1 < M.sparse_column_index.length
                  rw [hlen]
                  exact hsndb p.1 hk)
              exact hself
          · rw [getD_upd_ne _ _ _ _ _ hpreq] at hp2
            exact mem_foldl_idx_mono _ _ _
              (fun x l pr2 hm => mem_svInsert_of_mem l _ pr2 hm) _ _ _
              (hstrong pr hpr2 p hp2)

theorem freezeRemoveStep_eq_some (pc ndc : Nat)
    (acc : List SparseOctetVec × List (List Oct)) (pr : Nat) (value : Oct)
    (h : (acc.1.getD pr SparseOctetVec.empty).get pc = some value) :
    SparseOctetMatrix.freezeRemoveStep pc ndc acc pr =
      (upd acc.1 pr (fun r => r.remove pc),
       upd acc.2 pr (fun r => upd r (ndc - 1) (fun _ => value))) := by
  simp only [SparseOctetMatrix.freezeRemoveStep]
  rw [h]

theorem freezeRemoveStep_eq_none (pc ndc : Nat)
    (acc : List SparseOctetVec × List (List Oct)) (pr : Nat)
    (h : (acc.1.getD pr SparseOctetVec.empty).get pc = none) :
    SparseOctetMatrix.freezeRemoveStep pc ndc acc pr = acc := by
  simp only [SparseOctetMatrix.freezeRemoveStep]
  rw [h]

theorem freezeRemoveStep_length (pc ndc : Nat)
    (acc : List SparseOctetVec × List (List Oct)) (pr : Nat) :
    (SparseOctetMatrix.freezeRemoveStep pc ndc acc pr).1.length = acc.1.length := by
  cases hg : (acc.1.getD pr SparseOctetVec.empty).get pc with
  | some value => rw [freezeRemoveStep_eq_some _ _ _ _ _ hg, length_upd]
  | none => rw [freezeRemoveStep_eq_none _ _ _ _ hg]

theorem freezeRemove_fold_length (pc ndc : Nat) (xs : List Nat)
    (sd : List SparseOctetVec × List (List Oct)) :
    (xs.foldl (SparseOctetMatrix.freezeRemoveStep pc ndc) sd).1.length =
      sd.1.length := by
  induction xs generalizing sd with
  | nil => rfl
  | cons x tl ih =>
    rw [List.foldl_cons, ih, freezeRemoveStep_length]

/-- Positional key subset through the freeze removal loop: an entry stored at
a physical row of the result was already stored at that row. -/
theorem freezeRemove_fold_subset (pc ndc : Nat) (xs : List Nat)
    (sd : List SparseOctetVec × List (List Oct)) (k : Nat) (p : Nat × Oct)
    (h : p ∈ ((xs.foldl (SparseOctetMatrix.freezeRemoveStep pc ndc) sd).1.getD k
      SparseOctetVec.empty).elements) :
    p ∈ (sd.1.getD k SparseOctetVec.empty).elements := by
  induction xs generalizing sd with
  | nil => exact h
  | cons x tl ih =>
    rw [List.foldl_cons] at h
    have h2 := ih _ h
    cases hg : (sd.1.getD x SparseOctetVec.empty).get pc with
    | some value =>
      rw [freezeRemoveStep_eq_some _ _ _ _ _ hg] at h2
      by_cases hk : k = x
      · by_cases hlen : x < sd.1.length
        · rw [hk, getD_upd_self _ _ _ _ hlen] at h2
          rw [hk]
          exact List.mem_of_mem_filter h2
        · rw [hk, getD_upd_oob _ _ _ _ _ (by omega)] at h2
          exact hk ▸ h2
      · rw [getD_upd_ne _ _ _ _ _ hk] at h2
        exact h2
    | none =>
      rw [freezeRemoveStep_eq_none _ _ _ _ hg] at h2
      exact h2

/-- Membership-level subset through the freeze removal loop: every row of the
result has its entries contained in some original row. -/
theorem freezeRemove_fold_mem (pc ndc : Nat) (xs : List Nat)
    (sd : List SparseOctetVec × List (List Oct)) (x : SparseOctetVec)
    (h : x ∈ (xs.foldl (SparseOctetMatrix.freezeRemoveStep pc ndc) sd).1) :
    ∃ y ∈ sd.1, ∀ p ∈ x.elements, p ∈ y.elements := by
  induction xs generalizing sd with
  | nil => exact ⟨x, h, fun p hp => hp⟩
  | cons q tl ih =>
    rw [List.foldl_cons] at h
    rcases ih _ h with ⟨y, hy, hsub⟩
    cases hg : (sd.1.getD q SparseOctetVec.empty).get pc with
    | some value =>
      rw [freezeRemoveStep_eq_some _ _ _ _ _ hg] at hy
      rcases mem_upd _ _ _ _ hy with hy2 | ⟨z, hz, hyz⟩
      · exact ⟨y, hy2, hsub⟩
      · refine ⟨z, hz, fun p hp => ?_⟩
        have := hsub p hp
        rw [hyz] at this
        exact List.mem_of_mem_filter this
    | none =>
      rw [freezeRemoveStep_eq_none _ _ _ _ hg] at hy
      exact ⟨y, hy, hsub⟩

theorem IdxInv_freeze (M : SparseOctetMatrix) (i : Nat) (M' : SparseOctetMatrix)
    (hInv : SparseOctetMatrix.IdxInv M)
    (h : M.hint_column_dense_and_frozen i = some M') :
    SparseOctetMatrix.IdxInv M' := by
  obtain ⟨hflag, hlen, hl2pc, hbound, hkeys, hstrong⟩ := hInv
  unfold SparseOctetMatrix.hint_column_dense_and_frozen at h
  by_cases h1 : M.width - M.num_dense_columns - 1 ≠ i
  · rw [if_pos h1] at h
    exact absurd h (by simp)
  · rw [if_neg h1] at h
    rw [if_neg (by simp [hflag])] at h
    have hM' := (Option.some.inj h).symm
    subst hM'
    simp only [SparseOctetMatrix.freezeCore]
    refine ⟨hflag, hlen, hl2pc, hbound, ?_, ?_⟩
    · intro row hrow p hp
      rcases freezeRemove_fold_mem _ _ _ _ row hrow with ⟨y, hy, hsub⟩
      exact hkeys y hy p (hsub p hp)
    · intro pr hpr p hp
      have hpr0 : pr < ((M.sparse_column_index.getD
          (M.logical_col_to_physical.getD i 0) []).foldl
          (SparseOctetMatrix.freezeRemoveStep
            (M.logical_col_to_physical.getD i 0) (M.num_dense_columns + 1))
          (M.sparse_elements, M.dense_elements.map
            (fun r => if r.length < M.num_dense_columns + 1 then
              r ++ List.replicate 10 (0 : Oct) else r))).1.length := hpr
      rw [freezeRemove_fold_length] at hpr0
      have hpr2 : pr < M.sparse_elements.length := hpr0
      exact hstrong pr hpr2 p (freezeRemove_fold_subset _ _ _ _ pr p hp)

theorem mulAssignTempStep_keys (M : SparseOctetMatrix) (w : Nat)
    (hbM : ∀ row ∈ M.sparse_elements, ∀ p ∈ row.elements, p.1 < w)
    (l : List (Nat × Oct)) (acc : SparseOctetVec × List Oct)
    (hacc : ∀ k ∈ acc.1.keys, k < w) :
    ∀ k ∈ (l.foldl (SparseOctetMatrix.mulAssignTempStep M) acc).1.keys, k < w := by
  induction l generalizing acc with
  | nil => exact hacc
  | cons p tl ih =>
    rw [List.foldl_cons]
    refine ih _ ?_
    intro k hk
    by_cases hz : p.2 ≠ 0
    · simp only [SparseOctetMatrix.mulAssignTempStep, if_pos hz] at hk
      rcases SparseOctetVec.fma_mem_keys _ _ _ _ hk with hk2 | hk2
      · exact hacc k hk2
      · have := SparseOctetVec.fma_mem_snd _ _ _ _ hk2
        rcases List.mem_map.mp this with ⟨q, hq, hqk⟩
        exact hqk ▸ sparse_keys_bound_getD M.sparse_elements w hbM _ q hq
    · simp only [SparseOctetMatrix.mulAssignTempStep, if_neg hz] at hk
      exact hacc k hk

theorem mulAssignTemp_keys_bound (M other : SparseOctetMatrix) (r rows : Nat)
    (hbM : ∀ row ∈ M.sparse_elements, ∀ p ∈ row.elements, p.1 < M.width) :
    ∀ k ∈ (SparseOctetMatrix.mulAssignTemp M other r rows).1.keys,
      k < M.width := by
  unfold SparseOctetMatrix.mulAssignTemp
  refine mulAssignTempStep_keys M M.width hbM _ _ ?_
  intro k hk
  simp [SparseOctetVec.keys] at hk

theorem IdxInv_mulAssign_fold (M other : SparseOctetMatrix) (rows : Nat)
    (hflagM : M.column_index_disabled = false)
    (hbM : ∀ row ∈ M.sparse_elements, ∀ p ∈ row.elements, p.1 < M.width)
    (xs : List Nat) (acc : SparseOctetMatrix)
    (h1 : acc.column_index_disabled = false)
    (h2 : acc.sparse_column_index.length = M.width)
    (h3 : acc.logical_col_to_physical.length = M.width)
    (h4 : ∀ x ∈ acc.logical_col_to_physical, x < M.width)
    (h5 : ∀ row ∈ acc.sparse_elements, ∀ p ∈ row.elements, p.1 < M.width)
    (h6 : SparseOctetMatrix.ColumnIndexStrong acc)
    (h7 : acc.width = M.width) :
    (let res := xs.foldl (SparseOctetMatrix.mulAssignCommitStep M other rows) acc
     res.column_index_disabled = false ∧
     res.sparse_column_index.length = M.width ∧
     res.logical_col_to_physical.length = M.width ∧
     (∀ x ∈ res.logical_col_to_physical, x < M.width) ∧
     (∀ row ∈ res.sparse_elements, ∀ p ∈ row.elements, p.1 < M.width) ∧
     SparseOctetMatrix.ColumnIndexStrong res ∧
     res.width = M.width) := by
  induction xs generalizing acc with
  | nil => exact ⟨h1, h2, h3, h4, h5, h6, h7⟩
  | cons r tl ih =>
    rw [List.foldl_cons]
    refine ih (SparseOctetMatrix.mulAssignCommitStep M other rows acc r)
      ?_ ?_ ?_ ?_ ?_ ?_ ?_ <;>
      simp only [SparseOctetMatrix.mulAssignCommitStep, ite_flag_false _ hflagM]
    · exact h1
    · show ((SparseOctetMatrix.mulAssignTemp M other r rows).1.elements.foldl
        (fun idx p => upd idx p.1 (fun l => svInsert l
          (M.logical_row_to_physical.getD r 0)))
        acc.sparse_column_index).length = M.width
      rw [length_foldl_of_preserve _ _ (fun a x => length_upd _ _ _)]
      exact h2
    · exact h3
    · exact h4
    · intro row hrow p hp
      have hrow2 : row ∈ upd acc.sparse_elements
          (M.logical_row_to_physical.getD r 0)
          (fun _ => (SparseOctetMatrix.mulAssignTemp M other r rows).1) := hrow
      rcases mem_upd _ _ _ _ hrow2 with hrow3 | ⟨y, hy, hxy⟩
      · exact h5 _ hrow3 p hp
      · subst hxy
        exact mulAssignTemp_keys_bound M other r rows hbM p.1
          (List.mem_map_of_mem Prod.fst hp)
    · intro pr hpr p hp
      have hpr2 : pr < (upd acc.sparse_elements
          (M.logical_row_to_physical.getD r 0)
          (fun _ => (SparseOctetMatrix.mulAssignTemp M other r rows).1)).length := hpr
      rw [length_upd] at hpr2
      have hp2 : p ∈ ((upd acc.sparse_elements
          (M.logical_row_to_physical.getD r 0)
          (fun _ => (SparseOctetMatrix.mulAssignTemp M other r rows).1)).getD pr
            SparseOctetVec.empty).elements := hp
      show pr ∈ ((SparseOctetMatrix.mulAssignTemp M other r rows).1.elements.foldl
        (fun idx p => upd idx p.1 (fun l => svInsert l
          (M.logical_row_to_physical.getD r 0)))
        acc.sparse_column_index).getD p.1 []
      by_cases hpreq : pr = M.logical_row_to_physical.getD r 0
      · rw [hpreq, getD_upd_self _ _ _ _ (hpreq ▸ hpr2)] at hp2
        rw [hpreq]
        refine mem_foldl_idx_self _ Prod.fst _ _
          (fun x l pr2 hm => mem_svInsert_of_mem l _ pr2 hm)
          (fun x l => mem_svInsert_self l _) _ p hp2 ?_
        show p.1 < acc.sparse_column_index.length
        rw [h2]
        exact mulAssignTemp_keys_bound M other r rows hbM p.1
          (List.mem_map_of_mem Prod.fst hp2)
      · rw [getD_upd_ne _ _ _ _ _ hpreq] at hp2
        exact mem_foldl_idx_mono _ _ _
          (fun x l pr2 hm => mem_svInsert_of_mem l _ pr2 hm) _ _ _
          (h6 pr hpr2 p hp2)
    · exact h7

theorem IdxInv_mul_assign (M other : SparseOctetMatrix) (rows : Nat)
    (M' : SparseOctetMatrix) (hInv : SparseOctetMatrix.IdxInv M)
    (h : M.mul_assign_submatrix other rows = some M') :
    SparseOctetMatrix.IdxInv M' := by
  obtain ⟨hflag, hlen, hl2pc, hbound, hkeys, hstrong⟩ := hInv
  unfold SparseOctetMatrix.mul_assign_submatrix at h
  split at h
  · exact absurd h (by simp)
  · split at h
    · exact absurd h (by simp)
    · split at h
      · exact absurd h (by simp)
      · split at h
        · exact absurd h (by simp)
        · split at h
          · exact absurd h (by simp)
          · split at h
            · exact absurd h (by simp)
            · have hM' := (Option.some.inj h).symm
              subst hM'
              obtain ⟨g1, g2, g3, g4, g5, g6, g7⟩ := IdxInv_mulAssign_fold M other
                rows hflag hkeys (List.range rows).reverse M hflag hlen hl2pc
                hbound hkeys hstrong rfl
              refine ⟨g1, g2.trans g7.symm, g3.trans g7.symm, ?_, ?_, g6⟩
              · intro x hx
                exact lt_of_lt_of_eq (g4 x hx) g7.symm
              · intro row hrow p hp
                exact lt_of_lt_of_eq (g5 row hrow p hp) g7.symm

/-- C5 counterexample: `hint_compact_dense_rows` does not preserve column
index soundness while the index is enabled.  Concretely, a 1x1 matrix with a
single dense row holding 1: after enabling the index (which indexes no dense
rows) and compacting, the now-sparse row 0 holds a non-zero value in column 0
but the index entry for column 0 is empty, so soundness fails in the
compacted state while it held before. -/
theorem hint_compact_breaks_index_soundness :
    (((SparseOctetMatrix.new 1 1 0 0 1).set 0 0
        1).enable_column_acccess_acceleration).column_index_disabled = false ∧
    SparseOctetMatrix.ColumnIndexSound (((SparseOctetMatrix.new 1 1 0 0 1).set 0 0
        1).enable_column_acccess_acceleration) ∧
    ¬ SparseOctetMatrix.ColumnIndexSound ((((SparseOctetMatrix.new 1 1 0 0 1).set 0 0
        1).enable_column_acccess_acceleration).hint_compact_dense_rows) := by
  refine ⟨rfl, ?_, ?_⟩
  · unfold SparseOctetMatrix.ColumnIndexSound
    decide
  · unfold SparseOctetMatrix.ColumnIndexSound
    decide

/-- C4: swaps are pure permutations.  After `swap_rows i j` the two logical
rows exchange their values for every column and all other rows are untouched,
and the total non-zero count is unchanged; after a successful
`swap_columns ci cj` on two non-dense-tail columns the two logical columns
exchange their values for every row, all other columns are untouched, and the
total non-zero count is unchanged. -/
theorem swap_pure_permutation (M : SparseOctetMatrix) (hwf : M.WF) (i j : Nat)
    (hi : i < M.height) (hj : j < M.height) (ci cj : Nat)
    (hci : ci < M.width - M.num_dense_columns)
    (hcj : cj < M.width - M.num_dense_columns) :
    ((∀ c, (M.swap_rows i j).get i c = M.get j c) ∧
     (∀ c, (M.swap_rows i j).get j c = M.get i c) ∧
     (∀ r, r ≠ i → r ≠ j → ∀ c, (M.swap_rows i j).get r c = M.get r c) ∧
     (M.swap_rows i j).nonzeroCount = M.nonzeroCount) ∧
    (∀ M', M.swap_columns ci cj = some M' →
      (∀ r, r < M.height → M'.get r ci = M.get r cj) ∧
      (∀ r, r < M.height → M'.get r cj = M.get r ci) ∧
      (∀ r, r < M.height → ∀ c, c ≠ ci → c ≠ cj → M'.get r c = M.get r c) ∧
      M'.nonzeroCount = M.nonzeroCount) := by
  constructor
  · refine ⟨?_, ?_, ?_, ?_⟩
    · intro c
      rw [get_swap_rows M hwf i j hi hj i c, Equiv.swap_apply_left]
    · intro c
      rw [get_swap_rows M hwf i j hi hj j c, Equiv.swap_apply_right]
    · intro r hri hrj c
      rw [get_swap_rows M hwf i j hi hj r c, Equiv.swap_apply_of_ne_of_ne hri hrj]
    · unfold SparseOctetMatrix.nonzeroCount

      refine Finset.sum_equiv (Equiv.swap i j)
        (swap_mem_range_iff i j M.height hi hj) ?_
      intro r hr
      congr 1
      apply Finset.filter_congr
      intro c hc
      rw [get_swap_rows M hwf i j hi hj r c]
  · intro M' hM'
    have hcore : M' = SparseOctetMatrix.swapColsCore M ci cj := by
      unfold SparseOctetMatrix.swap_columns at hM'
      rw [if_neg (by omega)] at hM'
      exact (Option.some.inj hM').symm
    subst hcore
    refine ⟨?_, ?_, ?_, ?_⟩
    · intro r hr
      rw [get_swapColsCore M hwf ci cj hci hcj r hr ci, Equiv.swap_apply_left]
    · intro r hr
      rw [get_swapColsCore M hwf ci cj hci hcj r hr cj, Equiv.swap_apply_right]
    · intro r hr c hcci hccj
      rw [get_swapColsCore M hwf ci cj hci hcj r hr c,
        Equiv.swap_apply_of_ne_of_ne hcci hccj]
    · unfold SparseOctetMatrix.nonzeroCount
      refine Finset.sum_congr rfl ?_
      intro r hr
      refine card_filter_comp M.width _ _ (Equiv.swap ci cj)
        (swap_mem_range_iff ci cj M.width (by omega) (by omega)) ?_
      intro c hc
      rw [get_swapColsCore M hwf ci cj hci hcj r (Finset.mem_range.mp hr) c]

/-- Witness for C4: swap rows 0 and 1 of a concrete 2x2 matrix with one
dense-tail column, then read the exchanged entry. -/
theorem swap_pure_permutation_witness :
    (((SparseOctetMatrix.new 2 2 1 0 0).set 1 1 1).swap_rows 0 1).get 0 1 =
      ((SparseOctetMatrix.new 2 2 1 0 0).set 1 1 1).get 1 1 :=
  (swap_pure_permutation ((SparseOctetMatrix.new 2 2 1 0 0).set 1 1 1)
    (by constructor <;> decide) 0 1 (by decide) (by decide) 0 0 (by decide)
    (by decide)).1.1 1

theorem denseRowsSwap_eq_some (i j : Nat) (rows : List (List Oct))
    (h : ∀ r ∈ rows, i < r.length ∧ j < r.length) :
    SparseOctetMatrix.denseRowsSwap i j rows =
      some (rows.map (fun row => lswap row i j 0)) := by
  induction rows with
  | nil => rfl
  | cons row rest ih =>
    have hr := h row (List.mem_cons_self row rest)
    have hv : SparseOctetMatrix.vecSwap row i j 0 = some (lswap row i j 0) := by
      unfold SparseOctetMatrix.vecSwap
      rw [if_pos hr.1, if_pos hr.2]
    have hrest := ih (fun r hr2 => h r (List.mem_cons_of_mem row hr2))
    unfold SparseOctetMatrix.denseRowsSwap
    rw [hv, hrest]
    rfl

theorem denseRowsSwap_eq_none (i j : Nat) (rows : List (List Oct))
    (r : List Oct) (hr : r ∈ rows) (h : r.length ≤ i ∨ r.length ≤ j) :
    SparseOctetMatrix.denseRowsSwap i j rows = none := by
  induction rows with
  | nil => cases hr
  | cons row rest ih =>
    unfold SparseOctetMatrix.denseRowsSwap
    rcases List.mem_cons.mp hr with heq | hmem
    · have hv : SparseOctetMatrix.vecSwap row i j 0 = none := by
        subst heq
        unfold SparseOctetMatrix.vecSwap
        rcases h with h | h
        · rw [if_neg (by omega)]
        · by_cases hi2 : i < r.length
          · rw [if_pos hi2, if_neg (by omega)]
          · rw [if_neg hi2]
      rw [hv]
    · rw [ih hmem]
      cases hv2 : SparseOctetMatrix.vecSwap row i j 0 <;> rfl

/-- C10 (implicit, corrected): the explicit contract check of `swap_columns`
validates only the second argument, failing exactly when `j` lies in the
dense tail; but the call is not total on the remaining inputs: after the
guard, `row.swap(i, j)` runs on every dense row (line 262), so the call also
fails — by an index-out-of-bounds panic — exactly when some dense row has
length at most `i`.  In particular a first argument inside the dense tail of
a matrix holding freshly constructed dense rows (length
`width - num_dense_columns`) makes the call fail even though `j` is valid.
On success the result is the unchecked column swap. -/
theorem swap_columns_validation (M : SparseOctetMatrix) (hwf : M.WF)
    (i j : Nat) (hi : i < M.width) (hj : j < M.width) :
    (M.swap_columns_checked i j = none ↔
      (M.width - M.num_dense_columns ≤ j ∨
        ∃ r ∈ M.dense_rows, r.length ≤ i)) ∧
    (∀ M', M.swap_columns_checked i j = some M' →
      M' = M.swapColsCore i j) := by
  by_cases hg : M.width - M.num_dense_columns ≤ j
  · have heq : M.swap_columns_checked i j = none := by
      unfold SparseOctetMatrix.swap_columns_checked
      rw [if_pos hg]
    constructor
    · rw [heq]
      exact ⟨fun _ => Or.inl hg, fun _ => rfl⟩
    · intro M' h
      rw [heq] at h
      exact absurd h (by simp)
  · have h1 : SparseOctetMatrix.vecSwap M.logical_col_to_physical i j 0 =
        some (lswap M.logical_col_to_physical i j 0) := by
      unfold SparseOctetMatrix.vecSwap
      rw [if_pos (by rw [hwf.hL2PcLen]; omega), if_pos (by rw [hwf.hL2PcLen]; omega)]
    have hpi : M.logical_col_to_physical.getD i 0 < M.width := (hwf.hColL2P i hi).1
    have hpj : M.logical_col_to_physical.getD j 0 < M.width := (hwf.hColL2P j hj).1
    have h2 : SparseOctetMatrix.vecSwap M.physical_col_to_logical
        (M.logical_col_to_physical.getD i 0)
        (M.logical_col_to_physical.getD j 0) 0 =
        some (lswap M.physical_col_to_logical
          (M.logical_col_to_physical.getD i 0)
          (M.logical_col_to_physical.getD j 0) 0) := by
      unfold SparseOctetMatrix.vecSwap
      rw [if_pos (by rw [hwf.hP2LcLen]; omega), if_pos (by rw [hwf.hP2LcLen]; omega)]
    by_cases hd : ∀ r ∈ M.dense_rows, i < r.length
    · have h3 := denseRowsSwap_eq_some i j M.dense_rows
        (fun r hr => ⟨hd r hr, by have := hwf.hDenseRowLen r hr; omega⟩)
      have heq : M.swap_columns_checked i j = some (M.swapColsCore i j) := by
        unfold SparseOctetMatrix.swap_columns_checked
        rw [if_neg hg, h1, h2, h3]
        rfl
      constructor
      · rw [heq]
        constructor
        · intro hc
          exact absurd hc (by simp)
        · intro hc
          rcases hc with hc | ⟨r, hr, hrlen⟩
          · exact absurd hc hg
          · exact absurd (hd r hr) (by omega)
      · intro M' h
        rw [heq] at h
        exact (Option.some.inj h).symm
    · push_neg at hd
      obtain ⟨r, hr, hrlen⟩ := hd
      have h3 := denseRowsSwap_eq_none i j M.dense_rows r hr (Or.inl (by omega))
      have heq : M.swap_columns_checked i j = none := by
        unfold SparseOctetMatrix.swap_columns_checked
        rw [if_neg hg, h1, h2, h3]
      constructor
      · rw [heq]
        exact ⟨fun _ => Or.inr ⟨r, hr, by omega⟩, fun _ => rfl⟩
      · intro M' h
        rw [heq] at h
        exact absurd h (by simp)

/-- Witness for C10: the 1x2 matrix with one dense-tail column and one dense
row; the first argument is the tail column 1 and the second the sparse
column 0. -/
theorem swap_columns_validation_witness :
    (((SparseOctetMatrix.new 1 2 1 0 1).swap_columns_checked 1 0 = none ↔
        ((SparseOctetMatrix.new 1 2 1 0 1).width -
            (SparseOctetMatrix.new 1 2 1 0 1).num_dense_columns ≤ 0 ∨
          ∃ r ∈ (SparseOctetMatrix.new 1 2 1 0 1).dense_rows, r.length ≤ 1)) ∧
      (∀ M', (SparseOctetMatrix.new 1 2 1 0 1).swap_columns_checked 1 0 =
          some M' →
        M' = (SparseOctetMatrix.new 1 2 1 0 1).swapColsCore 1 0)) :=
  swap_columns_validation (SparseOctetMatrix.new 1 2 1 0 1)
    (by constructor <;> decide) 1 0 (by decide) (by decide)

/-- Counterexample for C10's original wording: on `new(1, 2, 1, 0, 1)` — a
well-formed matrix with one dense row of length
`width - num_dense_columns = 1` — the call `swap_columns(1, 0)` has a valid
second argument (`0` is outside the dense tail), yet it fails: the dense-row
`Vec::swap(1, 0)` on line 262 indexes position 1 of a length-1 row and
panics.  So a call whose first column argument lies inside the dense tail
while the second lies outside it can fail. -/
theorem swap_columns_dense_tail_first_arg_fails :
    (SparseOctetMatrix.new 1 2 1 0 1).WF ∧
    ¬ ((SparseOctetMatrix.new 1 2 1 0 1).width -
        (SparseOctetMatrix.new 1 2 1 0 1).num_dense_columns ≤ 0) ∧
    (SparseOctetMatrix.new 1 2 1 0 1).swap_columns_checked 1 0 = none :=
  ⟨by constructor <;> decide, by decide, rfl⟩

theorem sv_empty_get (i : Nat) : SparseOctetVec.empty.get i = none := rfl

theorem sv_remove_get_self (v : SparseOctetVec) (i : Nat) :
    (v.remove i).get i = none := by
  have h : (v.elements.filter (fun p => p.1 != i)).find? (fun p => p.1 == i) =
      none := by
    refine List.find?_eq_none.mpr ?_
    intro p hp
    have h1 := List.of_mem_filter hp
    simpa using h1
  show ((v.elements.filter (fun p => p.1 != i)).find? (fun p => p.1 == i)).map
    Prod.snd = none
  rw [h]
  rfl

theorem sv_get_eq_some_mem (v : SparseOctetVec) (k : Nat) (x : Oct)
    (h : v.get k = some x) : (k, x) ∈ v.elements := by
  unfold SparseOctetVec.get at h
  rcases Option.map_eq_some'.mp h with ⟨p, hp, hpx⟩
  have hmem := List.mem_of_find?_eq_some hp
  have hpred := List.find?_some hp
  obtain ⟨a, b⟩ := p
  have h1 : a = k := by simpa using hpred
  have h2 : b = x := hpx
  subst h1
  subst h2
  exact hmem

theorem getD_map_lt {α β : Type} (l : List α) (f : α → β) (n : Nat) (d : β)
    (d' : α) (h : n < l.length) : (l.map f).getD n d = f (l.getD n d') := by
  induction l generalizing n with
  | nil => simp at h
  | cons x xs ih =>
    cases n with
    | zero => rfl
    | succ n => simpa using ih n (by simpa using h)

theorem freezeRemoveStep_pair_some (pc ndc : Nat) (se : List SparseOctetVec)
    (de : List (List Oct)) (k : Nat) (value : Oct)
    (h : (se.getD k SparseOctetVec.empty).get pc = some value) :
    SparseOctetMatrix.freezeRemoveStep pc ndc (se, de) k =
      (upd se k (fun r => r.remove pc),
       upd de k (fun r => upd r (ndc - 1) (fun _ => value))) :=
  freezeRemoveStep_eq_some pc ndc (se, de) k value h

theorem freezeRemoveStep_pair_none (pc ndc : Nat) (se : List SparseOctetVec)
    (de : List (List Oct)) (k : Nat)
    (h : (se.getD k SparseOctetVec.empty).get pc = none) :
    SparseOctetMatrix.freezeRemoveStep pc ndc (se, de) k = (se, de) :=
  freezeRemoveStep_eq_none pc ndc (se, de) k h

theorem freezeDenseStep_pair (i ndc sl : Nat) (dr P : List (List Oct))
    (k : Nat) :
    SparseOctetMatrix.freezeDenseStep i ndc sl (dr, P) k =
      (upd dr (k - sl) (fun r => upd r i (fun _ => 0)),
       upd P k (fun r => upd r (ndc - 1)
         (fun _ => (dr.getD (k - sl) []).getD i 0))) := rfl

/-- The freeze removal loop leaves dense-tail rows at or above the sparse row
count untouched. -/
theorem freezeRemove_fold_snd_hi (pc ndc : Nat) (ks : List Nat)
    (se : List SparseOctetVec) (de : List (List Oct)) (pr : Nat)
    (h : se.length ≤ pr) :
    (ks.foldl (SparseOctetMatrix.freezeRemoveStep pc ndc) (se, de)).2.getD pr [] =
      de.getD pr [] := by
  induction ks generalizing se de with
  | nil => rfl
  | cons k tl ih =>
    rw [List.foldl_cons]
    cases hg : (se.getD k SparseOctetVec.empty).get pc with
    | none =>
      rw [freezeRemoveStep_pair_none _ _ _ _ _ hg]
      exact ih se de h
    | some value =>
      have hk : k < se.length := by
        by_contra hk2
        rw [getD_default _ _ _ (by omega), sv_empty_get] at hg
        exact Option.noConfusion hg
      rw [freezeRemoveStep_pair_some _ _ _ _ _ _ hg,
        ih _ _ (by rw [length_upd]; exact h),
        getD_upd_ne _ _ _ _ _ (by omega : pr ≠ k)]

/-- The freeze removal loop leaves a row not listed in the index entry, and
its dense-tail slot, untouched. -/
theorem freezeRemove_fold_not_mem (pc ndc : Nat) (ks : List Nat)
    (se : List SparseOctetVec) (de : List (List Oct)) (pr : Nat)
    (h : pr ∉ ks) :
    (ks.foldl (SparseOctetMatrix.freezeRemoveStep pc ndc) (se, de)).1.getD pr
        SparseOctetVec.empty = se.getD pr SparseOctetVec.empty ∧
      (ks.foldl (SparseOctetMatrix.freezeRemoveStep pc ndc) (se, de)).2.getD pr
        [] = de.getD pr [] := by
  induction ks generalizing se de with
  | nil => exact ⟨rfl, rfl⟩
  | cons k tl ih =>
    have hk : pr ≠ k := fun hc => h (by rw [hc]; exact List.mem_cons_self k tl)
    have htl : pr ∉ tl := fun hc => h (List.mem_cons_of_mem k hc)
    rw [List.foldl_cons]
    cases hg : (se.getD k SparseOctetVec.empty).get pc with
    | none =>
      rw [freezeRemoveStep_pair_none _ _ _ _ _ hg]
      exact ih se de htl
    | some value =>
      rw [freezeRemoveStep_pair_some _ _ _ _ _ _ hg]
      obtain ⟨i1, i2⟩ := ih (upd se k (fun r => r.remove pc))
        (upd de k (fun r => upd r (ndc - 1) (fun _ => value))) htl
      exact ⟨i1.trans (getD_upd_ne _ _ _ _ _ hk),
        i2.trans (getD_upd_ne _ _ _ _ _ hk)⟩

/-- The freeze removal loop leaves a row that stores no entry at the frozen
physical column, and its dense-tail slot, untouched. -/
theorem freezeRemove_fold_no_key (pc ndc : Nat) (ks : List Nat)
    (se : List SparseOctetVec) (de : List (List Oct)) (pr : Nat)
    (h : (se.getD pr SparseOctetVec.empty).get pc = none) :
    (ks.foldl (SparseOctetMatrix.freezeRemoveStep pc ndc) (se, de)).1.getD pr
        SparseOctetVec.empty = se.getD pr SparseOctetVec.empty ∧
      (ks.foldl (SparseOctetMatrix.freezeRemoveStep pc ndc) (se, de)).2.getD pr
        [] = de.getD pr [] := by
  induction ks generalizing se de with
  | nil => exact ⟨rfl, rfl⟩
  | cons k tl ih =>
    rw [List.foldl_cons]
    by_cases hk : pr = k
    · rw [← hk, freezeRemoveStep_pair_none _ _ _ _ _ h]
      exact ih se de h
    · cases hg : (se.getD k SparseOctetVec.empty).get pc with
      | none =>
        rw [freezeRemoveStep_pair_none _ _ _ _ _ hg]
        exact ih se de h
      | some value =>
        rw [freezeRemoveStep_pair_some _ _ _ _ _ _ hg]
        have h' : ((upd se k (fun r => r.remove pc)).getD pr
            SparseOctetVec.empty).get pc = none := by
          rw [getD_upd_ne _ _ _ _ _ hk]
          exact h
        obtain ⟨i1, i2⟩ := ih (upd se k (fun r => r.remove pc))
          (upd de k (fun r => upd r (ndc - 1) (fun _ => value))) h'
        exact ⟨i1.trans (getD_upd_ne _ _ _ _ _ hk),
          i2.trans (getD_upd_ne _ _ _ _ _ hk)⟩

/-- The freeze removal loop migrates the value stored at the frozen physical
column of an indexed row into that row's fresh dense-tail slot. -/
theorem freezeRemove_fold_value (pc ndc : Nat) (ks : List Nat)
    (se : List SparseOctetVec) (de : List (List Oct)) (pr : Nat) (value : Oct)
    (hmem : pr ∈ ks) (hlen : pr < se.length)
    (hslot : ndc - 1 < (de.getD pr []).length)
    (hg : (se.getD pr SparseOctetVec.empty).get pc = some value) (j : Nat)
    (hj : j = ndc - 1) :
    ((ks.foldl (SparseOctetMatrix.freezeRemoveStep pc ndc) (se, de)).2.getD pr
      []).getD j 0 = value := by
  subst hj
  induction ks generalizing se de with
  | nil => cases hmem
  | cons k tl ih =>
    rw [List.foldl_cons]
    by_cases hk : pr = k
    · rw [← hk, freezeRemoveStep_pair_some _ _ _ _ _ _ hg]
      have h1 : ((upd se pr (fun r => r.remove pc)).getD pr
          SparseOctetVec.empty).get pc = none := by
        rw [getD_upd_self _ _ _ _ hlen]
        exact sv_remove_get_self _ _
      rw [(freezeRemove_fold_no_key pc ndc tl
        (upd se pr (fun r => r.remove pc))
        (upd de pr (fun r => upd r (ndc - 1) (fun _ => value))) pr h1).2]
      by_cases h2 : pr < de.length
      · rw [getD_upd_self _ _ _ _ h2]
        show (upd (de.getD pr []) (ndc - 1) (fun _ => value)).getD (ndc - 1) 0 =
          value
        rw [getD_upd_self _ _ _ _ hslot]
      · rw [getD_default _ _ _ (by omega)] at hslot
        simp at hslot
    · rcases List.mem_cons.mp hmem with hc | htl
      · exact absurd hc hk
      cases hg2 : (se.getD k SparseOctetVec.empty).get pc with
      | none =>
        rw [freezeRemoveStep_pair_none _ _ _ _ _ hg2]
        exact ih se de htl hlen hslot hg
      | some v2 =>
        rw [freezeRemoveStep_pair_some _ _ _ _ _ _ hg2]
        refine ih (upd se k (fun r => r.remove pc))
          (upd de k (fun r => upd r (ndc - 1) (fun _ => v2))) htl ?_ ?_ ?_
        · rw [length_upd]
          exact hlen
        · rw [getD_upd_ne _ _ _ _ _ hk]
          exact hslot
        · rw [getD_upd_ne _ _ _ _ _ hk]
          exact hg

/-- The freeze dense-row loop leaves the dense-tail row of a physical row it
does not visit untouched. -/
theorem freezeDense_fold_not_mem (i ndc sl : Nat) (rs : List Nat)
    (dr P : List (List Oct)) (pr : Nat) (h : pr ∉ rs) :
    (rs.foldl (SparseOctetMatrix.freezeDenseStep i ndc sl) (dr, P)).2.getD pr
      [] = P.getD pr [] := by
  induction rs generalizing dr P with
  | nil => rfl
  | cons k tl ih =>
    have hk : pr ≠ k := fun hc => h (by rw [hc]; exact List.mem_cons_self k tl)
    have htl : pr ∉ tl := fun hc => h (List.mem_cons_of_mem k hc)
    rw [List.foldl_cons, freezeDenseStep_pair, ih _ _ htl,
      getD_upd_ne _ _ _ _ _ hk]

/-- The freeze dense-row loop copies the frozen logical column's value of a
visited dense row into that row's fresh dense-tail slot. -/
theorem freezeDense_fold_value (i ndc sl : Nat) (rs : List Nat)
    (dr P : List (List Oct)) (pr : Nat) (hmem : pr ∈ rs) (hnd : rs.Nodup)
    (hge : ∀ k ∈ rs, sl ≤ k) (hslot : ndc - 1 < (P.getD pr []).length)
    (j : Nat) (hj : j = ndc - 1) :
    ((rs.foldl (SparseOctetMatrix.freezeDenseStep i ndc sl) (dr, P)).2.getD pr
      []).getD j 0 = (dr.getD (pr - sl) []).getD i 0 := by
  subst hj
  induction rs generalizing dr P with
  | nil => cases hmem
  | cons k tl ih =>
    rw [List.foldl_cons, freezeDenseStep_pair]
    by_cases hk : pr = k
    · have htl : pr ∉ tl := by
        rw [hk]
        exact (List.nodup_cons.mp hnd).1
      rw [← hk, freezeDense_fold_not_mem _ _ _ _ _ _ pr htl]
      by_cases h2 : pr < P.length
      · rw [getD_upd_self _ _ _ _ h2]
        show (upd (P.getD pr []) (ndc - 1)
          (fun _ => (dr.getD (pr - sl) []).getD i 0)).getD (ndc - 1) 0 =
          (dr.getD (pr - sl) []).getD i 0
        rw [getD_upd_self _ _ _ _ hslot]
      · rw [getD_default _ _ _ (by omega)] at hslot
        simp at hslot
    · rcases List.mem_cons.mp hmem with hc | htl
      · exact absurd hc hk
      have hkk := hge k (List.mem_cons_self k tl)
      have hpp := hge pr hmem
      have hsub : pr - sl ≠ k - sl := by omega
      rw [ih (upd dr (k - sl) (fun r => upd r i (fun _ => 0)))
        (upd P k (fun r => upd r (ndc - 1)
          (fun _ => (dr.getD (k - sl) []).getD i 0)))
        htl (List.nodup_cons.mp hnd).2
        (fun x hx => hge x (List.mem_cons_of_mem k hx))
        (by rw [getD_upd_ne _ _ _ _ _ hk]; exact hslot),
        getD_upd_ne _ _ _ _ _ hsub]

/-- The dense-elements component of a freeze, written out as the two loops of
the source applied to the extended tail storage. -/
theorem freezeCore_dense_elements (M : SparseOctetMatrix) (i : Nat) :
    (SparseOctetMatrix.freezeCore M i).dense_elements =
      ((List.range' M.sparse_elements.length
        (M.height - M.sparse_elements.length)).foldl
        (SparseOctetMatrix.freezeDenseStep i (M.num_dense_columns + 1)
          M.sparse_elements.length)
        (M.dense_rows,
         ((M.sparse_column_index.getD (M.logical_col_to_physical.getD i 0)
            []).foldl
           (SparseOctetMatrix.freezeRemoveStep
             (M.logical_col_to_physical.getD i 0) (M.num_dense_columns + 1))
           (M.sparse_elements,
            M.dense_elements.map (fun r =>
              if r.length < M.num_dense_columns + 1 then
                r ++ List.replicate 10 (0 : Oct) else r))).2)).2 := rfl

/-- The extended tail storage has room for the frozen column's slot and holds
zero there. -/
theorem freeze_de1_facts (M : SparseOctetMatrix) (hwf : M.WF) (pr : Nat)
    (hpr : pr < M.height) :
    M.num_dense_columns + 1 ≤ ((M.dense_elements.map (fun r =>
        if r.length < M.num_dense_columns + 1 then r ++ List.replicate 10 (0 : Oct)
        else r)).getD pr []).length ∧
      ((M.dense_elements.map (fun r =>
        if r.length < M.num_dense_columns + 1 then r ++ List.replicate 10 (0 : Oct)
        else r)).getD pr []).getD M.num_dense_columns 0 = 0 := by
  have hqlen : pr < M.dense_elements.length := by
    rw [hwf.hDenseLen]
    exact hpr
  have hrw : (M.dense_elements.map (fun r =>
      if r.length < M.num_dense_columns + 1 then r ++ List.replicate 10 (0 : Oct)
      else r)).getD pr [] =
      (if (M.dense_elements.getD pr []).length < M.num_dense_columns + 1 then
        M.dense_elements.getD pr [] ++ List.replicate 10 (0 : Oct)
      else M.dense_elements.getD pr []) :=
    getD_map_lt _ _ _ _ [] hqlen
  rw [hrw]
  have hmem' := getD_mem M.dense_elements pr [] hqlen
  have htl := hwf.hTailLen _ hmem'
  by_cases hlt : (M.dense_elements.getD pr []).length < M.num_dense_columns + 1
  · rw [if_pos hlt]
    constructor
    · rw [List.length_append, List.length_replicate]
      omega
    · rw [List.getD_append_right _ _ _ _ (by omega), getD_replicate]
      split <;> rfl
  · rw [if_neg hlt]
    exact ⟨by omega, hwf.hTailZero _ hmem' _ (by omega) (by omega)⟩

/-- After a freeze, the fresh dense-tail slot of a physical dense row holds
that row's old value at the frozen logical column. -/
theorem freeze_slot_dense (M : SparseOctetMatrix) (hwf : M.WF) (i pr : Nat)
    (hpr : pr < M.height) (hge : M.sparse_elements.length ≤ pr) :
    ((SparseOctetMatrix.freezeCore M i).dense_elements.getD pr []).getD
      M.num_dense_columns 0 =
      (M.dense_rows.getD (pr - M.sparse_elements.length) []).getD i 0 := by
  rw [freezeCore_dense_elements]
  have hp1 := freezeRemove_fold_snd_hi (M.logical_col_to_physical.getD i 0)
    (M.num_dense_columns + 1)
    (M.sparse_column_index.getD (M.logical_col_to_physical.getD i 0) [])
    M.sparse_elements
    (M.dense_elements.map (fun r =>
      if r.length < M.num_dense_columns + 1 then r ++ List.replicate 10 (0 : Oct)
      else r)) pr hge
  refine freezeDense_fold_value i (M.num_dense_columns + 1)
    M.sparse_elements.length _ M.dense_rows _ pr ?_ ?_ ?_ ?_ M.num_dense_columns
    (by omega)
  · refine List.mem_range'_1.mpr ⟨hge, ?_⟩
    have := hwf.hRowLen
    omega
  · exact List.nodup_range' _ _ 1 (by omega)
  · intro k hk
    exact (List.mem_range'_1.mp hk).1
  · rw [hp1]
    have := (freeze_de1_facts M hwf pr hpr).1
    omega

/-- The frozen slot of a sparse row, computed through the removal loop: it
equals the row's old value at the frozen physical column whenever the column
index entry is sound for that row. -/
theorem freeze_sparse_slot_core (pc ndc : Nat) (ks : List Nat)
    (se : List SparseOctetVec) (de : List (List Oct)) (pr : Nat)
    (hlt : pr < se.length) (hlen : ndc - 1 < (de.getD pr []).length)
    (hzero : (de.getD pr []).getD (ndc - 1) 0 = 0)
    (hs : ∀ v, (se.getD pr SparseOctetVec.empty).get pc = some v → v ≠ 0 →
      pr ∈ ks) :
    ((ks.foldl (SparseOctetMatrix.freezeRemoveStep pc ndc) (se, de)).2.getD
      pr []).getD (ndc - 1) 0 =
      (se.getD pr SparseOctetVec.empty).getZero pc := by
  cases hgv : (se.getD pr SparseOctetVec.empty).get pc with
  | none =>
    rw [(freezeRemove_fold_no_key pc ndc ks se de pr hgv).2, hzero]
    unfold SparseOctetVec.getZero
    rw [hgv]
    rfl
  | some v =>
    by_cases hks : pr ∈ ks
    · rw [freezeRemove_fold_value pc ndc ks se de pr v hks hlt hlen hgv
        (ndc - 1) rfl]
      unfold SparseOctetVec.getZero
      rw [hgv]
      rfl
    · by_cases hv : v = 0
      · rw [(freezeRemove_fold_not_mem pc ndc ks se de pr hks).2, hzero]
        unfold SparseOctetVec.getZero
        rw [hgv]
        exact hv.symm
      · exact absurd (hs v hgv hv) hks

/-- After a freeze, the fresh dense-tail slot of a physical sparse row holds
that row's old value at the frozen physical column. -/
theorem freeze_slot_sparse (M : SparseOctetMatrix) (hwf : M.WF)
    (hsound : SparseOctetMatrix.ColumnIndexSound M) (i pr : Nat)
    (hpr : pr < M.height) (hlt : pr < M.sparse_elements.length) :
    ((SparseOctetMatrix.freezeCore M i).dense_elements.getD pr []).getD
      M.num_dense_columns 0 =
      (M.sparse_elements.getD pr SparseOctetVec.empty).getZero
        (M.logical_col_to_physical.getD i 0) := by
  have hnm : pr ∉ List.range' M.sparse_elements.length
      (M.height - M.sparse_elements.length) := by
    intro hc
    have := (List.mem_range'_1.mp hc).1
    omega
  rw [freezeCore_dense_elements,
    freezeDense_fold_not_mem i (M.num_dense_columns + 1)
      M.sparse_elements.length _ M.dense_rows _ pr hnm]
  have hfacts := freeze_de1_facts M hwf pr hpr
  refine freeze_sparse_slot_core (M.logical_col_to_physical.getD i 0)
    (M.num_dense_columns + 1)
    (M.sparse_column_index.getD (M.logical_col_to_physical.getD i 0) [])
    M.sparse_elements
    (M.dense_elements.map (fun r =>
      if r.length < M.num_dense_columns + 1 then r ++ List.replicate 10 (0 : Oct)
      else r)) pr hlt (by omega) ?_ ?_
  · simpa using hfacts.2
  · intro v hv hvne
    exact hsound pr hlt _ (sv_get_eq_some_mem _ _ _ hv) hvne

/-- C6: Column freeze preserves values.  For every well-formed matrix with the
column acceleration index enabled and sound, calling
`hint_column_dense_and_frozen i` on the right-most non-dense logical column
`i = width - num_dense_columns - 1` succeeds and leaves `get row i` equal to
its value before the call, for every logical row, whether that row is
physically sparse or dense. -/
theorem freeze_preserves_values (M : SparseOctetMatrix) (hwf : M.WF)
    (hflag : M.column_index_disabled = false)
    (hsound : SparseOctetMatrix.ColumnIndexSound M) (i : Nat)
    (hi : i = M.width - M.num_dense_columns - 1)
    (hndc : M.num_dense_columns < M.width) (r : Nat) (hr : r < M.height) :
    (M.hint_column_dense_and_frozen i).map (fun N => N.get r i) =
      some (M.get r i) := by
  have hguard : M.hint_column_dense_and_frozen i =
      some (SparseOctetMatrix.freezeCore M i) := by
    unfold SparseOctetMatrix.hint_column_dense_and_frozen
    rw [if_neg (by omega), if_neg (by simp [hflag])]
  rw [hguard, Option.map_some']
  refine congrArg some ?_
  show (SparseOctetMatrix.freezeCore M i).get r i = M.get r i
  have hpr := (hwf.hRowL2P r hr).1
  have hcond : (SparseOctetMatrix.freezeCore M i).width - i ≤
      (SparseOctetMatrix.freezeCore M i).num_dense_columns := by
    show M.width - i ≤ M.num_dense_columns + 1
    omega
  rw [get_tail_read _ r i hcond]
  have hw : (SparseOctetMatrix.freezeCore M i).width - i - 1 =
      M.num_dense_columns := by
    show M.width - i - 1 = M.num_dense_columns
    omega
  have hlp : (SparseOctetMatrix.freezeCore M i).logical_row_to_physical =
      M.logical_row_to_physical := rfl
  rw [hw, hlp]
  by_cases hcase : M.sparse_elements.length ≤ M.logical_row_to_physical.getD r 0
  · rw [freeze_slot_dense M hwf i _ hpr hcase,
      get_dense_row_read M r i (by omega) hcase]
  · push_neg at hcase
    rw [freeze_slot_sparse M hwf hsound i _ hpr hcase,
      get_sparse_read M r i (by omega) (by omega)]

/-- Witness for C6: freeze the only column of a 1x1 matrix with the index
enabled; the single entry keeps its value. -/
theorem freeze_preserves_values_witness :
    ((((SparseOctetMatrix.new 1 1 0 0 0).set 0 0
        1).enable_column_acccess_acceleration).hint_column_dense_and_frozen
        0).map (fun N => N.get 0 0) =
      some ((((SparseOctetMatrix.new 1 1 0 0 0).set 0 0
        1).enable_column_acccess_acceleration).get 0 0) :=
  freeze_preserves_values _ (by constructor <;> decide) (by decide)
    (by unfold SparseOctetMatrix.ColumnIndexSound; decide) 0 (by decide)
    (by decide) 0 (by decide)

/-- C5 (amended): column index soundness is an invariant of the index-enabled
operations.  After `enable_column_acccess_acceleration` on a structurally
adequate state (tables of the right length, with in-range physical columns
and in-range sparse keys), and any sequence of `set`, `swap_rows`, successful
`swap_columns`, `fma_rows`, `hint_column_dense_and_frozen` and
`mul_assign_submatrix`, every non-zero entry stored in a sparse row is
reflected in the column index list of its physical column.  The original
claim also listed `hint_compact_dense_rows` among the preserving operations;
that operation does not preserve soundness (it appends sparsified dense rows
without indexing them), see `hint_compact_breaks_index_soundness`. -/
theorem index_soundness_invariant (M : SparseOctetMatrix)
    (h : SparseOctetMatrix.IdxReachable M) :
    SparseOctetMatrix.ColumnIndexSound M := by
  have hInv : SparseOctetMatrix.IdxInv M := by
    induction h with
    | enable M hl2pc hbound hkeys =>
        exact enable_establishes_IdxInv M hl2pc hbound hkeys
    | set M i j v hM hj ih => exact IdxInv_set M i j v ih hj
    | swap_rows M i j hM ih => exact IdxInv_swap_rows M i j ih
    | swap_columns M i j M' hM hi hstep ih =>
        exact IdxInv_swap_columns M i j M' ih hi hstep
    | fma_rows M d m s M' hM hstep ih => exact IdxInv_fma_rows M d m s M' ih hstep
    | freeze M i M' hM hstep ih => exact IdxInv_freeze M i M' ih hstep
    | mul_assign M other rows M' hM hstep ih =>
        exact IdxInv_mul_assign M other rows M' ih hstep
  intro pr hpr p hp _
  exact hInv.2.2.2.2.2 pr hpr p hp

/-- Witness for C5: the index is sound right after enabling it on a fresh
1x1 matrix with one entry set. -/
theorem index_soundness_invariant_witness :
    SparseOctetMatrix.ColumnIndexSound
      (((SparseOctetMatrix.new 1 1 0 0 0).set 0 0
        1).enable_column_acccess_acceleration) :=
  index_soundness_invariant _
    (SparseOctetMatrix.IdxReachable.enable _ (by decide) (by decide) (by decide))

theorem fillMap_succ (l : List Nat) (s n : Nat) (g f : Nat → Nat) :
    fillMap l s (n + 1) g f =
      fillMap (upd l (g s) (fun _ => f s)) (s + 1) n g f := by
  unfold fillMap
  rw [List.range'_succ, List.foldl_cons]

theorem length_fillMap (l : List Nat) (s n : Nat) (g f : Nat → Nat) :
    (fillMap l s n g f).length = l.length := by
  induction n generalizing s l with
  | zero => rfl
  | succ n ih => rw [fillMap_succ, ih, length_upd]

/-- A position no loop iteration writes keeps its old value. -/
theorem getD_fillMap_miss (l : List Nat) (s n : Nat) (g f : Nat → Nat) (q : Nat)
    (h : ∀ i2, s ≤ i2 → i2 < s + n → g i2 ≠ q) :
    (fillMap l s n g f).getD q 0 = l.getD q 0 := by
  induction n generalizing s l with
  | zero => rfl
  | succ n ih =>
    rw [fillMap_succ, ih _ _ (fun i2 h1 h2 => h i2 (by omega) (by omega)),
      getD_upd_ne _ _ _ _ _ (Ne.symm (h s (by omega) (by omega)))]

/-- The position written by the unique matching loop iteration holds that
iteration's value. -/
theorem getD_fillMap_hit (l : List Nat) (s n : Nat) (g f : Nat → Nat)
    (i q : Nat) (hs : s ≤ i) (hn : i < s + n) (hq : g i = q)
    (hbound : q < l.length)
    (hinj : ∀ i2, s ≤ i2 → i2 < s + n → g i2 = q → i2 = i) :
    (fillMap l s n g f).getD q 0 = f i := by
  induction n generalizing s l with
  | zero => omega
  | succ n ih =>
    rw [fillMap_succ]
    by_cases hi : i = s
    · subst hi
      rw [getD_fillMap_miss _ _ _ _ _ _
        (fun i2 h1 h2 hc => absurd (hinj i2 (by omega) (by omega) hc) (by omega)),
        ← hq, getD_upd_self _ _ _ _ (by rw [hq]; exact hbound)]
    · exact ih (upd l (g s) (fun _ => f s)) (s + 1) (by omega) (by omega)
        (by rw [length_upd]; exact hbound)
        (fun i2 h1 h2 hc => hinj i2 (by omega) (by omega) hc)

theorem getD_range (n i : Nat) (h : i < n) : (List.range n).getD i 0 = i := by
  rw [List.getD_eq_getElem (List.range n) 0 (by simpa using h)]
  simp

theorem new_l2pr (height width tdc sdr ndr : Nat) :
    (SparseOctetMatrix.new height width tdc sdr ndr).logical_row_to_physical =
      fillMap (fillMap (fillMap (List.replicate height 0) 0 sdr id id) sdr ndr
        id (fun i => i - sdr + (height - ndr))) (sdr + ndr)
        (height - (sdr + ndr)) id (fun i => i - ndr) := rfl

theorem new_p2lr (height width tdc sdr ndr : Nat) :
    (SparseOctetMatrix.new height width tdc sdr ndr).physical_row_to_logical =
      fillMap (fillMap (fillMap (List.replicate height 0) 0 sdr id id) sdr ndr
        (fun i => i - sdr + (height - ndr)) id) (sdr + ndr)
        (height - (sdr + ndr)) (fun i => i - ndr) id := rfl

theorem new_cols (height width tdc sdr ndr : Nat) :
    (SparseOctetMatrix.new height width tdc sdr ndr).logical_col_to_physical =
      fillMap (List.replicate width 0) 0 width id id ∧
    (SparseOctetMatrix.new height width tdc sdr ndr).physical_col_to_logical =
      fillMap (List.replicate width 0) 0 width id id := ⟨rfl, rfl⟩

/-- Value of the logical-to-physical row table built by `new`. -/
theorem l2p3_getD (height sdr ndr x : Nat) (hh : sdr + ndr ≤ height)
    (hx : x < height) :
    (fillMap (fillMap (fillMap (List.replicate height 0) 0 sdr id id) sdr ndr
      id (fun i => i - sdr + (height - ndr))) (sdr + ndr)
      (height - (sdr + ndr)) id (fun i => i - ndr)).getD x 0 =
      if x < sdr then x
      else if x < sdr + ndr then x - sdr + (height - ndr)
      else x - ndr := by
  have hlen1 : (fillMap (List.replicate height 0) 0 sdr id id).length =
      height := by
    rw [length_fillMap, List.length_replicate]
  by_cases h1 : x < sdr
  · rw [if_pos h1,
      getD_fillMap_miss (fillMap (fillMap (List.replicate height 0) 0 sdr id
        id) sdr ndr id (fun i => i - sdr + (height - ndr))) (sdr + ndr)
        (height - (sdr + ndr)) id (fun i => i - ndr) x
        (fun i2 ha hb => by simp only [id_eq]; omega),
      getD_fillMap_miss (fillMap (List.replicate height 0) 0 sdr id id)
        sdr ndr id (fun i => i - sdr + (height - ndr)) x
        (fun i2 ha hb => by simp only [id_eq]; omega)]
    exact getD_fillMap_hit (List.replicate height 0) 0 sdr id id x x
      (by omega) (by omega) rfl (by rw [List.length_replicate]; omega)
      (fun i2 ha hb hc => by simpa using hc)
  · by_cases h2 : x < sdr + ndr
    · rw [if_neg h1, if_pos h2,
        getD_fillMap_miss (fillMap (fillMap (List.replicate height 0) 0 sdr id
          id) sdr ndr id (fun i => i - sdr + (height - ndr))) (sdr + ndr)
          (height - (sdr + ndr)) id (fun i => i - ndr) x
          (fun i2 ha hb => by simp only [id_eq]; omega)]
      exact getD_fillMap_hit (fillMap (List.replicate height 0) 0 sdr id id)
        sdr ndr id (fun i => i - sdr + (height - ndr)) x x (by omega)
        (by omega) rfl (by rw [hlen1]; omega)
        (fun i2 ha hb hc => by simpa using hc)
    · rw [if_neg h1, if_neg h2]
      exact getD_fillMap_hit (fillMap (fillMap (List.replicate height 0) 0 sdr
          id id) sdr ndr id (fun i => i - sdr + (height - ndr))) (sdr + ndr)
        (height - (sdr + ndr)) id (fun i => i - ndr) x x (by omega) (by omega)
        rfl (by rw [length_fillMap, hlen1]; omega)
        (fun i2 ha hb hc => by simpa using hc)

/-- Value of the physical-to-logical row table built by `new`. -/
theorem p2l3_getD (height sdr ndr p : Nat) (hh : sdr + ndr ≤ height)
    (hp : p < height) :
    (fillMap (fillMap (fillMap (List.replicate height 0) 0 sdr id id) sdr ndr
      (fun i => i - sdr + (height - ndr)) id) (sdr + ndr)
      (height - (sdr + ndr)) (fun i => i - ndr) id).getD p 0 =
      if p < sdr then p
      else if p < height - ndr then p + ndr
      else p - (height - ndr) + sdr := by
  have hlen1 : (fillMap (List.replicate height 0) 0 sdr id id).length =
      height := by
    rw [length_fillMap, List.length_replicate]
  by_cases h1 : p < sdr
  · rw [if_pos h1,
      getD_fillMap_miss (fillMap (fillMap (List.replicate height 0) 0 sdr id
        id) sdr ndr (fun i => i - sdr + (height - ndr)) id) (sdr + ndr)
        (height - (sdr + ndr)) (fun i => i - ndr) id p
        (fun i2 ha hb => by show i2 - ndr ≠ p; omega),
      getD_fillMap_miss (fillMap (List.replicate height 0) 0 sdr id id)
        sdr ndr (fun i => i - sdr + (height - ndr)) id p
        (fun i2 ha hb => by show i2 - sdr + (height - ndr) ≠ p; omega)]
    exact getD_fillMap_hit (List.replicate height 0) 0 sdr id id p p
      (by omega) (by omega) rfl (by rw [List.length_replicate]; omega)
      (fun i2 ha hb hc => by simpa using hc)
  · by_cases h2 : p < height - ndr
    · rw [if_neg h1, if_pos h2]
      exact getD_fillMap_hit (fillMap (fillMap (List.replicate height 0) 0 sdr
          id id) sdr ndr (fun i => i - sdr + (height - ndr)) id) (sdr + ndr)
        (height - (sdr + ndr)) (fun i => i - ndr) id (p + ndr) p (by omega)
        (by omega) (by show p + ndr - ndr = p; omega)
        (by rw [length_fillMap, hlen1]; omega)
        (fun i2 ha hb hc => by
          have hc2 : i2 - ndr = p := hc
          omega)
    · rw [if_neg h1, if_neg h2,
        getD_fillMap_miss (fillMap (fillMap (List.replicate height 0) 0 sdr id
          id) sdr ndr (fun i => i - sdr + (height - ndr)) id) (sdr + ndr)
          (height - (sdr + ndr)) (fun i => i - ndr) id p
          (fun i2 ha hb => by show i2 - ndr ≠ p; omega)]
      exact getD_fillMap_hit (fillMap (List.replicate height 0) 0 sdr id id)
        sdr ndr (fun i => i - sdr + (height - ndr)) id
        (p - (height - ndr) + sdr) p (by omega) (by omega)
        (by show p - (height - ndr) + sdr - sdr + (height - ndr) = p; omega)
        (by rw [hlen1]; omega)
        (fun i2 ha hb hc => by
          have hc2 : i2 - sdr + (height - ndr) = p := hc
          omega)

/-- The column tables built by `new` are the identity. -/
theorem colmap_getD (width q : Nat) (hq : q < width) :
    (fillMap (List.replicate width 0) 0 width id id).getD q 0 = q :=
  getD_fillMap_hit (List.replicate width 0) 0 width id id q q (by omega)
    (by omega) rfl (by rw [List.length_replicate]; omega)
    (fun i2 ha hb hc => by simpa using hc)

/-- `new` establishes the index-table invariant whenever the dense row block
fits the height. -/
theorem TablesInv_new (height width tdc sdr ndr : Nat)
    (hh : sdr + ndr ≤ height) :
    SparseOctetMatrix.TablesInv
      (SparseOctetMatrix.new height width tdc sdr ndr) := by
  have hl2pr := new_l2pr height width tdc sdr ndr
  have hp2lr := new_p2lr height width tdc sdr ndr
  obtain ⟨hc1, hc2⟩ := new_cols height width tdc sdr ndr
  have hH : (SparseOctetMatrix.new height width tdc sdr ndr).height =
      height := rfl
  have hW : (SparseOctetMatrix.new height width tdc sdr ndr).width =
      width := rfl
  refine ⟨?_, ?_, ?_, ?_, ?_, ?_, ?_, ?_⟩
  · rw [hl2pr, hH, length_fillMap, length_fillMap, length_fillMap,
      List.length_replicate]
  · rw [hp2lr, hH, length_fillMap, length_fillMap, length_fillMap,
      List.length_replicate]
  · intro x hx
    rw [hH] at hx
    rw [hl2pr, hp2lr, hH, l2p3_getD height sdr ndr x hh hx]
    by_cases h1 : x < sdr
    · rw [if_pos h1, p2l3_getD height sdr ndr x hh (by omega), if_pos h1]
      exact ⟨by omega, rfl⟩
    · by_cases h2 : x < sdr + ndr
      · rw [if_neg h1, if_pos h2,
          p2l3_getD height sdr ndr (x - sdr + (height - ndr)) hh (by omega),
          if_neg (by omega), if_neg (by omega)]
        exact ⟨by omega, by omega⟩
      · rw [if_neg h1, if_neg h2,
          p2l3_getD height sdr ndr (x - ndr) hh (by omega),
          if_neg (by omega), if_pos (by omega)]
        exact ⟨by omega, by omega⟩
  · intro p hp
    rw [hH] at hp
    rw [hl2pr, hp2lr, hH, p2l3_getD height sdr ndr p hh hp]
    by_cases h1 : p < sdr
    · rw [if_pos h1, l2p3_getD height sdr ndr p hh (by omega), if_pos h1]
      exact ⟨by omega, rfl⟩
    · by_cases h2 : p < height - ndr
      · rw [if_neg h1, if_pos h2,
          l2p3_getD height sdr ndr (p + ndr) hh (by omega),
          if_neg (by omega), if_neg (by omega)]
        exact ⟨by omega, by omega⟩
      · rw [if_neg h1, if_neg h2,
          l2p3_getD height sdr ndr (p - (height - ndr) + sdr) hh (by omega),
          if_neg (by omega), if_pos (by omega)]
        exact ⟨by omega, by omega⟩
  · rw [hc1, hc2]
  · rw [hW, hc1, length_fillMap, List.length_replicate]
  · intro j hj
    rw [hc1, length_fillMap, List.length_replicate] at hj
    rw [hc1, hc2, length_fillMap, List.length_replicate,
      colmap_getD width j hj, colmap_getD width j hj]
    exact ⟨hj, rfl⟩
  · intro q hq
    rw [hc1, length_fillMap, List.length_replicate] at hq
    rw [hc1, hc2, length_fillMap, List.length_replicate,
      colmap_getD width q hq, colmap_getD width q hq]
    exact ⟨hq, rfl⟩

/-- Transfer of the index-table invariant along an operation that leaves the
dimensions and the four tables unchanged. -/
theorem TablesInv_transfer (M M' : SparseOctetMatrix)
    (hh : M'.height = M.height) (hw : M'.width = M.width)
    (h1 : M'.logical_row_to_physical = M.logical_row_to_physical)
    (h2 : M'.physical_row_to_logical = M.physical_row_to_logical)
    (h3 : M'.logical_col_to_physical = M.logical_col_to_physical)
    (h4 : M'.physical_col_to_logical = M.physical_col_to_logical)
    (hInv : SparseOctetMatrix.TablesInv M) :
    SparseOctetMatrix.TablesInv M' := by
  unfold SparseOctetMatrix.TablesInv at hInv ⊢
  rw [hh, hw, h1, h2, h3, h4]
  exact hInv

theorem TablesInv_set (M : SparseOctetMatrix) (i j : Nat) (v : Oct)
    (hInv : SparseOctetMatrix.TablesInv M) :
    SparseOctetMatrix.TablesInv (M.set i j v) := by
  simp only [SparseOctetMatrix.set]
  split
  · exact TablesInv_transfer _ _ rfl rfl rfl rfl rfl rfl hInv
  · split
    · exact TablesInv_transfer _ _ rfl rfl rfl rfl rfl rfl hInv
    · exact TablesInv_transfer _ _ rfl rfl rfl rfl rfl rfl hInv

/-- Swapping two valid entries of a pair of mutually inverse tables, the
second at the images of the first, preserves mutual inversion. -/
theorem lswap_tables (l2p p2l : List Nat) (n i j : Nat)
    (hlen1 : l2p.length = n) (hlen2 : p2l.length = n)
    (hfwd : ∀ x, x < n → l2p.getD x 0 < n ∧ p2l.getD (l2p.getD x 0) 0 = x)
    (hbwd : ∀ p, p < n → p2l.getD p 0 < n ∧ l2p.getD (p2l.getD p 0) 0 = p)
    (hi : i < n) (hj : j < n) :
    (∀ x, x < n → (lswap l2p i j 0).getD x 0 < n ∧
      (lswap p2l (l2p.getD i 0) (l2p.getD j 0) 0).getD
        ((lswap l2p i j 0).getD x 0) 0 = x) ∧
    (∀ p, p < n → (lswap p2l (l2p.getD i 0) (l2p.getD j 0) 0).getD p 0 < n ∧
      (lswap l2p i j 0).getD
        ((lswap p2l (l2p.getD i 0) (l2p.getD j 0) 0).getD p 0) 0 = p) := by
  have hpi := hfwd i hi
  have hpj := hfwd j hj
  have hil : i < l2p.length := by omega
  have hjl : j < l2p.length := by omega
  have hpil : l2p.getD i 0 < p2l.length := by omega
  have hpjl : l2p.getD j 0 < p2l.length := by omega
  constructor
  · intro x hx
    by_cases hxi : x = i
    · subst hxi
      rw [getD_lswap_left _ _ _ _ hil hjl,
        getD_lswap_right _ _ _ _ hpil hpjl]
      exact ⟨hpj.1, hpi.2⟩
    · by_cases hxj : x = j
      · subst hxj
        rw [getD_lswap_right _ _ _ _ hil hjl,
          getD_lswap_left _ _ _ _ hpil hpjl]
        exact ⟨hpi.1, hpj.2⟩
      · rw [getD_lswap_other _ _ _ _ _ hxi hxj]
        have hpx := hfwd x hx
        have hne1 : l2p.getD x 0 ≠ l2p.getD i 0 := by
          intro hc
          have h0 := hpx.2
          rw [hc, hpi.2] at h0
          exact hxi h0.symm
        have hne2 : l2p.getD x 0 ≠ l2p.getD j 0 := by
          intro hc
          have h0 := hpx.2
          rw [hc, hpj.2] at h0
          exact hxj h0.symm
        rw [getD_lswap_other _ _ _ _ _ hne1 hne2]
        exact hpx
  · intro p hp
    by_cases hp1 : p = l2p.getD i 0
    · rw [hp1, getD_lswap_left _ _ _ _ hpil hpjl, hpj.2]
      refine ⟨by omega, ?_⟩
      rw [getD_lswap_right _ _ _ _ hil hjl]
    · by_cases hp2 : p = l2p.getD j 0
      · rw [hp2, getD_lswap_right _ _ _ _ hpil hpjl, hpi.2]
        refine ⟨by omega, ?_⟩
        rw [getD_lswap_left _ _ _ _ hil hjl]
      · rw [getD_lswap_other _ _ _ _ _ hp1 hp2]
        have hpp := hbwd p hp
        have hne1 : p2l.getD p 0 ≠ i := by
          intro hc
          have h0 := hpp.2
          rw [hc] at h0
          exact hp1 h0.symm
        have hne2 : p2l.getD p 0 ≠ j := by
          intro hc
          have h0 := hpp.2
          rw [hc] at h0
          exact hp2 h0.symm
        rw [getD_lswap_other _ _ _ _ _ hne1 hne2]
        exact hpp

theorem TablesInv_swap_rows (M : SparseOctetMatrix) (i j : Nat)
    (hInv : SparseOctetMatrix.TablesInv M) (hi : i < M.height)
    (hj : j < M.height) : SparseOctetMatrix.TablesInv (M.swap_rows i j) := by
  obtain ⟨t1, t2, t3, t4, t5, t6, t7, t8⟩ := hInv
  obtain ⟨f1, f2⟩ := lswap_tables M.logical_row_to_physical
    M.physical_row_to_logical M.height i j t1 t2 t3 t4 hi hj
  refine ⟨?_, ?_, f1, f2, t5, t6, t7, t8⟩
  · show (lswap M.logical_row_to_physical i j 0).length = M.height
    rw [length_lswap]
    exact t1
  · show (lswap M.physical_row_to_logical
      (M.logical_row_to_physical.getD i 0)
      (M.logical_row_to_physical.getD j 0) 0).length = M.height
    rw [length_lswap]
    exact t2

theorem TablesInv_swap_columns (M : SparseOctetMatrix) (i j : Nat)
    (M' : SparseOctetMatrix) (hInv : SparseOctetMatrix.TablesInv M)
    (hi : i < M.width) (h : M.swap_columns i j = some M') :
    SparseOctetMatrix.TablesInv M' := by
  obtain ⟨t1, t2, t3, t4, t5, t6, t7, t8⟩ := hInv
  unfold SparseOctetMatrix.swap_columns at h
  by_cases hg : M.width - M.num_dense_columns ≤ j
  · rw [if_pos hg] at h
    exact absurd h (by simp)
  · rw [if_neg hg] at h
    have hM' := (Option.some.inj h).symm
    subst hM'
    obtain ⟨f1, f2⟩ := lswap_tables M.logical_col_to_physical
      M.physical_col_to_logical M.logical_col_to_physical.length i j rfl
      t5.symm t7 t8 (by omega) (by omega)
    have hL : (lswap M.logical_col_to_physical i j 0).length =
        M.logical_col_to_physical.length := length_lswap _ _ _ _
    refine ⟨t1, t2, t3, t4, ?_, ?_, ?_, ?_⟩
    · show (lswap M.logical_col_to_physical i j 0).length =
        (lswap M.physical_col_to_logical
          (M.logical_col_to_physical.getD i 0)
          (M.logical_col_to_physical.getD j 0) 0).length
      rw [length_lswap, length_lswap]
      exact t5
    · show M.width ≤ (lswap M.logical_col_to_physical i j 0).length
      rw [length_lswap]
      exact t6
    · intro x hx
      have hx2 : x < M.logical_col_to_physical.length := by
        have hx3 : x < (lswap M.logical_col_to_physical i j 0).length := hx
        rw [hL] at hx3
        exact hx3
      have hr := f1 x hx2
      refine ⟨?_, hr.2⟩
      show (lswap M.logical_col_to_physical i j 0).getD x 0 <
        (lswap M.logical_col_to_physical i j 0).length
      rw [hL]
      exact hr.1
    · intro p hp
      have hp2 : p < M.logical_col_to_physical.length := by
        have hp3 : p < (lswap M.logical_col_to_physical i j 0).length := hp
        rw [hL] at hp3
        exact hp3
      have hr := f2 p hp2
      refine ⟨?_, hr.2⟩
      show (lswap M.physical_col_to_logical
        (M.logical_col_to_physical.getD i 0)
        (M.logical_col_to_physical.getD j 0) 0).getD p 0 <
        (lswap M.logical_col_to_physical i j 0).length
      rw [hL]
      exact hr.1

theorem TablesInv_enable (M : SparseOctetMatrix)
    (hInv : SparseOctetMatrix.TablesInv M) :
    SparseOctetMatrix.TablesInv M.enable_column_acccess_acceleration :=
  TablesInv_transfer _ _ rfl rfl rfl rfl rfl rfl hInv

theorem TablesInv_disable (M : SparseOctetMatrix)
    (hInv : SparseOctetMatrix.TablesInv M) :
    SparseOctetMatrix.TablesInv M.disable_column_acccess_acceleration :=
  TablesInv_transfer _ _ rfl rfl rfl rfl rfl rfl hInv

theorem TablesInv_hint_compact (M : SparseOctetMatrix)
    (hInv : SparseOctetMatrix.TablesInv M) :
    SparseOctetMatrix.TablesInv M.hint_compact_dense_rows :=
  TablesInv_transfer _ _ rfl rfl rfl rfl rfl rfl hInv

theorem TablesInv_freeze (M : SparseOctetMatrix) (i : Nat)
    (M' : SparseOctetMatrix) (hInv : SparseOctetMatrix.TablesInv M)
    (h : M.hint_column_dense_and_frozen i = some M') :
    SparseOctetMatrix.TablesInv M' := by
  unfold SparseOctetMatrix.hint_column_dense_and_frozen at h
  by_cases h1 : M.width - M.num_dense_columns - 1 ≠ i
  · rw [if_pos h1] at h
    exact absurd h (by simp)
  · rw [if_neg h1] at h
    by_cases h2 : M.column_index_disabled = true
    · rw [if_pos h2] at h
      exact absurd h (by simp)
    · rw [if_neg h2] at h
      have hM' := (Option.some.inj h).symm
      subst hM'
      exact TablesInv_transfer _ _ rfl rfl rfl rfl rfl rfl hInv

theorem TablesInv_fma (M : SparseOctetMatrix) (d m : Nat) (s : Oct)
    (M' : SparseOctetMatrix) (hInv : SparseOctetMatrix.TablesInv M)
    (h : M.fma_rows d m s = some M') : SparseOctetMatrix.TablesInv M' := by
  unfold SparseOctetMatrix.fma_rows at h
  by_cases h1 : d = m
  · rw [if_pos h1] at h
    exact absurd h (by simp)
  · rw [if_neg h1] at h
    by_cases h2 : M.sparse_elements.length ≤
        M.logical_row_to_physical.getD m 0
    · rw [if_pos h2] at h
      exact absurd h (by simp)
    · rw [if_neg h2] at h
      have hM' := (Option.some.inj h).symm
      subst hM'
      unfold SparseOctetMatrix.fmaRowsCore
      split
      · exact TablesInv_transfer _ _ rfl rfl rfl rfl rfl rfl hInv
      · exact TablesInv_transfer _ _ rfl rfl rfl rfl rfl rfl hInv

theorem commitStep_tables (M other : SparseOctetMatrix) (rows : Nat)
    (acc : SparseOctetMatrix) (r : Nat) :
    (SparseOctetMatrix.mulAssignCommitStep M other rows acc r).height =
      acc.height ∧
    (SparseOctetMatrix.mulAssignCommitStep M other rows acc r).width =
      acc.width ∧
    (SparseOctetMatrix.mulAssignCommitStep M other rows acc
      r).logical_row_to_physical = acc.logical_row_to_physical ∧
    (SparseOctetMatrix.mulAssignCommitStep M other rows acc
      r).physical_row_to_logical = acc.physical_row_to_logical ∧
    (SparseOctetMatrix.mulAssignCommitStep M other rows acc
      r).logical_col_to_physical = acc.logical_col_to_physical ∧
    (SparseOctetMatrix.mulAssignCommitStep M other rows acc
      r).physical_col_to_logical = acc.physical_col_to_logical := by
  simp only [SparseOctetMatrix.mulAssignCommitStep]
  split
  · exact ⟨rfl, rfl, rfl, rfl, rfl, rfl⟩
  · exact ⟨rfl, rfl, rfl, rfl, rfl, rfl⟩

theorem mulAssignFold_tables (M other : SparseOctetMatrix) (rows : Nat)
    (l : List Nat) (acc : SparseOctetMatrix) :
    (l.foldl (SparseOctetMatrix.mulAssignCommitStep M other rows)
      acc).height = acc.height ∧
    (l.foldl (SparseOctetMatrix.mulAssignCommitStep M other rows)
      acc).width = acc.width ∧
    (l.foldl (SparseOctetMatrix.mulAssignCommitStep M other rows)
      acc).logical_row_to_physical = acc.logical_row_to_physical ∧
    (l.foldl (SparseOctetMatrix.mulAssignCommitStep M other rows)
      acc).physical_row_to_logical = acc.physical_row_to_logical ∧
    (l.foldl (SparseOctetMatrix.mulAssignCommitStep M other rows)
      acc).logical_col_to_physical = acc.logical_col_to_physical ∧
    (l.foldl (SparseOctetMatrix.mulAssignCommitStep M other rows)
      acc).physical_col_to_logical = acc.physical_col_to_logical := by
  induction l generalizing acc with
  | nil => exact ⟨rfl, rfl, rfl, rfl, rfl, rfl⟩
  | cons k tl ih =>
    rw [List.foldl_cons]
    obtain ⟨a1, a2, a3, a4, a5, a6⟩ :=
      ih (SparseOctetMatrix.mulAssignCommitStep M other rows acc k)
    obtain ⟨b1, b2, b3, b4, b5, b6⟩ := commitStep_tables M other rows acc k
    exact ⟨a1.trans b1, a2.trans b2, a3.trans b3, a4.trans b4, a5.trans b5,
      a6.trans b6⟩

theorem TablesInv_mul_assign (M other : SparseOctetMatrix) (rows : Nat)
    (M' : SparseOctetMatrix) (hInv : SparseOctetMatrix.TablesInv M)
    (h : M.mul_assign_submatrix other rows = some M') :
    SparseOctetMatrix.TablesInv M' := by
  unfold SparseOctetMatrix.mul_assign_submatrix at h
  split at h
  · exact absurd h (by simp)
  · split at h
    · exact absurd h (by simp)
    · split at h
      · exact absurd h (by simp)
      · split at h
        · exact absurd h (by simp)
        · split at h
          · exact absurd h (by simp)
          · split at h
            · exact absurd h (by simp)
            · have hM' := (Option.some.inj h).symm
              subst hM'
              obtain ⟨a1, a2, a3, a4, a5, a6⟩ := mulAssignFold_tables M other
                rows (List.range rows).reverse M
              exact TablesInv_transfer _ _ a1 a2 a3 a4 a5 a6 hInv

theorem TablesInv_resize (M : SparseOctetMatrix) (nh nw : Nat)
    (M' : SparseOctetMatrix) (hInv : SparseOctetMatrix.TablesInv M)
    (h : M.resize nh nw = some M') : SparseOctetMatrix.TablesInv M' := by
  obtain ⟨t1, t2, t3, t4, t5, t6, t7, t8⟩ := hInv
  unfold SparseOctetMatrix.resize at h
  by_cases h1 : M.height < nh
  · rw [if_pos h1] at h
    exact absurd h (by simp)
  rw [if_neg h1] at h
  by_cases h2 : M.width < nw
  · rw [if_pos h2] at h
    exact absurd h (by simp)
  rw [if_neg h2] at h
  by_cases h3 : M.column_index_disabled = true
  · rw [if_neg (by simp [h3])] at h
    have hM' := (Option.some.inj h).symm
    subst hM'
    refine ⟨?_, ?_, ?_, ?_, t5, ?_, t7, t8⟩
    · exact List.length_range nh
    · exact List.length_range nh
    · intro x hx
      have hx2 : x < nh := hx
      constructor
      · show (List.range nh).getD x 0 < nh
        rw [getD_range nh x hx2]
        exact hx2
      · show (List.range nh).getD ((List.range nh).getD x 0) 0 = x
        rw [getD_range nh x hx2, getD_range nh x hx2]
    · intro p hp
      have hp2 : p < nh := hp
      constructor
      · show (List.range nh).getD p 0 < nh
        rw [getD_range nh p hp2]
        exact hp2
      · show (List.range nh).getD ((List.range nh).getD p 0) 0 = p
        rw [getD_range nh p hp2, getD_range nh p hp2]
    · show nw ≤ M.logical_col_to_physical.length
      omega
  · rw [if_pos (by simp [h3])] at h
    exact absurd h (by simp)

/-- C8 (amended): the index tables are mutually inverse permutations in every
state reachable from `new`.  The row tables are mutually inverse permutations
of `0..height` throughout; the column tables are mutually inverse
permutations of `0..L` where `L` is their common length, with `width ≤ L`.
`L` equals the construction width; a width-shrinking `resize` leaves the
column tables untouched, so the original claim's reading of them as
permutations of `0..width` (current width) fails after such a resize, see
`resize_leaves_stale_column_tables`. -/
theorem tables_mutual_inverse_invariant (M : SparseOctetMatrix)
    (h : SparseOctetMatrix.TReachable M) : SparseOctetMatrix.TablesInv M := by
  induction h with
  | new height width tdc sdr ndr hh =>
      exact TablesInv_new height width tdc sdr ndr hh
  | set M i j v hM ih => exact TablesInv_set M i j v ih
  | swap_rows M i j hM hi hj ih => exact TablesInv_swap_rows M i j ih hi hj
  | swap_columns M i j M' hM hi hstep ih =>
      exact TablesInv_swap_columns M i j M' ih hi hstep
  | enable M hM ih => exact TablesInv_enable M ih
  | disable M hM ih => exact TablesInv_disable M ih
  | hint_compact M hM ih => exact TablesInv_hint_compact M ih
  | freeze M i M' hM hstep ih => exact TablesInv_freeze M i M' ih hstep
  | fma_rows M d m s M' hM hstep ih => exact TablesInv_fma M d m s M' ih hstep
  | mul_assign M other rows M' hM hstep ih =>
      exact TablesInv_mul_assign M other rows M' ih hstep
  | resize M nh nw M' hM hstep ih => exact TablesInv_resize M nh nw M' ih hstep

/-- Witness for C8: the invariant after constructing a 2x2 matrix with one
dense row in the middle and swapping its rows. -/
theorem tables_mutual_inverse_invariant_witness :
    SparseOctetMatrix.TablesInv
      ((SparseOctetMatrix.new 2 2 1 1 1).swap_rows 0 1) :=
  tables_mutual_inverse_invariant _
    (SparseOctetMatrix.TReachable.swap_rows _ 0 1
      (SparseOctetMatrix.TReachable.new 2 2 1 1 1 (by decide)) (by decide)
      (by decide))

/-- C8 counterexample to the strict reading: a width-shrinking `resize` does
not touch the column tables, so after swapping the two columns of a 1x2
matrix and resizing to 1x1 the tables keep length 2 and map logical column 0
to physical column 1, which is not below the new width 1 — they are not
permutations of `0..width` for the current width. -/
theorem resize_leaves_stale_column_tables :
    (((SparseOctetMatrix.new 1 2 0 0 0).swap_columns 0 1).bind
        (fun M1 => M1.resize 1 1)).map
      (fun M2 => (M2.width, M2.logical_col_to_physical.length,
        M2.logical_col_to_physical.getD 0 0)) = some (1, 2, 1) := by
  decide

theorem lookupZero_of_mem (l : List (Nat × Oct)) (q : Nat × Oct)
    (hq : q ∈ l) (hnd : (l.map Prod.fst).Nodup) :
    SparseOctetVec.lookupZero l q.1 = q.2 := by
  induction l with
  | nil => cases hq
  | cons a tl ih =>
    rcases List.mem_cons.mp hq with hqa | hqtl
    · rw [hqa]
      exact SparseOctetVec.lookupZero_cons_self a tl
    · have hne : q.1 ≠ a.1 := by
        intro hc
        have hm : q.1 ∈ tl.map Prod.fst := List.mem_map.mpr ⟨q, hqtl, rfl⟩
        rw [hc] at hm
        exact (List.nodup_cons.mp hnd).1 hm
      rw [SparseOctetVec.lookupZero_cons_ne a tl q.1 hne]
      exact ih hqtl (List.nodup_cons.mp hnd).2

/-- A stored entry of a row with unique keys is what the defaulting lookup
returns. -/
theorem sv_getZero_of_mem (v : SparseOctetVec) (q : Nat × Oct)
    (hq : q ∈ v.elements) (hnd : v.keys.Nodup) : v.getZero q.1 = q.2 := by
  rw [← SparseOctetVec.lookupZero_eq_getZero]
  exact lookupZero_of_mem v.elements q hq hnd

/-- A dot-product style list sum over distinct in-range keys equals the
corresponding sum over the full index range, for any coefficient function
that matches the stored values on the keys and vanishes elsewhere. -/
theorem list_sum_to_range (L : List (Nat × Oct)) (n : Nat) (F G : Nat → Oct)
    (hnd : (L.map Prod.fst).Nodup) (hb : ∀ p ∈ L, p.1 < n)
    (hval : ∀ p ∈ L, G p.1 = p.2)
    (hzero : ∀ i, i < n → i ∉ L.map Prod.fst → G i = 0) :
    (L.map (fun p => octMul p.2 (F p.1))).sum =
      ∑ i in Finset.range n, octMul (G i) (F i) := by
  have hsub : (L.map Prod.fst).toFinset ⊆ Finset.range n := by
    intro x hx
    rw [List.mem_toFinset] at hx
    rcases List.mem_map.mp hx with ⟨p, hp, hpx⟩
    rw [Finset.mem_range, ← hpx]
    exact hb p hp
  have hout : ∀ x ∈ Finset.range n, x ∉ (L.map Prod.fst).toFinset →
      octMul (G x) (F x) = 0 := by
    intro x hx hnx
    rw [Finset.mem_range] at hx
    rw [List.mem_toFinset] at hnx
    rw [hzero x hx hnx, octMul_zero_left]
  rw [← Finset.sum_subset hsub hout, List.sum_toFinset _ hnd, List.map_map]
  refine congrArg List.sum (List.map_congr_left ?_)
  intro p hp
  show octMul p.2 (F p.1) = octMul (G p.1) (F p.1)
  rw [hval p hp]

/-- Key distinctness is preserved by the logical-column translation and
range restriction of the multiplier's row iteration. -/
theorem filterMap_keys_nodup (p2lc : List Nat) (rows : Nat)
    (l : List (Nat × Oct)) (hnd : (l.map Prod.fst).Nodup)
    (hinj : ∀ a ∈ l, ∀ b ∈ l, p2lc.getD a.1 0 = p2lc.getD b.1 0 → a.1 = b.1) :
    ((l.filterMap (fun p =>
      if p2lc.getD p.1 0 < rows then some (p2lc.getD p.1 0, p.2)
      else none)).map Prod.fst).Nodup := by
  induction l with
  | nil => exact List.nodup_nil
  | cons q tl ih =>
    rw [List.filterMap_cons]
    have hq1 : q.1 ∉ tl.map Prod.fst := (List.nodup_cons.mp hnd).1
    have htl := ih (List.nodup_cons.mp hnd).2
      (fun a ha b hb => hinj a (List.mem_cons_of_mem q ha) b
        (List.mem_cons_of_mem q hb))
    by_cases hlt : p2lc.getD q.1 0 < rows
    · rw [if_pos hlt, List.map_cons]
      refine List.Nodup.cons ?_ htl
      intro hc
      rcases List.mem_map.mp hc with ⟨p, hp, hpk⟩
      rcases List.mem_filterMap.mp hp with ⟨q2, hq2, hfq2⟩
      by_cases hlt2 : p2lc.getD q2.1 0 < rows
      · rw [if_pos hlt2] at hfq2
        have hp2 := Option.some.inj hfq2
        have hfst : p.1 = p2lc.getD q2.1 0 := by rw [← hp2]
        rw [hfst] at hpk
        have heq := hinj q2 (List.mem_cons_of_mem q hq2) q
          (List.mem_cons_self q tl) hpk
        refine hq1 ?_
        rw [← heq]
        exact List.mem_map.mpr ⟨q2, hq2, rfl⟩
      · rw [if_neg hlt2] at hfq2
        exact absurd hfq2 (by simp)
    · rw [if_neg hlt]
      exact htl

/-- Unpacking membership of the multiplier row iteration. -/
theorem mem_rowIter (other : SparseOctetMatrix) (r rows : Nat) (p : Nat × Oct)
    (h : p ∈ SparseOctetMatrix.rowIter other r rows) :
    p.1 < rows ∧ ∃ q ∈ (other.sparse_elements.getD
      (other.logical_row_to_physical.getD r 0) SparseOctetVec.empty).elements,
      other.physical_col_to_logical.getD q.1 0 = p.1 ∧ q.2 = p.2 := by
  unfold SparseOctetMatrix.rowIter at h
  rcases List.mem_filterMap.mp h with ⟨q, hq, hfq⟩
  have hfq2 : (if other.physical_col_to_logical.getD q.1 0 < rows then
      some (other.physical_col_to_logical.getD q.1 0, q.2) else none) =
      some p := hfq
  by_cases hlt : other.physical_col_to_logical.getD q.1 0 < rows
  · rw [if_pos hlt] at hfq2
    have hp := Option.some.inj hfq2
    refine ⟨?_, q, hq, ?_, ?_⟩
    · rw [← hp]
      exact hlt
    · rw [← hp]
    · rw [← hp]
  · rw [if_neg hlt] at hfq2
    exact absurd hfq2 (by simp)

/-- A stored entry whose logical column lies in range appears in the
multiplier row iteration. -/
theorem rowIter_mem_of (other : SparseOctetMatrix) (r rows : Nat)
    (q : Nat × Oct)
    (hq : q ∈ (other.sparse_elements.getD
      (other.logical_row_to_physical.getD r 0) SparseOctetVec.empty).elements)
    (hlt : other.physical_col_to_logical.getD q.1 0 < rows) :
    (other.physical_col_to_logical.getD q.1 0, q.2) ∈
      SparseOctetMatrix.rowIter other r rows := by
  unfold SparseOctetMatrix.rowIter
  refine List.mem_filterMap.mpr ⟨q, hq, ?_⟩
  show (if other.physical_col_to_logical.getD q.1 0 < rows then
    some (other.physical_col_to_logical.getD q.1 0, q.2) else none) = _
  rw [if_pos hlt]

/-- The multiplier row iteration yields distinct logical columns. -/
theorem rowIter_keys_nodup (other : SparseOctetMatrix) (hwfo : other.WF)
    (r rows : Nat) :
    ((SparseOctetMatrix.rowIter other r rows).map Prod.fst).Nodup := by
  by_cases hin : other.logical_row_to_physical.getD r 0 <
      other.sparse_elements.length
  · have hrow := getD_mem other.sparse_elements
      (other.logical_row_to_physical.getD r 0) SparseOctetVec.empty hin
    have hnd := hwfo.hNodup _ hrow
    have hkeys := hwfo.hKeys _ hrow
    exact filterMap_keys_nodup other.physical_col_to_logical rows _ hnd
      (fun a ha b hb hc => by
        have h1 := (hwfo.hColP2L a.1 (hkeys a ha).1).2
        have h2 := (hwfo.hColP2L b.1 (hkeys b hb).1).2
        rw [← h1, ← h2, hc])
  · unfold SparseOctetMatrix.rowIter
    rw [getD_default _ _ _ (by omega)]
    exact List.nodup_nil

theorem mulAssignTempStep_pair_zero (M : SparseOctetMatrix)
    (a1 : SparseOctetVec) (td : List Oct) (p : Nat × Oct) (hz : p.2 = 0) :
    SparseOctetMatrix.mulAssignTempStep M (a1, td) p = (a1, td) := by
  unfold SparseOctetMatrix.mulAssignTempStep
  rw [if_neg (by simpa using hz)]

theorem mulAssignTempStep_pair_nz (M : SparseOctetMatrix)
    (a1 : SparseOctetVec) (td : List Oct) (p : Nat × Oct) (hz : p.2 ≠ 0) :
    SparseOctetMatrix.mulAssignTempStep M (a1, td) p =
      ((a1.fma (M.sparse_elements.getD
        (M.logical_row_to_physical.getD p.1 0) SparseOctetVec.empty) p.2).1,
       if p.2 = 1 then
         addSlice M.num_dense_columns td
           (M.dense_elements.getD (M.logical_row_to_physical.getD p.1 0) [])
       else
         fmaSlice p.2 M.num_dense_columns td
           (M.dense_elements.getD (M.logical_row_to_physical.getD p.1 0) [])) := by
  unfold SparseOctetMatrix.mulAssignTempStep
  rw [if_pos hz]

/-- The sparse accumulator of the temporary-row fold, read at one physical
column: the start value plus the scalar combination of the contributing
sparse rows. -/
theorem tempFold_sparse_getZero (M : SparseOctetMatrix)
    (hnd : ∀ row ∈ M.sparse_elements, row.keys.Nodup)
    (L : List (Nat × Oct)) (pc : Nat) (acc : SparseOctetVec) (td : List Oct) :
    ((L.foldl (SparseOctetMatrix.mulAssignTempStep M) (acc, td)).1).getZero
      pc = acc.getZero pc + (L.map (fun p => octMul p.2
        ((M.sparse_elements.getD (M.logical_row_to_physical.getD p.1 0)
          SparseOctetVec.empty).getZero pc))).sum := by
  induction L generalizing acc td with
  | nil =>
    rw [List.map_nil, List.sum_nil]
    exact (add_zero _).symm
  | cons p tl ih =>
    rw [List.foldl_cons, List.map_cons, List.sum_cons]
    by_cases hz : p.2 = 0
    · rw [mulAssignTempStep_pair_zero M acc td p hz, ih acc td, hz,
        octMul_zero_left, zero_add]
    · have hndrow : (M.sparse_elements.getD
          (M.logical_row_to_physical.getD p.1 0)
          SparseOctetVec.empty).keys.Nodup := by
        by_cases hin : M.logical_row_to_physical.getD p.1 0 <
            M.sparse_elements.length
        · exact hnd _ (getD_mem _ _ _ hin)
        · rw [getD_default _ _ _ (by omega)]
          exact List.nodup_nil
      rw [mulAssignTempStep_pair_nz M acc td p hz, ih _ _,
        SparseOctetVec.fma_getZero acc _ p.2 hndrow pc, octAdd_eq_add, add_assoc,
        octMul_comm]

/-- The dense accumulator of the temporary-row fold, read below the dense
prefix: the start value plus the scalar combination of the contributing
dense tails. -/
theorem tempFold_dense_getD (M : SparseOctetMatrix) (L : List (Nat × Oct))
    (t : Nat) (ht : t < M.num_dense_columns) (acc : SparseOctetVec)
    (td : List Oct) (htd : td.length = M.num_dense_columns) :
    ((L.foldl (SparseOctetMatrix.mulAssignTempStep M) (acc, td)).2).getD t 0 =
      td.getD t 0 + (L.map (fun p => octMul p.2
        ((M.dense_elements.getD (M.logical_row_to_physical.getD p.1 0)
          []).getD t 0))).sum := by
  induction L generalizing acc td with
  | nil =>
    rw [List.map_nil, List.sum_nil]
    exact (add_zero _).symm
  | cons p tl ih =>
    rw [List.foldl_cons, List.map_cons, List.sum_cons]
    by_cases hz : p.2 = 0
    · rw [mulAssignTempStep_pair_zero M acc td p hz, ih acc td htd, hz,
        octMul_zero_left, zero_add]
    · rw [mulAssignTempStep_pair_nz M acc td p hz,
        ih _ _ (by
          by_cases h1 : p.2 = 1
          · rw [if_pos h1, length_addSlice]
            exact htd
          · rw [if_neg h1, length_fmaSlice]
            exact htd),
        getD_tailCombine p.2 M.num_dense_columns td
          (M.dense_elements.getD (M.logical_row_to_physical.getD p.1 0) []) t
          ht (by omega),
        octAdd_eq_add, add_assoc, octMul_comm]

/-- The temporary sparse row of one destination row, as a scalar
combination of the contributing rows at one physical column. -/
theorem mulAssignTemp_sparse_getZero (M other : SparseOctetMatrix)
    (hnd : ∀ row ∈ M.sparse_elements, row.keys.Nodup) (r rows pc : Nat) :
    (SparseOctetMatrix.mulAssignTemp M other r rows).1.getZero pc =
      ((SparseOctetMatrix.rowIter other r rows).map (fun p => octMul p.2
        ((M.sparse_elements.getD (M.logical_row_to_physical.getD p.1 0)
          SparseOctetVec.empty).getZero pc))).sum := by
  unfold SparseOctetMatrix.mulAssignTemp
  rw [tempFold_sparse_getZero M hnd _ pc SparseOctetVec.empty
    (List.replicate M.num_dense_columns 0),
    show SparseOctetVec.empty.getZero pc = 0 from rfl, zero_add]

/-- The temporary dense tail of one destination row, below the dense
prefix. -/
theorem mulAssignTemp_dense_getD (M other : SparseOctetMatrix)
    (r rows t : Nat) (ht : t < M.num_dense_columns) :
    (SparseOctetMatrix.mulAssignTemp M other r rows).2.getD t 0 =
      ((SparseOctetMatrix.rowIter other r rows).map (fun p => octMul p.2
        ((M.dense_elements.getD (M.logical_row_to_physical.getD p.1 0)
          []).getD t 0))).sum := by
  unfold SparseOctetMatrix.mulAssignTemp
  rw [tempFold_dense_getD M _ t ht SparseOctetVec.empty
    (List.replicate M.num_dense_columns 0) (by rw [List.length_replicate]),
    getD_replicate, if_pos ht, zero_add]

theorem commitStep_sparse_dense (M other : SparseOctetMatrix) (rows : Nat)
    (acc : SparseOctetMatrix) (k : Nat) :
    (SparseOctetMatrix.mulAssignCommitStep M other rows acc
        k).sparse_elements =
      upd acc.sparse_elements (M.logical_row_to_physical.getD k 0)
        (fun _ => (SparseOctetMatrix.mulAssignTemp M other k rows).1) ∧
    (SparseOctetMatrix.mulAssignCommitStep M other rows acc
        k).dense_elements =
      upd acc.dense_elements (M.logical_row_to_physical.getD k 0)
        (fun _ => (SparseOctetMatrix.mulAssignTemp M other k rows).2) ∧
    (SparseOctetMatrix.mulAssignCommitStep M other rows acc k).dense_rows =
      acc.dense_rows ∧
    (SparseOctetMatrix.mulAssignCommitStep M other rows acc
        k).num_dense_columns = acc.num_dense_columns := by
  simp only [SparseOctetMatrix.mulAssignCommitStep]
  split
  · exact ⟨rfl, rfl, rfl, rfl⟩
  · exact ⟨rfl, rfl, rfl, rfl⟩

theorem commitFold_lengths (M other : SparseOctetMatrix) (rows : Nat)
    (l : List Nat) (acc : SparseOctetMatrix) :
    (l.foldl (SparseOctetMatrix.mulAssignCommitStep M other rows)
      acc).sparse_elements.length = acc.sparse_elements.length ∧
    (l.foldl (SparseOctetMatrix.mulAssignCommitStep M other rows)
      acc).dense_elements.length = acc.dense_elements.length ∧
    (l.foldl (SparseOctetMatrix.mulAssignCommitStep M other rows)
      acc).dense_rows = acc.dense_rows ∧
    (l.foldl (SparseOctetMatrix.mulAssignCommitStep M other rows)
      acc).num_dense_columns = acc.num_dense_columns := by
  induction l generalizing acc with
  | nil => exact ⟨rfl, rfl, rfl, rfl⟩
  | cons k tl ih =>
    rw [List.foldl_cons]
    obtain ⟨s1, s2, s3, s4⟩ := commitStep_sparse_dense M other rows acc k
    obtain ⟨i1, i2, i3, i4⟩ :=
      ih (SparseOctetMatrix.mulAssignCommitStep M other rows acc k)
    refine ⟨?_, ?_, i3.trans s3, i4.trans s4⟩
    · rw [i1, s1, length_upd]
    · rw [i2, s2, length_upd]

/-- The commit loop leaves physical rows it does not write untouched. -/
theorem commitFold_not_written (M other : SparseOctetMatrix) (rows : Nat)
    (l : List Nat) (acc : SparseOctetMatrix) (q : Nat)
    (h : ∀ k ∈ l, M.logical_row_to_physical.getD k 0 ≠ q) :
    (l.foldl (SparseOctetMatrix.mulAssignCommitStep M other rows)
        acc).sparse_elements.getD q SparseOctetVec.empty =
      acc.sparse_elements.getD q SparseOctetVec.empty ∧
    (l.foldl (SparseOctetMatrix.mulAssignCommitStep M other rows)
        acc).dense_elements.getD q [] = acc.dense_elements.getD q [] := by
  induction l generalizing acc with
  | nil => exact ⟨rfl, rfl⟩
  | cons k tl ih =>
    rw [List.foldl_cons]
    obtain ⟨s1, s2, _, _⟩ := commitStep_sparse_dense M other rows acc k
    obtain ⟨i1, i2⟩ :=
      ih (SparseOctetMatrix.mulAssignCommitStep M other rows acc k)
        (fun x hx => h x (List.mem_cons_of_mem k hx))
    have hk := h k (List.mem_cons_self k tl)
    constructor
    · rw [i1, s1, getD_upd_ne _ _ _ _ _ (Ne.symm hk)]
    · rw [i2, s2, getD_upd_ne _ _ _ _ _ (Ne.symm hk)]

/-- The commit loop installs each written row's temporary. -/
theorem commitFold_written (M other : SparseOctetMatrix) (rows : Nat)
    (l : List Nat) (acc : SparseOctetMatrix) (r : Nat) (hmem : r ∈ l)
    (hinj : ∀ a ∈ l, ∀ b ∈ l, M.logical_row_to_physical.getD a 0 =
      M.logical_row_to_physical.getD b 0 → a = b)
    (hnd : l.Nodup)
    (hs : M.logical_row_to_physical.getD r 0 < acc.sparse_elements.length)
    (hd : M.logical_row_to_physical.getD r 0 < acc.dense_elements.length) :
    (l.foldl (SparseOctetMatrix.mulAssignCommitStep M other rows)
        acc).sparse_elements.getD (M.logical_row_to_physical.getD r 0)
        SparseOctetVec.empty =
      (SparseOctetMatrix.mulAssignTemp M other r rows).1 ∧
    (l.foldl (SparseOctetMatrix.mulAssignCommitStep M other rows)
        acc).dense_elements.getD (M.logical_row_to_physical.getD r 0) [] =
      (SparseOctetMatrix.mulAssignTemp M other r rows).2 := by
  induction l generalizing acc with
  | nil => cases hmem
  | cons k tl ih =>
    rw [List.foldl_cons]
    obtain ⟨s1, s2, _, _⟩ := commitStep_sparse_dense M other rows acc k
    by_cases hk : r = k
    · subst hk
      have htl : r ∉ tl := (List.nodup_cons.mp hnd).1
      have hne : ∀ x ∈ tl, M.logical_row_to_physical.getD x 0 ≠
          M.logical_row_to_physical.getD r 0 := by
        intro x hx hc
        have hxr := hinj x (List.mem_cons_of_mem r hx) r
          (List.mem_cons_self r tl) hc
        rw [hxr] at hx
        exact htl hx
      obtain ⟨n1, n2⟩ := commitFold_not_written M other rows tl
        (SparseOctetMatrix.mulAssignCommitStep M other rows acc r)
        (M.logical_row_to_physical.getD r 0) hne
      constructor
      · rw [n1, s1, getD_upd_self _ _ _ _ hs]
      · rw [n2, s2, getD_upd_self _ _ _ _ hd]
    · rcases List.mem_cons.mp hmem with hc | htl
      · exact absurd hc hk
      exact ih (SparseOctetMatrix.mulAssignCommitStep M other rows acc k) htl
        (fun a ha b hb => hinj a (List.mem_cons_of_mem k ha) b
          (List.mem_cons_of_mem k hb))
        (List.nodup_cons.mp hnd).2
        (by rw [s1, length_upd]; exact hs)
        (by rw [s2, length_upd]; exact hd)

/-- C7: Submatrix multiplication computes the GF(256) matrix product on the
destination block and leaves the remaining rows unchanged.  For well-formed
`self` and `other`, a successful `mul_assign_submatrix(other, rows)` (its
guards require `other` to be `rows` x `rows` with no dense tail and all rows
physically sparse, `rows ≤ height`, and `self` to have no physical dense
rows) makes every destination entry `get(r, c)` with `r < rows`,
`c < width` equal to the sum over `i < rows` of `other[r][i] * get(i, c)`
over the old values, and leaves `get(r, c)` unchanged for `rows ≤ r`. -/
theorem mul_assign_submatrix_sum (M other : SparseOctetMatrix) (hwf : M.WF)
    (hwfo : other.WF) (rows : Nat) (M' : SparseOctetMatrix)
    (h : M.mul_assign_submatrix other rows = some M') :
    (∀ r, r < rows → ∀ c, c < M.width →
      M'.get r c = ∑ i in Finset.range rows,
        octMul (other.get r i) (M.get i c)) ∧
    (∀ r, rows ≤ r → r < M.height → ∀ c, M'.get r c = M.get r c) := by
  unfold SparseOctetMatrix.mul_assign_submatrix at h
  by_cases g1 : rows ≠ other.height
  · rw [if_pos g1] at h
    exact absurd h (by simp)
  rw [if_neg g1] at h
  by_cases g2 : rows ≠ other.width
  · rw [if_pos g2] at h
    exact absurd h (by simp)
  rw [if_neg g2] at h
  by_cases g3 : M.height < rows
  · rw [if_pos g3] at h
    exact absurd h (by simp)
  rw [if_neg g3] at h
  by_cases g4 : other.num_dense_columns ≠ 0
  · rw [if_pos g4] at h
    exact absurd h (by simp)
  rw [if_neg g4] at h
  by_cases g5 : M.dense_rows ≠ []
  · rw [if_pos g5] at h
    exact absurd h (by simp)
  rw [if_neg g5] at h
  by_cases g6 : (List.range rows).all
      (fun r => decide (other.logical_row_to_physical.getD r 0 + 1 ≤
        other.sparse_elements.length)) = true
  · rw [if_neg (fun hc => hc g6)] at h
    have hM' := (Option.some.inj h).symm
    subst hM'
    have e2 : rows = other.width := not_not.mp g2
    have e4 : other.num_dense_columns = 0 := not_not.mp g4
    have e5 : M.dense_rows = [] := not_not.mp g5
    have hlen : M.sparse_elements.length = M.height := by
      have h0 := hwf.hRowLen
      rw [e5] at h0
      simpa using h0
    have hsp : ∀ r2, r2 < rows → other.logical_row_to_physical.getD r2 0 <
        other.sparse_elements.length := by
      intro r2 hr2
      have h1 := List.all_eq_true.mp g6 r2 (List.mem_range.mpr hr2)
      have h2 := of_decide_eq_true h1
      omega
    have hcore : M.mulAssignCore other rows =
        (List.range rows).reverse.foldl
          (SparseOctetMatrix.mulAssignCommitStep M other rows) M := rfl
    obtain ⟨a1, a2, a3, a4, a5, a6⟩ := mulAssignFold_tables M other rows
      (List.range rows).reverse M
    obtain ⟨L1, L2, L3, L4⟩ := commitFold_lengths M other rows
      (List.range rows).reverse M
    constructor
    · intro r hr c hc
      have hrh : r < M.height := by omega
      have hpr := (hwf.hRowL2P r hrh).1
      have hinj2 : ∀ a ∈ (List.range rows).reverse,
          ∀ b ∈ (List.range rows).reverse,
          M.logical_row_to_physical.getD a 0 =
            M.logical_row_to_physical.getD b 0 → a = b := by
        intro a ha b hb hc2
        have ha2 : a < rows := List.mem_range.mp (List.mem_reverse.mp ha)
        have hb2 : b < rows := List.mem_range.mp (List.mem_reverse.mp hb)
        by_contra hne
        exact SparseOctetMatrix.l2p_row_injective M hwf a b (by omega) (by omega) hne hc2
      obtain ⟨w1, w2⟩ := commitFold_written M other rows
        (List.range rows).reverse M r
        (List.mem_reverse.mpr (List.mem_range.mpr hr)) hinj2
        (List.nodup_reverse.mpr (List.nodup_range rows))
        (by rw [hlen]; exact hpr) (by rw [hwf.hDenseLen]; exact hpr)
      have hval : ∀ p ∈ SparseOctetMatrix.rowIter other r rows,
          other.get r p.1 = p.2 := by
        intro p hp
        obtain ⟨hlt, q, hq, hpc, hv⟩ := mem_rowIter other r rows p hp
        have hrowin : other.logical_row_to_physical.getD r 0 <
            other.sparse_elements.length := hsp r hr
        have hrowmem := getD_mem other.sparse_elements _
          SparseOctetVec.empty hrowin
        have hqw : q.1 < other.width := (hwfo.hKeys _ hrowmem q hq).1
        rw [get_sparse_read other r p.1 (by omega) (by omega), ← hpc,
          (hwfo.hColP2L q.1 hqw).2, ← hv]
        exact sv_getZero_of_mem _ q hq (hwfo.hNodup _ hrowmem)
      have hzero : ∀ i, i < rows →
          i ∉ (SparseOctetMatrix.rowIter other r rows).map Prod.fst →
          other.get r i = 0 := by
        intro i hi hni
        have hrowin : other.logical_row_to_physical.getD r 0 <
            other.sparse_elements.length := hsp r hr
        rw [get_sparse_read other r i (by omega) (by omega)]
        by_contra hne
        cases hgv : (other.sparse_elements.getD
            (other.logical_row_to_physical.getD r 0)
            SparseOctetVec.empty).get
            (other.logical_col_to_physical.getD i 0) with
        | none =>
          refine hne ?_
          rw [show (other.sparse_elements.getD
              (other.logical_row_to_physical.getD r 0)
              SparseOctetVec.empty).getZero
              (other.logical_col_to_physical.getD i 0) =
            ((other.sparse_elements.getD
              (other.logical_row_to_physical.getD r 0)
              SparseOctetVec.empty).get
              (other.logical_col_to_physical.getD i 0)).getD 0 from rfl, hgv]
          rfl
        | some v2 =>
          have hv2 : (other.sparse_elements.getD
              (other.logical_row_to_physical.getD r 0)
              SparseOctetVec.empty).getZero
              (other.logical_col_to_physical.getD i 0) = v2 := by
            rw [show (other.sparse_elements.getD
                (other.logical_row_to_physical.getD r 0)
                SparseOctetVec.empty).getZero
                (other.logical_col_to_physical.getD i 0) =
              ((other.sparse_elements.getD
                (other.logical_row_to_physical.getD r 0)
                SparseOctetVec.empty).get
                (other.logical_col_to_physical.getD i 0)).getD 0 from rfl,
              hgv]
            rfl
          have hmem2 := sv_get_eq_some_mem _ _ _ hgv
          have hiw : i < other.width := by omega
          have hback := (hwfo.hColL2P i hiw).2
          have hmem3 := rowIter_mem_of other r rows
            (other.logical_col_to_physical.getD i 0, v2) hmem2
            (by
              show other.physical_col_to_logical.getD
                (other.logical_col_to_physical.getD i 0) 0 < rows
              rw [hback]
              exact hi)
          refine hni (List.mem_map.mpr ⟨_, hmem3, ?_⟩)
          show other.physical_col_to_logical.getD
            (other.logical_col_to_physical.getD i 0) 0 = i
          exact hback
      rw [hcore]
      by_cases hcT : M.width - c ≤ M.num_dense_columns
      · rw [get_tail_read _ r c (by rw [a2, L4]; exact hcT), a3, a2, w2,
          mulAssignTemp_dense_getD M other r rows (M.width - c - 1)
            (by omega),
          show (SparseOctetMatrix.rowIter other r rows).map (fun p =>
            octMul p.2 ((M.dense_elements.getD
              (M.logical_row_to_physical.getD p.1 0) []).getD
              (M.width - c - 1) 0)) =
            (SparseOctetMatrix.rowIter other r rows).map (fun p =>
              octMul p.2 (M.get p.1 c)) from
          List.map_congr_left (fun p hp => by
            rw [get_tail_read M p.1 c hcT])]
        exact list_sum_to_range _ rows (fun i => M.get i c)
          (fun i => other.get r i) (rowIter_keys_nodup other hwfo r rows)
          (fun p hp => (mem_rowIter other r rows p hp).1) hval hzero
      · rw [get_sparse_read _ r c (by rw [a2, L4]; exact hcT)
            (by rw [L1, a3]; omega), a3, a5, w1,
          mulAssignTemp_sparse_getZero M other hwf.hNodup r rows
            (M.logical_col_to_physical.getD c 0),
          show (SparseOctetMatrix.rowIter other r rows).map (fun p =>
            octMul p.2 ((M.sparse_elements.getD
              (M.logical_row_to_physical.getD p.1 0)
              SparseOctetVec.empty).getZero
              (M.logical_col_to_physical.getD c 0))) =
            (SparseOctetMatrix.rowIter other r rows).map (fun p =>
              octMul p.2 (M.get p.1 c)) from
          List.map_congr_left (fun p hp => by
            have hp1 : p.1 < rows := (mem_rowIter other r rows p hp).1
            have hp1h : p.1 < M.height := by omega
            have hppr := (hwf.hRowL2P p.1 hp1h).1
            rw [get_sparse_read M p.1 c hcT (by omega)])]
        exact list_sum_to_range _ rows (fun i => M.get i c)
          (fun i => other.get r i) (rowIter_keys_nodup other hwfo r rows)
          (fun p hp => (mem_rowIter other r rows p hp).1) hval hzero
    · intro r hge hrh c
      have hpr := (hwf.hRowL2P r hrh).1
      have hnot : ∀ k ∈ (List.range rows).reverse,
          M.logical_row_to_physical.getD k 0 ≠
            M.logical_row_to_physical.getD r 0 := by
        intro k hk
        have hk2 : k < rows := List.mem_range.mp (List.mem_reverse.mp hk)
        exact SparseOctetMatrix.l2p_row_injective M hwf k r (by omega) hrh (by omega)
      obtain ⟨n1, n2⟩ := commitFold_not_written M other rows
        (List.range rows).reverse M (M.logical_row_to_physical.getD r 0) hnot
      rw [hcore]
      by_cases hcT : M.width - c ≤ M.num_dense_columns
      · rw [get_tail_read _ r c (by rw [a2, L4]; exact hcT),
          get_tail_read M r c hcT, a3, a2, n2]
      · have hsp2 : ¬ (M.sparse_elements.length ≤
            M.logical_row_to_physical.getD r 0) := by omega
        rw [get_sparse_read _ r c (by rw [a2, L4]; exact hcT)
            (by rw [L1, a3]; omega),
          get_sparse_read M r c hcT hsp2, a3, a5, n1]
  · rw [if_pos g6] at h
    exact absurd h (by simp)

/-- Witness for C7: multiply the single entry 1 of a 1x1 matrix by itself. -/
theorem mul_assign_submatrix_sum_witness :
    (∀ r, r < 1 → ∀ c, c < ((SparseOctetMatrix.new 1 1 0 0 0).set 0 0
        1).width →
      (((SparseOctetMatrix.new 1 1 0 0 0).set 0 0 1).mulAssignCore
        ((SparseOctetMatrix.new 1 1 0 0 0).set 0 0 1) 1).get r c =
        ∑ i in Finset.range 1,
          octMul (((SparseOctetMatrix.new 1 1 0 0 0).set 0 0 1).get r i)
            (((SparseOctetMatrix.new 1 1 0 0 0).set 0 0 1).get i c)) ∧
    (∀ r, 1 ≤ r → r < ((SparseOctetMatrix.new 1 1 0 0 0).set 0 0 1).height →
      ∀ c, (((SparseOctetMatrix.new 1 1 0 0 0).set 0 0 1).mulAssignCore
        ((SparseOctetMatrix.new 1 1 0 0 0).set 0 0 1) 1).get r c =
        ((SparseOctetMatrix.new 1 1 0 0 0).set 0 0 1).get r c) :=
  mul_assign_submatrix_sum _ _ (by constructor <;> decide)
    (by constructor <;> decide) 1 _ rfl

end RaptorQ
